import Mathlib

/-!
The query tree of `internal/keysbuilder/fields.go`.

A shallow embedding of the request parser (`UnmarshalJSON` of the body and of the
field descriptors) and of the key expansion (`keys`) of the autoupdate service.

Modelling conventions.

* A JSON document is a value of `JSON`; the text-level syntax check of
  `encoding/json` is not modelled, every `JSON` value stands for a syntactically
  valid document.
* Go's `int` is the 64-bit signed integer; decoding a number that does not fit
  is a type error of `encoding/json`.
* `encoding/json` matches the name of a member with the name of a struct attribute without
  regard to case (`isField`), decodes the members of an object one after the other into the
  struct, keeps a type error for the end of the decoding and stops at once at an error that
  an `UnmarshalJSON` method returns.
* A Go map is an association list (`GoMap`), read with `GoMap.get?` and written
  with `GoMap.set`.  The members of a JSON object are listed in the order in which
  they appear in the document, and `range` over the map decoded from an object
  visits the entries in that order.  Go leaves the order of `range` open, so a
  statement about every run is a statement about every ordering of the members.
-/

namespace Keysbuilder

/-! ## Regular expressions -/

/-- A character class, given by the list of its members. -/
def charClass (cs : List Char) : RegularExpression Char :=
  cs.foldr (fun c r => RegularExpression.char c + r) 0

/-- The class `a-z`. -/
def lowerChars : List Char := "abcdefghijklmnopqrstuvwxyz".toList

/-- The class `0-9`. -/
def digitChars : List Char := "0123456789".toList

/-- The class `a-z_`. -/
def collectionChars : List Char := lowerChars ++ ['_']

/-- The class `a-z0-9_`. -/
def fieldChars : List Char := lowerChars ++ digitChars ++ ['_']

/-- The regular expression `r+`. -/
def rePlus (r : RegularExpression Char) : RegularExpression Char := r * r.star

/-- The regular expression `r?`. -/
def reOpt (r : RegularExpression Char) : RegularExpression Char := r + 1

/-- The pattern `^([a-z]+|[a-z][a-z_]*[a-z])$` of `reCollection`, without its anchors. -/
def reCollection : RegularExpression Char :=
  rePlus (charClass lowerChars) +
    charClass lowerChars * ((charClass collectionChars).star * charClass lowerChars)

/-- The pattern `^[a-z][a-z0-9_]*\$?[a-z0-9_]*$` of `reField`, without its anchors. -/
def reField : RegularExpression Char :=
  charClass lowerChars *
    ((charClass fieldChars).star *
      (reOpt (RegularExpression.char '$') * (charClass fieldChars).star))

/-- The pattern `^[a-z]+(_[a-z]+)*$` that the specification gives for collection names. -/
def reCollectionSpec : RegularExpression Char :=
  rePlus (charClass lowerChars) *
    (RegularExpression.char '_' * rePlus (charClass lowerChars)).star

/-- The method `MatchString` of a pattern that is anchored at both ends: the whole string has
to match. -/
def MatchString (re : RegularExpression Char) (s : String) : Bool :=
  re.rmatch s.toList

/-- The collection names that the parser accepts, in words: lower-case letters and
underscores, with a letter at both ends. -/
def isCollectionName (s : String) : Bool :=
  s.toList.all (fun c => c.isLower || c == '_') &&
    (s.toList.head?.any Char.isLower && s.toList.getLast?.any Char.isLower)

/-- The field names of the specification, in words: a lower-case letter first, then lower-case
letters, digits, underscores and at most one `$`. -/
def isFieldName (s : String) : Bool :=
  s.toList.head?.any Char.isLower &&
    (s.toList.all (fun c => c.isLower || c.isDigit || c == '_' || c == '$') &&
      decide (s.toList.count '$' ≤ 1))

/-! ## Go maps -/

/-- A Go map as an association list. The first entry of a key is the one that counts. -/
abbrev GoMap (κ : Type) (α : Type) : Type := List (κ × α)

/-- The map read `m[k]`, with `none` for a key that is not in the map. -/
def GoMap.get? {κ α : Type} [DecidableEq κ] : GoMap κ α → κ → Option α
  | [], _ => none
  | (k', v) :: rest, k => if k' = k then some v else GoMap.get? rest k

/-- The map write `m[k] = v`. -/
def GoMap.set {κ α : Type} [DecidableEq κ] : GoMap κ α → κ → α → GoMap κ α
  | [], k, v => [(k, v)]
  | (k', v') :: rest, k, v =>
    if k' = k then (k, v) :: rest else (k', v') :: GoMap.set rest k v

/-- The entries that `range` visits: every key of the map once, with the value the map holds
for it. -/
def GoMap.range {κ α : Type} [DecidableEq κ] : GoMap κ α → List (κ × α)
  | [] => []
  | (k, v) :: rest => (k, v) :: (GoMap.range rest).filter (fun e => decide (e.1 ≠ k))

/-- The keys of the map, every key once. -/
def GoMap.keySet {κ α : Type} [DecidableEq κ] (m : GoMap κ α) : List κ :=
  (GoMap.range m).map Prod.fst

/-- The number of entries `len(m)`. -/
def GoMap.size {κ α : Type} [DecidableEq κ] (m : GoMap κ α) : Nat :=
  (GoMap.range m).length

/-! ## JSON values and `encoding/json` -/

/-- A JSON document. `num` is a number written without fraction and exponent, `float` any other
number, kept as its text. -/
inductive JSON where
  | null
  | bool (b : Bool)
  | num (n : Int)
  | float (lit : String)
  | str (s : String)
  | arr (xs : List JSON)
  | obj (ms : List (String × JSON))

/-- The smallest value of Go's `int`. -/
def minInt : Int := -9223372036854775808

/-- The largest value of Go's `int`. -/
def maxInt : Int := 9223372036854775807

/-- Whether a number fits Go's `int`. -/
def fitsInt (n : Int) : Bool := decide (minInt ≤ n) && decide (n ≤ maxInt)

/-- Decoding into an `int` that holds `cur`: the new content, and whether a type error was
recorded. `null` leaves the variable as it is. -/
def decodeInt (v : JSON) (cur : Int) : Int × Bool :=
  match v with
  | .null => (cur, false)
  | .num n => if fitsInt n then (n, false) else (cur, true)
  | _ => (cur, true)

/-- Decoding into a `string` that holds `cur`. -/
def decodeString (v : JSON) (cur : String) : String × Bool :=
  match v with
  | .null => (cur, false)
  | .str s => (s, false)
  | _ => (cur, true)

/-- A Go slice: its elements, and the rest of its backing array (`spare`), which a later
decoding into the same slice reuses. -/
structure Slice (α : Type) where
  elems : List α
  spare : List α

/-- The nil slice. -/
def Slice.nil {α : Type} : Slice α := ⟨[], []⟩

/-- Decoding the elements of a JSON array one after the other into the slots of a slice:
slot `i` starts with what the backing array holds there, or with the zero value. -/
def decodeElems {α : Type} (dec : JSON → α → α × Bool) (zero : α) :
    List JSON → List α → List α × Bool
  | [], _ => ([], false)
  | x :: xs, store =>
    let r := dec x (store.headD zero)
    let rs := decodeElems dec zero xs store.tail
    (r.1 :: rs.1, r.2 || rs.2)

/-- Decoding into a slice: `null` sets it to nil, the empty array to an empty slice with a
backing array of its own, any other array fills it element by element, and anything else is a
type error and leaves it as it is. -/
def decodeSlice {α : Type} (dec : JSON → α → α × Bool) (zero : α) (v : JSON) (cur : Slice α) :
    Slice α × Bool :=
  match v with
  | .null => (Slice.nil, false)
  | .arr [] => (Slice.nil, false)
  | .arr xs =>
    let store := cur.elems ++ cur.spare
    let r := decodeElems dec zero xs store
    (⟨r.1, store.drop xs.length⟩, r.2)
  | _ => (cur, true)

/-- The letter to which the decoder folds a rune when it compares a member name with the name
of a struct field. -/
def foldRune (c : Char) : Char :=
  if 'A' ≤ c ∧ c ≤ 'Z' then Char.ofNat (c.toNat + 32)
  else if c = Char.ofNat 0x17F then 's'
  else if c = Char.ofNat 0x212A then 'k'
  else c

/-- Whether the member name `key` selects the struct field with the (lower-case) JSON name
`field`: the decoder compares them without regard to case. -/
def isField (field key : String) : Bool :=
  decide (key.toList.map foldRune = field.toList)

/-! ## Errors -/

/-- The error `InvalidError` with its attributes `sub`, `msg` and `field`: `base` has no `sub`. -/
inductive InvalidError where
  | base (msg : String) (field : String)
  | nested (sub : InvalidError) (msg : String) (field : String)
  deriving DecidableEq, Repr

/-- The errors of the parser. -/
inductive Err where
  | invalid (e : InvalidError)
  | json
  | wrapped (msg : String) (e : Err)
  deriving DecidableEq, Repr

/-! ## The query tree -/

/-- The interface `fieldDescription` with its five implementations; `nil` is the nil interface,
the description of a field without sub-fields. -/
inductive fieldDescription where
  | nil
  | relationField (collection : String) (fields : List (String × fieldDescription))
  | relationListField (collection : String) (fields : List (String × fieldDescription))
  | genericRelationField (fields : List (String × fieldDescription))
  | genericRelationListField (fields : List (String × fieldDescription))
  | templateField (values : fieldDescription)

/-- The map `fields` of a `fieldsMap`. -/
abbrev fieldsMap : Type := GoMap String fieldDescription

/-- The struct `body`. -/
structure body where
  ids : List Int
  collection : String
  fields : fieldsMap

mutual

/-- Structural equality of two field descriptions. -/
def fieldDescription.beq : fieldDescription → fieldDescription → Bool
  | .nil, .nil => true
  | .relationField c f, .relationField c' f' => c == c' && fieldDescription.beqFields f f'
  | .relationListField c f, .relationListField c' f' =>
    c == c' && fieldDescription.beqFields f f'
  | .genericRelationField f, .genericRelationField f' => fieldDescription.beqFields f f'
  | .genericRelationListField f, .genericRelationListField f' =>
    fieldDescription.beqFields f f'
  | .templateField v, .templateField v' => fieldDescription.beq v v'
  | _, _ => false

/-- Structural equality of two lists of named field descriptions. -/
def fieldDescription.beqFields :
    List (String × fieldDescription) → List (String × fieldDescription) → Bool
  | [], [] => true
  | (n, d) :: t, (n', d') :: t' =>
    n == n' && fieldDescription.beq d d' && fieldDescription.beqFields t t'
  | _, _ => false

end

/-- The name of the type of a description in the attribute `type`; the nil description has
none. -/
def fieldDescription.kind : fieldDescription → String
  | .nil => ""
  | .relationField _ _ => "relation"
  | .relationListField _ _ => "relation-list"
  | .genericRelationField _ => "generic-relation"
  | .genericRelationListField _ => "generic-relation-list"
  | .templateField _ => "template"

/-- The verb `%q` on a name of printable ASCII characters other than the double quote and the
backslash: Go puts such a name between double quotes as it is. The parser takes the quoting
as a parameter `quote`; the concrete inputs below pass this function and quote such names
only. -/
def quoteASCII (s : String) : String := "\"" ++ s ++ "\""

/-! ## Parsing the request -/

/-- The result of decoding a JSON object into a struct: the struct, and whether a type error
was recorded on the way. A type error does not stop the decoder; `json.Unmarshal` returns it
at the end. -/
abbrev Decoded (σ : Type) : Type := σ × Bool

/-- Decoding the members of an object into the struct with the single attribute
`Type string`. -/
def decodeType : List (String × JSON) → Decoded String → Decoded String
  | [], st => st
  | (k, v) :: ms, st =>
    if isField "type" k then
      let r := decodeString v st.1
      decodeType ms (r.1, st.2 || r.2)
    else decodeType ms st

/-- The entries of the map that `encoding/json` builds from the members of an object: a later
member replaces an earlier one of the same name. -/
def lastMembers {α : Type} : List (String × α) → List (String × α)
  | [] => []
  | (k, v) :: ms =>
    if ms.any (fun e => e.1 == k) then lastMembers ms else (k, v) :: lastMembers ms

/-- The loop of `fieldsMap.UnmarshalJSON` over the decoded members. Each entry comes with the
result of `unmarshalField` on its value, which the loop looks at only after the check of the
name. -/
def fieldsMap.collect (quote : String → String) :
    List (String × Except Err fieldDescription) → fieldsMap → Except Err fieldsMap
  | [], acc => .ok acc
  | (name, r) :: rest, acc =>
    if !MatchString reField name then
      .error (.invalid (.base ("fieldname " ++ quote name ++ " is not a valid fieldname") name))
    else
      match r with
      | .error (.invalid sub) => .error (.invalid (.nested sub "Error on field" name))
      | .error e => .error e
      | .ok fd => fieldsMap.collect quote rest (GoMap.set acc name fd)

/-- The local struct of `relationField.UnmarshalJSON`; `Fields` is `none` while the map
`Fields.fields` is nil. -/
structure relationStruct where
  Collection : String
  Fields : Option fieldsMap

/-- The checks of `relationField.UnmarshalJSON` on the decoded struct. -/
def relationField.check (d : Decoded relationStruct) : Except Err (String × fieldsMap) :=
  if d.2 then .error .json
  else if d.1.Collection = "" then .error (.invalid (.base "no collection" ""))
  else
    match d.1.Fields with
    | none => .error (.invalid (.base "no fields" ""))
    | some fields =>
      if !MatchString reCollection d.1.Collection then
        .error (.invalid (.base "invalid collection name" ""))
      else .ok (d.1.Collection, fields)

/-- The check of `genericRelationField.UnmarshalJSON` on the decoded struct. -/
def genericRelationField.check (d : Decoded (Option fieldsMap)) : Except Err fieldsMap :=
  if d.2 then .error .json
  else
    match d.1 with
    | none => .error (.invalid (.base "no fields" ""))
    | some fields => .ok fields

/-- The second half of `templateField.UnmarshalJSON`. The argument is the result of
`unmarshalField` on the attribute `values`, `none` when the attribute is empty. -/
def templateField.check (values : Option (Except Err fieldDescription)) :
    Except Err fieldDescription :=
  match values with
  | none => .ok .nil
  | some (.error (.invalid sub)) =>
    .error (.invalid (.nested sub "Error in template sub" "template"))
  | some (.error e) => .error (.wrapped "decoding sub attribute of template field" e)
  | some (.ok values) => .ok values

mutual

/-- The function `unmarshalField`. After the switch on the type, `json.Unmarshal(data, &r)`
runs the method `UnmarshalJSON` of the chosen type: the decoding of the members and the
checks on the decoded struct. -/
def unmarshalField (quote : String → String) : JSON → Except Err fieldDescription
  | .null => .ok .nil
  | .obj ms =>
    let t := decodeType ms ("", false)
    if t.2 then .error .json
    else if t.1 = "relation" then
      ((relationField.decode quote ms ⟨"", none⟩ false).bind relationField.check).map
        (fun r => .relationField r.1 r.2)
    else if t.1 = "relation-list" then
      ((relationField.decode quote ms ⟨"", none⟩ false).bind relationField.check).map
        (fun r => .relationListField r.1 r.2)
    else if t.1 = "generic-relation" then
      ((genericRelationField.decode quote ms none false).bind genericRelationField.check).map
        .genericRelationField
    else if t.1 = "generic-relation-list" then
      ((genericRelationField.decode quote ms none false).bind genericRelationField.check).map
        .genericRelationListField
    else if t.1 = "template" then
      (templateField.check (templateField.decode quote ms none)).map .templateField
    else if t.1 = "" then .error (.invalid (.base "no type" ""))
    else .error (.invalid (.base ("unknown type " ++ t.1) ""))
  | _ => .error .json

/-- The call of `json.Unmarshal` in `relationField.UnmarshalJSON`: the members of the object
are decoded in their order into the struct `st`; an error that the attribute `fields` returns
ends the decoding at once. -/
def relationField.decode (quote : String → String) :
    List (String × JSON) → relationStruct → Bool → Except Err (Decoded relationStruct)
  | [], st, bad => .ok (st, bad)
  | (k, v) :: ms, st, bad =>
    if isField "collection" k then
      let r := decodeString v st.Collection
      relationField.decode quote ms ⟨r.1, st.Fields⟩ (bad || r.2)
    else if isField "fields" k then
      match fieldsMap.UnmarshalJSON quote v with
      | .error e => .error e
      | .ok fields => relationField.decode quote ms ⟨st.Collection, some fields⟩ bad
    else relationField.decode quote ms st bad

/-- The call of `json.Unmarshal` in `genericRelationField.UnmarshalJSON`. -/
def genericRelationField.decode (quote : String → String) :
    List (String × JSON) → Option fieldsMap → Bool → Except Err (Decoded (Option fieldsMap))
  | [], st, bad => .ok (st, bad)
  | (k, v) :: ms, st, bad =>
    if isField "fields" k then
      match fieldsMap.UnmarshalJSON quote v with
      | .error e => .error e
      | .ok fields => genericRelationField.decode quote ms (some fields) bad
    else genericRelationField.decode quote ms st bad

/-- The first half of `templateField.UnmarshalJSON`. The attribute `values` is kept as raw
JSON, which never fails, and `unmarshalField` runs on it after the decoding; the state holds
the result of `unmarshalField` for the last member `values` seen. -/
def templateField.decode (quote : String → String) :
    List (String × JSON) → Option (Except Err fieldDescription) →
      Option (Except Err fieldDescription)
  | [], st => st
  | (k, v) :: ms, st =>
    if isField "values" k then templateField.decode quote ms (some (unmarshalField quote v))
    else templateField.decode quote ms st

/-- The method `fieldsMap.UnmarshalJSON`. -/
def fieldsMap.UnmarshalJSON (quote : String → String) : JSON → Except Err fieldsMap
  | .null => .ok []
  | .obj ms => fieldsMap.collect quote (lastMembers (unmarshalFields quote ms)) []
  | _ => .error (.wrapped "decode fields" .json)

/-- The function `unmarshalField` on the value of every member of a `fields` object. -/
def unmarshalFields (quote : String → String) :
    List (String × JSON) → List (String × Except Err fieldDescription)
  | [] => []
  | (k, v) :: ms => (k, unmarshalField quote v) :: unmarshalFields quote ms

end

/-- The method `relationField.UnmarshalJSON` on an object with the members `ms`; the method of
`relationListField` is the same. -/
def relationField.UnmarshalJSON (quote : String → String) (ms : List (String × JSON)) :
    Except Err (String × fieldsMap) :=
  (relationField.decode quote ms ⟨"", none⟩ false).bind relationField.check

/-- The method `genericRelationField.UnmarshalJSON` on an object with the members `ms`; the
method of `genericRelationListField` is the same. -/
def genericRelationField.UnmarshalJSON (quote : String → String) (ms : List (String × JSON)) :
    Except Err fieldsMap :=
  (genericRelationField.decode quote ms none false).bind genericRelationField.check

/-- The method `templateField.UnmarshalJSON` on an object with the members `ms`: the inner
description `values`. -/
def templateField.UnmarshalJSON (quote : String → String) (ms : List (String × JSON)) :
    Except Err fieldDescription :=
  templateField.check (templateField.decode quote ms none)

/-- The local struct of `body.UnmarshalJSON`. -/
structure bodyStruct where
  IDs : Slice Int
  Collection : String
  Fields : Option fieldsMap

/-- The call of `json.Unmarshal` in `body.UnmarshalJSON` on the members of an object. -/
def body.decode (quote : String → String) :
    List (String × JSON) → bodyStruct → Bool → Except Err (Decoded bodyStruct)
  | [], st, bad => .ok (st, bad)
  | (k, v) :: ms, st, bad =>
    if isField "ids" k then
      let r := decodeSlice decodeInt 0 v st.IDs
      body.decode quote ms ⟨r.1, st.Collection, st.Fields⟩ (bad || r.2)
    else if isField "collection" k then
      let r := decodeString v st.Collection
      body.decode quote ms ⟨st.IDs, r.1, st.Fields⟩ (bad || r.2)
    else if isField "fields" k then
      match fieldsMap.UnmarshalJSON quote v with
      | .error e => .error e
      | .ok fields => body.decode quote ms ⟨st.IDs, st.Collection, some fields⟩ bad
    else body.decode quote ms st bad

/-- The call `json.Unmarshal(data, &field)` of `body.UnmarshalJSON`: `null` leaves the struct
empty, and a document that is neither an object nor `null` is a type error. -/
def body.unmarshalStruct (quote : String → String) : JSON → Except Err (Decoded bodyStruct)
  | .obj ms => body.decode quote ms ⟨Slice.nil, "", none⟩ false
  | .null => .ok (⟨Slice.nil, "", none⟩, false)
  | _ => .ok (⟨Slice.nil, "", none⟩, true)

/-- The checks of `body.UnmarshalJSON` on the decoded struct, and the body it builds. -/
def body.check (d : Decoded bodyStruct) : Except Err body :=
  if d.2 then .error .json
  else if d.1.IDs.elems.length = 0 then .error (.invalid (.base "no ids" ""))
  else if d.1.IDs.elems.any (fun id => decide (id ≤ 0)) then
    .error (.invalid (.base "id has to be a positive number" ""))
  else if d.1.Collection = "" then
    .error (.invalid (.base "attribute collection is missing" ""))
  else
    match d.1.Fields with
    | none => .error (.invalid (.base "attribte fields is missing" ""))
    | some fields =>
      if !MatchString reCollection d.1.Collection then
        .error (.invalid (.base "invalid collection name" ""))
      else .ok ⟨d.1.IDs.elems, d.1.Collection, fields⟩

/-- The method `body.UnmarshalJSON`. -/
def body.UnmarshalJSON (quote : String → String) (data : JSON) : Except Err body :=
  (body.unmarshalStruct quote data).bind body.check

/-! ## The path of an error -/

/-- Modelled from the spec: the method `Fields` of `InvalidError`, whose source is not part of
the files at hand. It is the path of field names that the error carries, from the outermost
field to the innermost; an error without `sub` and without `field` has the empty path (the
tests of `fields_test.go` compare `Fields` with this path). -/
def InvalidError.Fields : InvalidError → List String
  | .base _ field => if field = "" then [] else [field]
  | .nested sub _ field => field :: sub.Fields

/-- The message of the innermost error of the chain `sub`. -/
def InvalidError.innerMsg : InvalidError → String
  | .base msg _ => msg
  | .nested sub _ _ => sub.innerMsg

/-- Modelled from the spec: the method `Error` of `InvalidError`, whose source is not part of
the files at hand. An error with the path `a`, `b`, `c` is reported as
`field "a.b.c": message` with the innermost message, an error with the empty path as the
message alone (the tests of `fields_test.go` compare `Error` with these texts). -/
def InvalidError.Error (e : InvalidError) : String :=
  if e.Fields = [] then e.innerMsg
  else "field \"" ++ ".".intercalate e.Fields ++ "\": " ++ e.innerMsg

mutual

/-- The object `fields` with the members `ms` has a failure at the place `path` with the
message `msg`: a name of the object is not a field name, or the description of a name fails
at the rest of the path. The empty name leaves no trace in the path. -/
inductive FieldsFailure (quote : String → String) :
    List (String × JSON) → List String → String → Prop where
  | name {ms : List (String × JSON)} {name : String} {v : JSON} :
    (name, v) ∈ ms → isFieldName name = false →
    FieldsFailure quote ms (if name = "" then [] else [name])
      ("fieldname " ++ quote name ++ " is not a valid fieldname")
  | sub {ms : List (String × JSON)} {name : String} {v : JSON} {path : List String}
      {msg : String} :
    (name, v) ∈ ms → DescriptionFailure quote v path msg →
    FieldsFailure quote ms (name :: path) msg

/-- The description `j` has a failure at the place `path` with the message `msg`: the
description itself is rejected with this message (`own`), or its attribute `fields` has the
failure, or its attribute `values` has it, which adds the step `template` to the path. -/
inductive DescriptionFailure (quote : String → String) :
    JSON → List String → String → Prop where
  | own {ms : List (String × JSON)} {msg : String} :
    unmarshalField quote (.obj ms) = .error (.invalid (.base msg "")) →
    DescriptionFailure quote (.obj ms) [] msg
  | fields {ms : List (String × JSON)} {k : String} {fs : List (String × JSON)}
      {path : List String} {msg : String} :
    (k, JSON.obj fs) ∈ ms → isField "fields" k = true → FieldsFailure quote fs path msg →
    DescriptionFailure quote (.obj ms) path msg
  | values {ms : List (String × JSON)} {k : String} {v : JSON} {path : List String}
      {msg : String} :
    (k, v) ∈ ms → isField "values" k = true → DescriptionFailure quote v path msg →
    DescriptionFailure quote (.obj ms) ("template" :: path) msg

end

/-! ## Expanding the keys -/

/-- The type `dskey.Key`. -/
structure Key where
  Collection : String
  ID : Int
  Field : String
  deriving DecidableEq, Repr

/-- The map `map[dskey.Key]fieldDescription` that the `keys` methods fill. -/
abbrev KeyMap : Type := GoMap Key fieldDescription

/-- The errors that the `keys` methods build with `fmt.Errorf`: `decoding key` stands for
`decoding value for key %s: %w` with the error of `encoding/json`, `invalidCollectionID cid`
for `invalid collection id: %s`. -/
inductive KeysErr where
  | decoding (key : Key)
  | invalidCollectionID (cid : String)
  deriving DecidableEq, Repr

/-- The function `strings.Cut(s, "/")` on the characters of `s`: the text before the first
`/` and the text after it, or `none` when there is no `/`. -/
def cutSlash : List Char → Option (List Char × List Char)
  | [] => none
  | c :: cs =>
    if c = '/' then some ([], cs)
    else (cutSlash cs).map (fun r => (c :: r.1, r.2))

/-- The value of a decimal digit. -/
def digitValue (c : Char) : Option Nat :=
  if '0' ≤ c ∧ c ≤ '9' then some (c.toNat - 48) else none

/-- The value of a non-empty run of decimal digits, read after the digits of value `acc`. -/
def parseDigits : List Char → Nat → Option Nat
  | [], acc => some acc
  | c :: cs, acc =>
    match digitValue c with
    | none => none
    | some d => parseDigits cs (acc * 10 + d)

/-- The value of an unsigned decimal number, which has at least one digit. -/
def parseUnsigned (cs : List Char) : Option Nat :=
  if cs = [] then none else parseDigits cs 0

/-- The function `strconv.Atoi`: an optional sign and decimal digits, with a value that fits
`int`. -/
def Atoi (s : String) : Option Int :=
  let r : Option Int :=
    match s.toList with
    | '-' :: cs => (parseUnsigned cs).map (fun n => -(n : Int))
    | '+' :: cs => (parseUnsigned cs).map (fun n => (n : Int))
    | cs => (parseUnsigned cs).map (fun n => (n : Int))
  r.bind (fun n => if fitsInt n then some n else none)

/-- The function `strings.Replace(s, "$", new, 1)` on the characters of `s`. -/
def replaceDollar : List Char → List Char → List Char
  | [], _ => []
  | c :: cs, new => if c = '$' then new ++ cs else c :: replaceDollar cs new

/-- The method `fieldsMap.keys`, which works on the map `data` in place: the result is the map
after the call. -/
def fieldsMap.keys (f : fieldsMap) (collection : String) (id : Int) (data : KeyMap) : KeyMap :=
  (GoMap.range f).foldl (fun d e => GoMap.set d ⟨collection, id, e.1⟩ e.2) data

/-- The method `body.keys`. -/
def body.keys (b : body) (data : KeyMap) : KeyMap :=
  b.ids.foldl (fun d id => fieldsMap.keys b.fields b.collection id d) data

/-- The method `relationField.keys` of the relation to `collection` with the sub-fields
`fields`: the map after the call and the error returned. -/
def relationField.keys (collection : String) (fields : fieldsMap) (key : Key) (value : JSON)
    (data : KeyMap) : KeyMap × Option KeysErr :=
  let r := decodeInt value 0
  if r.2 then (data, some (.decoding key))
  else (fieldsMap.keys fields collection r.1 data, none)

/-- The method `relationListField.keys`. -/
def relationListField.keys (collection : String) (fields : fieldsMap) (key : Key) (value : JSON)
    (data : KeyMap) : KeyMap × Option KeysErr :=
  let r := decodeSlice decodeInt 0 value Slice.nil
  if r.2 then (data, some (.decoding key))
  else
    (r.1.elems.foldl
      (fun d id => (GoMap.range fields).foldl (fun d e => GoMap.set d ⟨collection, id, e.1⟩ e.2) d)
      data, none)

/-- The part of the generic relations that follows the decoding of one `cid`: cut it at the
`/`, read the id and add the keys. -/
def genericRelationField.add (fields : fieldsMap) (cid : String) (data : KeyMap) :
    KeyMap × Option KeysErr :=
  match cutSlash cid.toList with
  | none => (data, some (.invalidCollectionID cid))
  | some (collection, rawID) =>
    match Atoi (String.mk rawID) with
    | none => (data, some (.invalidCollectionID cid))
    | some id => (fieldsMap.keys fields (String.mk collection) id data, none)

/-- The method `genericRelationField.keys`. -/
def genericRelationField.keys (fields : fieldsMap) (key : Key) (value : JSON) (data : KeyMap) :
    KeyMap × Option KeysErr :=
  let r := decodeString value ""
  if r.2 then (data, some (.decoding key))
  else genericRelationField.add fields r.1 data

/-- The loop of `genericRelationListField.keys`, which returns at the first `cid` that is not
valid. -/
def genericRelationListField.loop (fields : fieldsMap) : List String → KeyMap →
    KeyMap × Option KeysErr
  | [], data => (data, none)
  | cid :: cids, data =>
    match genericRelationField.add fields cid data with
    | (data', some err) => (data', some err)
    | (data', none) => genericRelationListField.loop fields cids data'

/-- The method `genericRelationListField.keys`. -/
def genericRelationListField.keys (fields : fieldsMap) (key : Key) (value : JSON)
    (data : KeyMap) : KeyMap × Option KeysErr :=
  let r := decodeSlice decodeString "" value Slice.nil
  if r.2 then (data, some (.decoding key))
  else genericRelationListField.loop fields r.1.elems data

/-- The method `templateField.keys` of the template with the inner description `values`. -/
def templateField.keys (values : fieldDescription) (key : Key) (value : JSON) (data : KeyMap) :
    KeyMap × Option KeysErr :=
  let r := decodeSlice decodeString "" value Slice.nil
  if r.2 then (data, some (.decoding key))
  else
    (r.1.elems.foldl
      (fun d v =>
        GoMap.set d
          ⟨key.Collection, key.ID,
            String.mk (replaceDollar key.Field.toList ('$' :: v.toList))⟩ values)
      data, none)

/-- The collection and the id that the generic relations read from a `cid`, when it has the
form `collection/id`. -/
def collectionID (cid : String) : Option (String × Int) :=
  match cutSlash cid.toList with
  | none => none
  | some (collection, rawID) => (Atoi (String.mk rawID)).map (fun id => (String.mk collection, id))

/-- Whether a string has the form `collection/id` with an id that `strconv.Atoi` reads. -/
def isCollectionID (cid : String) : Bool := (collectionID cid).isSome

/-- The method `keys` of the interface `fieldDescription`. The nil interface has no method;
the caller does not call it. -/
def fieldDescription.keys (d : fieldDescription) (key : Key) (value : JSON) (data : KeyMap) :
    KeyMap × Option KeysErr :=
  match d with
  | .nil => (data, none)
  | .relationField c f => relationField.keys c f key value data
  | .relationListField c f => relationListField.keys c f key value data
  | .genericRelationField f => genericRelationField.keys f key value data
  | .genericRelationListField f => genericRelationListField.keys f key value data
  | .templateField v => templateField.keys v key value data

/-! ## The text of a key and of an error of `keys` -/

/-- The value of a decimal number with an optional sign, whatever its size: what
`strconv.Atoi` reads before it looks at the range. -/
def decimalValue (cs : List Char) : Option Int :=
  match cs with
  | '-' :: ds => (parseUnsigned ds).map (fun n => -(n : Int))
  | '+' :: ds => (parseUnsigned ds).map (fun n => (n : Int))
  | ds => (parseUnsigned ds).map (fun n => (n : Int))

/-- The key that `templateField.keys` builds from the key of the template and one replacement:
the first `$` of the field is followed by the replacement. -/
def templateKey (key : Key) (r : String) : Key :=
  ⟨key.Collection, key.ID, String.mk (replaceDollar key.Field.toList ('$' :: r.toList))⟩

/-- Modelled from the spec: the method `String` of `dskey.Key`, whose source is not part of the
files at hand. The textual form of a key is `collection/id/field`. -/
def Key.String (k : Key) : String :=
  k.Collection ++ "/" ++ toString k.ID ++ "/" ++ k.Field

/-- The message of an error of `keys`, as `fmt.Errorf` builds it; `jsonError` is the message
of the error of `encoding/json` that `%w` wraps. -/
def KeysErr.Error (jsonError : String) : KeysErr → String
  | .decoding key => "decoding value for key " ++ key.String ++ ": " ++ jsonError
  | .invalidCollectionID cid => "invalid collection id: " ++ cid

/-! ## The order of the entries of a `fields` object -/

/-- The error with which the loop of `fieldsMap.UnmarshalJSON` returns at an entry, and `none`
for an entry that the loop stores: the name of the entry with the result of `unmarshalField`
on its value. -/
def fieldsMap.entryError (quote : String → String)
    (e : String × Except Err fieldDescription) : Option Err :=
  if !MatchString reField e.1 then
    some (.invalid (.base ("fieldname " ++ quote e.1 ++ " is not a valid fieldname") e.1))
  else
    match e.2 with
    | .error (.invalid sub) => some (.invalid (.nested sub "Error on field" e.1))
    | .error err => some err
    | .ok _ => none

/-- The assignment `f.fields[name] = fd` of the loop of `fieldsMap.UnmarshalJSON` for an
entry with a description. -/
def fieldsMap.store (acc : fieldsMap) (e : String × Except Err fieldDescription) : fieldsMap :=
  match e.2 with
  | .ok fd => GoMap.set acc e.1 fd
  | .error _ => acc

/-! ## The expansion engine -/

/-- Whether a description is a leaf, the nil interface: a leaf has no sub-expansion. -/
def fieldDescription.isLeaf : fieldDescription → Bool
  | .nil => true
  | _ => false

/-- Modelled from the spec: the state of the key-expansion engine of section 4.2, whose code
is not part of the files at hand: the key-descriptor map, the entries that have been
expanded, and the errors of the expansions so far. -/
structure Expansion where
  data : KeyMap
  expanded : List (Key × fieldDescription)
  errors : List KeysErr

/-- Modelled from the spec: whether an entry, a key with its description, has been
expanded. -/
def Expansion.isExpanded (st : Expansion) (e : Key × fieldDescription) : Bool :=
  st.expanded.any (fun x => decide (x.1 = e.1) && fieldDescription.beq x.2 e.2)

/-- Modelled from the spec: step 1 of the algorithm of section 4.2, the entries of the map
whose description is not a leaf and which are not yet expanded. -/
def Expansion.todo (st : Expansion) : List (Key × fieldDescription) :=
  (GoMap.range st.data).filter (fun e => !e.2.isLeaf && !st.isExpanded e)

/-- Modelled from the spec: steps 2 to 4 of the algorithm of section 4.2 for one entry. The
value of the key is read from the data-store `store`; an absent value and the value `null`
yield no sub-keys and no error; for every other value the method `keys` of the description
of the entry works on the map. -/
def expandEntry (store : Key → Option JSON) (e : Key × fieldDescription) (data : KeyMap) :
    KeyMap × Option KeysErr :=
  match store e.1 with
  | none => (data, none)
  | some .null => (data, none)
  | some value => e.2.keys e.1 value data

/-- Modelled from the spec: the expansion of one collected entry in the state of the engine.
The entry is marked, and an error is kept while the expansion goes on. -/
def Expansion.step (store : Key → Option JSON) (st : Expansion)
    (e : Key × fieldDescription) : Expansion :=
  ⟨(expandEntry store e st.data).1, e :: st.expanded,
    st.errors ++ (expandEntry store e st.data).2.toList⟩

/-- Modelled from the spec: one pass of the algorithm of section 4.2. The entries to expand
are collected first and then expanded one after the other; `order` is the order in which the
collected entries are processed, which the spec leaves open. -/
def expandRound (order : List (Key × fieldDescription) → List (Key × fieldDescription))
    (store : Key → Option JSON) (st : Expansion) : Expansion :=
  (order st.todo).foldl (Expansion.step store) st

/-- Modelled from the spec: step 5 of the algorithm of section 4.2, the passes until no entry
is left to expand. The result is `none` when `fuel` passes do not reach this state. -/
def expand (order : List (Key × fieldDescription) → List (Key × fieldDescription))
    (store : Key → Option JSON) : Nat → Expansion → Option Expansion
  | 0, st => if st.todo.isEmpty then some st else none
  | fuel + 1, st =>
    if st.todo.isEmpty then some st
    else expand order store fuel (expandRound order store st)

/-- Modelled from the spec: the engine on the root `b`, the map seeded with `body.keys` and
expanded to the fixed point. -/
def Update (order : List (Key × fieldDescription) → List (Key × fieldDescription))
    (store : Key → Option JSON) (fuel : Nat) (b : body) : Option Expansion :=
  expand order store fuel ⟨body.keys b [], [], []⟩

/-- The keys of the map of the engine that have a value in the data-store. -/
def Expansion.valued (store : Key → Option JSON) (st : Expansion) : List Key :=
  (GoMap.keySet st.data).filter (fun k => (store k).isSome)

/-- Whether every key that the two maps share has the same description in both. -/
def KeyMap.agree (m1 m2 : KeyMap) : Bool :=
  (GoMap.range m1).all (fun w =>
    match GoMap.get? m2 w.1 with
    | none => true
    | some d => fieldDescription.beq d w.2)

/-- Whether no two of the entries write different descriptions to the same key, where the
writes of an entry are those of its expansion on the empty map. -/
def conflictFree (store : Key → Option JSON) (l : List (Key × fieldDescription)) : Bool :=
  l.all (fun e1 => l.all (fun e2 =>
    KeyMap.agree (expandEntry store e1 []).1 (expandEntry store e2 []).1))

/-- Whether the engine reaches the fixed point in `fuel` passes in which no two entries of a
pass write different descriptions to the same key; the entries are processed in the order in
which they are collected. -/
def orderFree (store : Key → Option JSON) : Nat → Expansion → Bool
  | 0, st => st.todo.isEmpty
  | fuel + 1, st =>
    st.todo.isEmpty ||
      (conflictFree store st.todo && orderFree store fuel (expandRound id store st))

/-- The data set of the tests of the package `autoupdate`, `dataSet` in `feature_test.go`. -/
def dataSet : GoMap Key JSON :=
  [(⟨"user", 1, "id"⟩, .num 1),
   (⟨"a", 1, "a"⟩, .str "a1"),
   (⟨"a", 1, "title"⟩, .str "a1"),
   (⟨"a", 1, "b_id"⟩, .num 1),
   (⟨"a", 1, "c_ids"⟩, .arr []),
   (⟨"a", 1, "ga_ids"⟩, .arr [.num 1, .num 2]),
   (⟨"a", 2, "a"⟩, .str "a2"),
   (⟨"a", 2, "title"⟩, .str "a2"),
   (⟨"a", 2, "c_ids"⟩, .arr [.num 1, .num 2]),
   (⟨"a", 2, "ga_ids"⟩, .arr []),
   (⟨"b", 1, "b"⟩, .str "b1"),
   (⟨"b", 1, "title"⟩, .str "b1"),
   (⟨"b", 1, "a_id"⟩, .num 1),
   (⟨"b", 1, "c_ids"⟩, .arr [.num 1]),
   (⟨"b", 1, "gb_id"⟩, .num 1),
   (⟨"b", 1, "b_children_ids"⟩, .arr [.num 2]),
   (⟨"b", 1, "d_ids"⟩, .arr [.num 1]),
   (⟨"b", 2, "b"⟩, .str "b2"),
   (⟨"b", 2, "title"⟩, .str "b2"),
   (⟨"b", 2, "c_ids"⟩, .arr [.num 1, .num 2]),
   (⟨"b", 2, "b_parent_id"⟩, .num 1),
   (⟨"b", 2, "b_children_ids"⟩, .arr []),
   (⟨"b", 2, "d_ids"⟩, .arr [.num 1, .num 2]),
   (⟨"c", 1, "c"⟩, .str "c1"),
   (⟨"c", 1, "title"⟩, .str "c1"),
   (⟨"c", 1, "a_id"⟩, .num 2),
   (⟨"c", 1, "b_ids"⟩, .arr [.num 1, .num 2]),
   (⟨"c", 1, "ga_ids"⟩, .arr [.num 2, .num 3]),
   (⟨"c", 2, "c"⟩, .str "c2"),
   (⟨"c", 2, "title"⟩, .str "c2"),
   (⟨"c", 2, "a_id"⟩, .num 2),
   (⟨"c", 2, "b_ids"⟩, .arr [.num 2]),
   (⟨"c", 2, "ga_ids"⟩, .arr [.num 2, .num 3]),
   (⟨"d", 1, "d"⟩, .str "d1"),
   (⟨"d", 1, "b_$_ids"⟩, .arr [.str "1", .str "2", .str "3"]),
   (⟨"d", 1, "b_$1_ids"⟩, .arr [.num 1, .num 2]),
   (⟨"d", 1, "b_$2_ids"⟩, .arr [.num 1]),
   (⟨"d", 1, "b_$3_ids"⟩, .arr []),
   (⟨"d", 2, "d"⟩, .str "d2"),
   (⟨"d", 2, "b_$_ids"⟩, .arr [.str "1", .str "4"]),
   (⟨"d", 2, "b_$1_ids"⟩, .arr []),
   (⟨"d", 2, "b_$4_ids"⟩, .arr [.num 2]),
   (⟨"ga", 1, "ga"⟩, .str "ga.1"),
   (⟨"ga", 1, "content_object_ids"⟩, .arr [.str "a/1"]),
   (⟨"ga", 2, "ga"⟩, .str "ga.2"),
   (⟨"ga", 2, "content_object_ids"⟩, .arr [.str "a/1", .str "c/1", .str "c/2"]),
   (⟨"ga", 3, "ga"⟩, .str "ga.3"),
   (⟨"ga", 3, "content_object_ids"⟩, .arr [.str "c/1", .str "c/2"]),
   (⟨"gb", 1, "gb"⟩, .str "gb.1"),
   (⟨"gb", 1, "content_object_id"⟩, .str "b/1")]

/-- The request of the test `Partial merged fields, generic lookup` in `feature_test.go`. -/
def genericLookupRequest : JSON :=
  .obj [("collection", .str "gb"), ("ids", .arr [.num 1]),
    ("fields", .obj [("content_object_id", .obj [("type", .str "generic-relation"),
      ("fields", .obj [
        ("b_children_ids", .obj [("type", .str "relation-list"), ("collection", .str "b"),
          ("fields", .obj [
            ("c_ids", .obj [("type", .str "relation-list"), ("collection", .str "c"),
              ("fields", .obj [("c", .null)])]),
            ("b_parent_id", .null)])]),
        ("c_ids", .obj [("type", .str "relation-list"), ("collection", .str "c"),
          ("fields", .obj [("c", .null), ("title", .null)])]),
        ("gb_id", .null)])])])]

/-- The root that the parser builds from the request of the test
`Partial merged fields, generic lookup`. -/
def genericLookup : body :=
  ⟨[1], "gb",
    [("content_object_id", .genericRelationField
      [("b_children_ids", .relationListField "b"
          [("c_ids", .relationListField "c" [("c", .nil)]), ("b_parent_id", .nil)]),
        ("c_ids", .relationListField "c" [("c", .nil), ("title", .nil)]),
        ("gb_id", .nil)])]⟩

/-- The request of the test `structed references` in `feature_test.go`. -/
def structuredReferencesRequest : JSON :=
  .obj [("collection", .str "d"), ("ids", .arr [.num 1, .num 2]),
    ("fields", .obj [
      ("b_$_ids", .obj [("type", .str "template"),
        ("values", .obj [("type", .str "relation-list"), ("collection", .str "b"),
          ("fields", .obj [("b", .null)])])]),
      ("b_$4_ids", .obj [("type", .str "relation-list"), ("collection", .str "b"),
        ("fields", .obj [("title", .null)])])])]

/-- The root that the parser builds from the request of the test `structed references`. -/
def structuredReferences : body :=
  ⟨[1, 2], "d",
    [("b_$_ids", .templateField (.relationListField "b" [("b", .nil)])),
      ("b_$4_ids", .relationListField "b" [("title", .nil)])]⟩

/-- The lookups of `f m` are those of `f []`, and the lookups of `m` for the keys that `f []`
does not hold: `f` writes to the map entries that do not depend on the map. -/
def Overlay (f : KeyMap → KeyMap) : Prop :=
  ∀ m k, GoMap.get? (f m) k = (GoMap.get? (f []) k).or (GoMap.get? m k)

/-- The two maps hold the same description for every key: they are the same Go map. -/
def MapEq (m m' : KeyMap) : Prop := ∀ k, GoMap.get? m k = GoMap.get? m' k

/-- No key gets one description from `f` and another one from `g`. -/
def Compatible (f g : KeyMap → KeyMap) : Prop :=
  ∀ k d d', GoMap.get? (f []) k = some d → GoMap.get? (g []) k = some d' → d = d'

/-- Two states of the engine with the same Go map, the same expanded entries and the same
errors, in whatever order. -/
def Expansion.Equiv (st st' : Expansion) : Prop :=
  MapEq st.data st'.data ∧ (∀ e, e ∈ st.expanded ↔ e ∈ st'.expanded) ∧
    st.errors.Perm st'.errors

/-! ## The depth of a description -/

mutual

/-- The nesting depth of a description in the query tree: 0 for a leaf, and one more than the
depth of the deepest sub-field, or of the inner description of a template. -/
def fieldDescription.depth : fieldDescription → Nat
  | .nil => 0
  | .relationField _ f => fieldDescription.depthFields f + 1
  | .relationListField _ f => fieldDescription.depthFields f + 1
  | .genericRelationField f => fieldDescription.depthFields f + 1
  | .genericRelationListField f => fieldDescription.depthFields f + 1
  | .templateField v => fieldDescription.depth v + 1

/-- The depth of the deepest description of a list of named descriptions. -/
def fieldDescription.depthFields : List (String × fieldDescription) → Nat
  | [] => 0
  | (_, d) :: t => max (fieldDescription.depth d) (fieldDescription.depthFields t)

end

/-- The direct children of a description in the query tree: the descriptions of its
sub-fields, or the inner description of a template. -/
def fieldDescription.children : fieldDescription → List fieldDescription
  | .nil => []
  | .relationField _ f => (GoMap.range f).map Prod.snd
  | .relationListField _ f => (GoMap.range f).map Prod.snd
  | .genericRelationField f => (GoMap.range f).map Prod.snd
  | .genericRelationListField f => (GoMap.range f).map Prod.snd
  | .templateField v => [v]

/-- The depth of the root `b`: the depth of the deepest description of its fields. -/
def body.depth (b : body) : Nat := fieldDescription.depthFields b.fields

/-- Every entry of the map of the engine that is not yet expanded has a description of depth
at most `j`. -/
def Expansion.Bounded (j : Nat) (st : Expansion) : Prop :=
  ∀ k d, GoMap.get? st.data k = some d → (k, d) ∉ st.expanded → d.depth ≤ j

end Keysbuilder

/-! ## The restricter of the collection `meeting` -/

namespace Collection

/-- The reads of `Meeting.see`, `Meeting.modeC` and `Meeting.modeD` from the context, the
data-store and the helpers of the package `perm`, whose code is not part of the files at
hand. Every read returns a value or the message of an error:
`requestUser` is `perm.RequestUserFromContext(ctx)`,
`hasOrganizationManagementLevel u` is
`perm.HasOrganizationManagementLevel(ctx, ds, u, perm.OMLCanManageOrganization)`,
`enableAnonymous m` is `ds.Meeting_EnableAnonymous(m).Value(ctx)`,
`userIDs m` is `ds.Meeting_UserIDs(m).Value(ctx)`,
`committeeID m` is `ds.Meeting_CommitteeID(m).Value(ctx)`,
`hasCommitteeManagementLevel u c` is `perm.HasCommitteeManagementLevel(ctx, ds, u, c)`,
`templateForOrganizationID m` is `ds.Meeting_TemplateForOrganizationID(m).Value(ctx)`, a value
and whether there is one,
`managementLevelCommittees u` is `perm.ManagementLevelCommittees(ctx, ds, u)`, and
`permissions m` is `perm.FromContext(ctx, m)`, given by the method `Has` of the permission
set. -/
structure Reads where
  requestUser : Except String Int
  hasOrganizationManagementLevel : Int → Except String Bool
  enableAnonymous : Int → Except String Bool
  userIDs : Int → Except String (List Int)
  committeeID : Int → Except String Int
  hasCommitteeManagementLevel : Int → Int → Except String Bool
  templateForOrganizationID : Int → Except String (Int × Bool)
  managementLevelCommittees : Int → Except String (List Int)
  permissions : Int → Except String (String → Bool)

/-- Modelled from the spec: the constant `perm.MeetingCanSeeFrontpage`, which the doc comment
of `Meeting` names for mode C. -/
def MeetingCanSeeFrontpage : String := "meeting.can_see_frontpage"

/-- Modelled from the spec: the constant `perm.MeetingCanSeeLivestream`, which the doc comment
of `Meeting` names for mode D. -/
def MeetingCanSeeLivestream : String := "meeting.can_see_livestream"

/-- Modelled from the spec: the loop of the helper `eachCondition`, whose code is not part of
the files at hand, over the ids that are left, with the ids found so far in reverse order. An
error of the condition for one id ends the loop with no id and this error. -/
def eachCondition.loop (f : Int → Except String Bool) :
    List Int → List Int → List Int × Option String
  | [], allowed => (allowed.reverse, none)
  | id :: rest, allowed =>
    match f id with
    | .error err => ([], some err)
    | .ok true => eachCondition.loop f rest (id :: allowed)
    | .ok false => eachCondition.loop f rest allowed

/-- Modelled from the spec: the helper `eachCondition`, whose code is not part of the files at
hand. A field restricter returns the ids of the batch that are visible, and an error of the
condition for one id is the error of the whole batch: the ids for which the condition holds,
in the order of the batch, or no id and the error of the first id whose condition fails with
an error. The result is the slice and the error that the Go function returns. -/
def eachCondition (ids : List Int) (f : Int → Except String Bool) : List Int × Option String :=
  eachCondition.loop f ids []

/-- The condition that `Meeting.see` gives to `eachCondition`: whether the user
`requestUser`, who has no organization management level, sees the meeting. -/
def Meeting.seeCondition (R : Reads) (requestUser : Int) (meetingID : Int) :
    Except String Bool :=
  match R.enableAnonymous meetingID with
  | .error err => .error ("checking enabled anonymous: " ++ err)
  | .ok enableAnonymous =>
    if enableAnonymous then .ok true
    else if requestUser = 0 then .ok false
    else
      match R.userIDs meetingID with
      | .error err => .error ("getting user ids of meeting: " ++ err)
      | .ok userIDs =>
        if userIDs.any (fun id => decide (requestUser = id)) then .ok true
        else
          match R.committeeID meetingID with
          | .error err => .error ("getting committee id of meeting: " ++ err)
          | .ok committeeID =>
            match R.hasCommitteeManagementLevel requestUser committeeID with
            | .error err => .error ("getting committee management status: " ++ err)
            | .ok isCommitteeManager =>
              if isCommitteeManager then .ok true
              else
                match R.templateForOrganizationID meetingID with
                | .error err => .error ("getting template meeting: " ++ err)
                | .ok (_, isTemplateMeeting) =>
                  match R.managementLevelCommittees requestUser with
                  | .error err => .error ("getting meetings with cml can manage: " ++ err)
                  | .ok cmlMeetings =>
                    if isTemplateMeeting && decide (cmlMeetings.length > 0) then .ok true
                    else .ok false

/-- The method `Meeting.see`, the restricter of mode B: the slice and the error returned. -/
def Meeting.see (R : Reads) (meetingIDs : List Int) : List Int × Option String :=
  match R.requestUser with
  | .error err => ([], some ("getting request user: " ++ err))
  | .ok requestUser =>
    match R.hasOrganizationManagementLevel requestUser with
    | .error err => ([], some ("checking organization management level: " ++ err))
    | .ok oml =>
      if oml then (meetingIDs, none)
      else eachCondition meetingIDs (Meeting.seeCondition R requestUser)

/-- The condition of `Meeting.modeC` and `Meeting.modeD` for the permission `p`. -/
def Meeting.hasPermission (R : Reads) (p : String) (meetingID : Int) : Except String Bool :=
  match R.permissions meetingID with
  | .error err => .error ("getting permissions: " ++ err)
  | .ok perms => .ok (perms p)

/-- The method `Meeting.modeC`. -/
def Meeting.modeC (R : Reads) (meetingIDs : List Int) : List Int × Option String :=
  match eachCondition meetingIDs (Meeting.hasPermission R MeetingCanSeeFrontpage) with
  | (_, some err) => ([], some ("checking can front page permission: " ++ err))
  | (allowed, none) => (allowed, none)

/-- The method `Meeting.modeD`. -/
def Meeting.modeD (R : Reads) (meetingIDs : List Int) : List Int × Option String :=
  match eachCondition meetingIDs (Meeting.hasPermission R MeetingCanSeeLivestream) with
  | (_, some err) => ([], some ("checking can see lievestream permission: " ++ err))
  | (allowed, none) => (allowed, none)

/-- Reads that all succeed, for a request user `u` without organization management level: no
meeting is open to anonymous users, the users of every meeting are `users`, the committee of
every meeting is 1, the user manages the committees of `managed`, the meetings of
`templates` are template meetings, and the user has the permissions of `perms` in every
meeting. -/
def sampleReads (u : Int) (users managed templates : List Int) (perms : List String) : Reads where
  requestUser := .ok u
  hasOrganizationManagementLevel := fun _ => .ok false
  enableAnonymous := fun _ => .ok false
  userIDs := fun _ => .ok users
  committeeID := fun _ => .ok 1
  hasCommitteeManagementLevel := fun _ c => .ok (decide (c ∈ managed))
  templateForOrganizationID := fun m => .ok (1, decide (m ∈ templates))
  managementLevelCommittees := fun _ => .ok managed
  permissions := fun _ => .ok (fun p => decide (p ∈ perms))

/-- Reads in which the permissions of the meeting 2 fail and those of every other meeting are
the permissions of `perms`. -/
def failingReads (perms : List String) : Reads where
  requestUser := .ok 1
  hasOrganizationManagementLevel := fun _ => .ok false
  enableAnonymous := fun _ => .ok false
  userIDs := fun _ => .ok []
  committeeID := fun _ => .ok 1
  hasCommitteeManagementLevel := fun _ _ => .ok false
  templateForOrganizationID := fun _ => .ok (0, false)
  managementLevelCommittees := fun _ => .ok []
  permissions := fun m =>
    if m = 2 then .error "no permissions" else .ok (fun p => decide (p ∈ perms))

/-- Reads that all succeed, for the anonymous request user 0, who has no management level:
the meetings of `opened` have `enable_anonymous`, and the users of every meeting are
`users`. -/
def anonymousReads (opened users : List Int) : Reads where
  requestUser := .ok 0
  hasOrganizationManagementLevel := fun _ => .ok false
  enableAnonymous := fun m => .ok (decide (m ∈ opened))
  userIDs := fun _ => .ok users
  committeeID := fun _ => .ok 1
  hasCommitteeManagementLevel := fun _ _ => .ok false
  templateForOrganizationID := fun _ => .ok (0, false)
  managementLevelCommittees := fun _ => .ok []
  permissions := fun _ => .ok (fun _ => false)

end Collection

/-! ## Equality of field descriptions is decidable -/

namespace Keysbuilder

mutual

theorem fieldDescription.eq_of_beq :
    ∀ a b : fieldDescription, fieldDescription.beq a b = true → a = b
  | .nil, .nil, _ => rfl
  | .relationField c f, .relationField c' f', h => by
    simp only [fieldDescription.beq, Bool.and_eq_true, beq_iff_eq] at h
    rw [h.1, fieldDescription.eq_of_beqFields f f' h.2]
  | .relationListField c f, .relationListField c' f', h => by
    simp only [fieldDescription.beq, Bool.and_eq_true, beq_iff_eq] at h
    rw [h.1, fieldDescription.eq_of_beqFields f f' h.2]
  | .genericRelationField f, .genericRelationField f', h => by
    simp only [fieldDescription.beq] at h
    rw [fieldDescription.eq_of_beqFields f f' h]
  | .genericRelationListField f, .genericRelationListField f', h => by
    simp only [fieldDescription.beq] at h
    rw [fieldDescription.eq_of_beqFields f f' h]
  | .templateField v, .templateField v', h => by
    simp only [fieldDescription.beq] at h
    rw [fieldDescription.eq_of_beq v v' h]
  | .nil, .relationField _ _, h | .nil, .relationListField _ _, h
  | .nil, .genericRelationField _, h | .nil, .genericRelationListField _, h
  | .nil, .templateField _, h
  | .relationField _ _, .nil, h | .relationField _ _, .relationListField _ _, h
  | .relationField _ _, .genericRelationField _, h
  | .relationField _ _, .genericRelationListField _, h
  | .relationField _ _, .templateField _, h
  | .relationListField _ _, .nil, h | .relationListField _ _, .relationField _ _, h
  | .relationListField _ _, .genericRelationField _, h
  | .relationListField _ _, .genericRelationListField _, h
  | .relationListField _ _, .templateField _, h
  | .genericRelationField _, .nil, h | .genericRelationField _, .relationField _ _, h
  | .genericRelationField _, .relationListField _ _, h
  | .genericRelationField _, .genericRelationListField _, h
  | .genericRelationField _, .templateField _, h
  | .genericRelationListField _, .nil, h
  | .genericRelationListField _, .relationField _ _, h
  | .genericRelationListField _, .relationListField _ _, h
  | .genericRelationListField _, .genericRelationField _, h
  | .genericRelationListField _, .templateField _, h
  | .templateField _, .nil, h | .templateField _, .relationField _ _, h
  | .templateField _, .relationListField _ _, h
  | .templateField _, .genericRelationField _, h
  | .templateField _, .genericRelationListField _, h => by
    simp [fieldDescription.beq] at h

theorem fieldDescription.eq_of_beqFields :
    ∀ a b : List (String × fieldDescription), fieldDescription.beqFields a b = true → a = b
  | [], [], _ => rfl
  | (n, d) :: t, (n', d') :: t', h => by
    simp only [fieldDescription.beqFields, Bool.and_eq_true, beq_iff_eq] at h
    rw [h.1.1, fieldDescription.eq_of_beq d d' h.1.2, fieldDescription.eq_of_beqFields t t' h.2]
  | [], _ :: _, h | _ :: _, [], h => by simp [fieldDescription.beqFields] at h

end

mutual

theorem fieldDescription.beq_self : ∀ a : fieldDescription, fieldDescription.beq a a = true
  | .nil => rfl
  | .relationField c f => by simp [fieldDescription.beq, fieldDescription.beqFields_self f]
  | .relationListField c f => by simp [fieldDescription.beq, fieldDescription.beqFields_self f]
  | .genericRelationField f => by simp [fieldDescription.beq, fieldDescription.beqFields_self f]
  | .genericRelationListField f => by
    simp [fieldDescription.beq, fieldDescription.beqFields_self f]
  | .templateField v => by simp [fieldDescription.beq, fieldDescription.beq_self v]

theorem fieldDescription.beqFields_self :
    ∀ a : List (String × fieldDescription), fieldDescription.beqFields a a = true
  | [] => rfl
  | (n, d) :: t => by
    simp [fieldDescription.beqFields, fieldDescription.beq_self d,
      fieldDescription.beqFields_self t]

end

instance : DecidableEq fieldDescription := fun a b =>
  if h : fieldDescription.beq a b = true then isTrue (fieldDescription.eq_of_beq a b h)
  else isFalse (fun e => h (e ▸ fieldDescription.beq_self a))

deriving instance DecidableEq for Slice
deriving instance DecidableEq for body
deriving instance DecidableEq for bodyStruct
deriving instance DecidableEq for relationStruct
deriving instance DecidableEq for Except

end Keysbuilder

/-! ## The regular expressions, character by character -/

namespace Keysbuilder

theorem charClass_cons (a : Char) (cs : List Char) :
    charClass (a :: cs) = RegularExpression.char a + charClass cs := rfl

theorem charClass_rmatch_iff (cs x : List Char) :
    (charClass cs).rmatch x = true ↔ ∃ c ∈ cs, x = [c] := by
  induction cs with
  | nil =>
    have h : charClass [] = (0 : RegularExpression Char) := rfl
    simp [h]
  | cons a cs ih =>
    rw [charClass_cons, RegularExpression.add_rmatch_iff, RegularExpression.char_rmatch_iff, ih]
    constructor
    · rintro (h | ⟨c, hc, h⟩)
      · exact ⟨a, List.mem_cons_self _ _, h⟩
      · exact ⟨c, List.mem_cons_of_mem _ hc, h⟩
    · rintro ⟨c, hc, h⟩
      rcases List.mem_cons.1 hc with rfl | hc
      · exact Or.inl h
      · exact Or.inr ⟨c, hc, h⟩

theorem flatten_singletons (x : List Char) : (x.map (fun c => [c])).flatten = x := by
  induction x with
  | nil => rfl
  | cons a x ih => simp [ih]

theorem star_charClass_rmatch_iff (cs x : List Char) :
    (charClass cs).star.rmatch x = true ↔ ∀ c ∈ x, c ∈ cs := by
  rw [RegularExpression.star_rmatch_iff]
  constructor
  · rintro ⟨S, rfl, hS⟩ c hc
    obtain ⟨t, ht, hct⟩ := List.mem_flatten.1 hc
    obtain ⟨d, hd, rfl⟩ := (charClass_rmatch_iff cs t).1 (hS t ht).2
    rw [List.mem_singleton] at hct
    exact hct ▸ hd
  · intro h
    refine ⟨x.map (fun c => [c]), (flatten_singletons x).symm, ?_⟩
    intro t ht
    obtain ⟨c, hc, rfl⟩ := List.mem_map.1 ht
    exact ⟨by simp, (charClass_rmatch_iff cs [c]).2 ⟨c, h c hc, rfl⟩⟩

theorem rePlus_charClass_rmatch_iff (cs x : List Char) :
    (rePlus (charClass cs)).rmatch x = true ↔ x ≠ [] ∧ ∀ c ∈ x, c ∈ cs := by
  unfold rePlus
  rw [RegularExpression.mul_rmatch_iff]
  constructor
  · rintro ⟨t, u, rfl, ht, hu⟩
    obtain ⟨c, hc, rfl⟩ := (charClass_rmatch_iff cs t).1 ht
    rw [star_charClass_rmatch_iff] at hu
    refine ⟨by simp, ?_⟩
    intro d hd
    rcases List.mem_append.1 hd with hd | hd
    · rw [List.mem_singleton] at hd
      exact hd ▸ hc
    · exact hu d hd
  · rintro ⟨hne, h⟩
    cases x with
    | nil => exact absurd rfl hne
    | cons a x =>
      refine ⟨[a], x, rfl, (charClass_rmatch_iff cs [a]).2 ⟨a, h a (List.mem_cons_self _ _), rfl⟩, ?_⟩
      rw [star_charClass_rmatch_iff]
      exact fun c hc => h c (List.mem_cons_of_mem _ hc)

theorem mem_lowerChars_iff (c : Char) : c ∈ lowerChars ↔ c.isLower = true := by
  constructor
  · intro h
    exact (by decide : ∀ d ∈ lowerChars, d.isLower = true) c h
  · intro h
    have h1 : 97 ≤ c.toNat ∧ c.toNat ≤ 122 := by
      simp only [Char.isLower, Bool.and_eq_true, decide_eq_true_eq] at h
      exact ⟨h.1, h.2⟩
    have h2 : c = Char.ofNat c.toNat := (Char.ofNat_toNat c).symm
    obtain ⟨h3, h4⟩ := h1
    rw [h2]
    interval_cases c.toNat <;> decide

theorem mem_digitChars_iff (c : Char) : c ∈ digitChars ↔ c.isDigit = true := by
  constructor
  · intro h
    exact (by decide : ∀ d ∈ digitChars, d.isDigit = true) c h
  · intro h
    have h1 : 48 ≤ c.toNat ∧ c.toNat ≤ 57 := by
      simp only [Char.isDigit, Bool.and_eq_true, decide_eq_true_eq] at h
      exact ⟨h.1, h.2⟩
    have h2 : c = Char.ofNat c.toNat := (Char.ofNat_toNat c).symm
    obtain ⟨h3, h4⟩ := h1
    rw [h2]
    interval_cases c.toNat <;> decide

theorem mem_collectionChars_iff (c : Char) :
    c ∈ collectionChars ↔ (c.isLower = true ∨ c = '_') := by
  simp [collectionChars, mem_lowerChars_iff]

theorem mem_fieldChars_iff (c : Char) :
    c ∈ fieldChars ↔ (c.isLower = true ∨ c.isDigit = true ∨ c = '_') := by
  simp [fieldChars, mem_lowerChars_iff, mem_digitChars_iff, or_assoc]

theorem reCollection_rmatch_iff (x : List Char) :
    reCollection.rmatch x = true ↔
      (∀ c ∈ x, c ∈ collectionChars) ∧ (∃ a, x.head? = some a ∧ a ∈ lowerChars) ∧
        (∃ b, x.getLast? = some b ∧ b ∈ lowerChars) := by
  have hsub : ∀ c, c ∈ lowerChars → c ∈ collectionChars := fun c hc =>
    List.mem_append_left _ hc
  unfold reCollection
  rw [RegularExpression.add_rmatch_iff, rePlus_charClass_rmatch_iff,
    RegularExpression.mul_rmatch_iff]
  constructor
  · rintro (⟨hne, hall⟩ | ⟨t, u, rfl, ht, hu⟩)
    · refine ⟨fun c hc => hsub c (hall c hc), ?_, ?_⟩
      · cases x with
        | nil => exact absurd rfl hne
        | cons a x => exact ⟨a, rfl, hall a (List.mem_cons_self _ _)⟩
      · cases h : x.getLast? with
        | none => exact absurd (List.getLast?_eq_none_iff.1 h) hne
        | some b => exact ⟨b, rfl, hall b (List.mem_of_getLast?_eq_some h)⟩
    · obtain ⟨a, ha, rfl⟩ := (charClass_rmatch_iff _ t).1 ht
      obtain ⟨m, v, rfl, hm, hv⟩ := (RegularExpression.mul_rmatch_iff _ _ u).1 hu
      obtain ⟨b, hb, rfl⟩ := (charClass_rmatch_iff _ v).1 hv
      rw [star_charClass_rmatch_iff] at hm
      refine ⟨?_, ⟨a, rfl, ha⟩, ⟨b, ?_, hb⟩⟩
      · intro c hc
        simp only [List.mem_append, List.mem_singleton] at hc
        rcases hc with rfl | hc | rfl
        · exact hsub _ ha
        · exact hm c hc
        · exact hsub _ hb
      · rw [← List.append_assoc]
        exact List.getLast?_concat _
  · rintro ⟨hall, ⟨a, ha, hla⟩, ⟨b, hb, hlb⟩⟩
    cases x with
    | nil => simp at ha
    | cons a' rest =>
      simp only [List.head?_cons, Option.some.injEq] at ha
      subst ha
      rcases List.eq_nil_or_concat rest with rfl | ⟨L, b', rfl⟩
      · left
        refine ⟨by simp, ?_⟩
        intro c hc
        rw [List.mem_singleton] at hc
        exact hc ▸ hla
      · right
        rw [List.concat_eq_append] at hb hall ⊢
        have hb' : b' = b := by
          have h := List.getLast?_concat (a := b') (a' :: L)
          rw [List.cons_append] at h
          rw [h] at hb
          exact Option.some.inj hb
        subst hb'
        refine ⟨[a'], L ++ [b'], rfl, (charClass_rmatch_iff _ _).2 ⟨a', hla, rfl⟩, ?_⟩
        rw [RegularExpression.mul_rmatch_iff]
        refine ⟨L, [b'], rfl, ?_, (charClass_rmatch_iff _ _).2 ⟨b', hlb, rfl⟩⟩
        rw [star_charClass_rmatch_iff]
        intro c hc
        exact hall c (List.mem_cons_of_mem _ (List.mem_append_left _ hc))

theorem option_any_iff (o : Option Char) (p : Char → Bool) :
    o.any p = true ↔ ∃ a, o = some a ∧ p a = true := by
  cases o <;> simp [Option.any]

theorem MatchString_reCollection (s : String) :
    MatchString reCollection s = isCollectionName s := by
  rw [Bool.eq_iff_iff]
  unfold MatchString isCollectionName
  rw [reCollection_rmatch_iff]
  simp only [Bool.and_eq_true, List.all_eq_true, Bool.or_eq_true, beq_iff_eq,
    mem_collectionChars_iff, mem_lowerChars_iff, option_any_iff]

theorem dollar_not_mem_fieldChars : '$' ∉ fieldChars := by decide

theorem dollar_not_mem_lowerChars : '$' ∉ lowerChars := by decide

theorem reOpt_dollar_rmatch_iff (w : List Char) :
    (reOpt (RegularExpression.char '$')).rmatch w = true ↔ (w = ['$'] ∨ w = []) := by
  unfold reOpt
  rw [RegularExpression.add_rmatch_iff, RegularExpression.char_rmatch_iff,
    RegularExpression.one_rmatch_iff]

theorem count_dollar_eq_zero (u : List Char) (h : ∀ c ∈ u, c ∈ fieldChars) :
    u.count '$' = 0 :=
  List.count_eq_zero.2 (fun hm => dollar_not_mem_fieldChars (h _ hm))

theorem reField_rmatch_iff (x : List Char) :
    reField.rmatch x = true ↔
      ∃ a rest, x = a :: rest ∧ a ∈ lowerChars ∧ (∀ c ∈ rest, c ∈ fieldChars ∨ c = '$') ∧
        rest.count '$' ≤ 1 := by
  unfold reField
  rw [RegularExpression.mul_rmatch_iff]
  constructor
  · rintro ⟨t, r1, rfl, ht, h1⟩
    obtain ⟨a, ha, rfl⟩ := (charClass_rmatch_iff _ t).1 ht
    obtain ⟨u, r2, rfl, hu, h2⟩ := (RegularExpression.mul_rmatch_iff _ _ r1).1 h1
    obtain ⟨w, v, rfl, hw, hv⟩ := (RegularExpression.mul_rmatch_iff _ _ r2).1 h2
    rw [star_charClass_rmatch_iff] at hu hv
    rw [reOpt_dollar_rmatch_iff] at hw
    refine ⟨a, u ++ (w ++ v), rfl, ha, ?_, ?_⟩
    · intro c hc
      simp only [List.mem_append] at hc
      rcases hc with hc | hc | hc
      · exact Or.inl (hu c hc)
      · rcases hw with rfl | rfl
        · rw [List.mem_singleton] at hc
          exact Or.inr hc
        · simp at hc
      · exact Or.inl (hv c hc)
    · rw [List.count_append, List.count_append, count_dollar_eq_zero u hu,
        count_dollar_eq_zero v hv]
      rcases hw with rfl | rfl <;> simp
  · rintro ⟨a, rest, rfl, ha, hall, hcount⟩
    refine ⟨[a], rest, rfl, (charClass_rmatch_iff _ _).2 ⟨a, ha, rfl⟩, ?_⟩
    rw [RegularExpression.mul_rmatch_iff]
    by_cases hd : '$' ∈ rest
    · obtain ⟨u, v, rfl⟩ := List.append_of_mem hd
      have hc : List.count '$' u + (List.count '$' v + 1) ≤ 1 := by
        simpa [List.count_append, List.count_cons] using hcount
      have hu0 : u.count '$' = 0 := by omega
      have hv0 : v.count '$' = 0 := by omega
      have hu : ∀ c ∈ u, c ∈ fieldChars := by
        intro c hc
        rcases hall c (List.mem_append_left _ hc) with h | h
        · exact h
        · exact absurd (h ▸ hc) (List.count_eq_zero.1 hu0)
      have hv : ∀ c ∈ v, c ∈ fieldChars := by
        intro c hc
        rcases hall c (List.mem_append_right _ (List.mem_cons_of_mem _ hc)) with h | h
        · exact h
        · exact absurd (h ▸ hc) (List.count_eq_zero.1 hv0)
      refine ⟨u, '$' :: v, rfl, (star_charClass_rmatch_iff _ _).2 hu, ?_⟩
      rw [RegularExpression.mul_rmatch_iff]
      exact ⟨['$'], v, rfl, (reOpt_dollar_rmatch_iff _).2 (Or.inl rfl),
        (star_charClass_rmatch_iff _ _).2 hv⟩
    · have hu : ∀ c ∈ rest, c ∈ fieldChars := by
        intro c hc
        rcases hall c hc with h | h
        · exact h
        · exact absurd (h ▸ hc) hd
      refine ⟨rest, [], (List.append_nil _).symm, (star_charClass_rmatch_iff _ _).2 hu, ?_⟩
      rw [RegularExpression.mul_rmatch_iff]
      exact ⟨[], [], rfl, (reOpt_dollar_rmatch_iff _).2 (Or.inr rfl),
        (star_charClass_rmatch_iff _ _).2 (by simp)⟩

theorem isLower_ne_dollar (a : Char) (h : a.isLower = true) : a ≠ '$' := by
  rintro rfl
  exact absurd h (by decide)

theorem MatchString_reField (s : String) : MatchString reField s = isFieldName s := by
  rw [Bool.eq_iff_iff]
  unfold MatchString isFieldName
  rw [reField_rmatch_iff]
  simp only [Bool.and_eq_true, List.all_eq_true, Bool.or_eq_true, beq_iff_eq,
    mem_fieldChars_iff, mem_lowerChars_iff, option_any_iff, decide_eq_true_eq]
  constructor
  · rintro ⟨a, rest, hx, ha, hall, hcount⟩
    rw [hx]
    refine ⟨⟨a, rfl, ha⟩, ?_, ?_⟩
    · intro c hc
      rcases List.mem_cons.1 hc with rfl | hc
      · exact Or.inl (Or.inl (Or.inl ha))
      · rcases hall c hc with (h | h | h) | h
        · exact Or.inl (Or.inl (Or.inl h))
        · exact Or.inl (Or.inl (Or.inr h))
        · exact Or.inl (Or.inr h)
        · exact Or.inr h
    · rw [List.count_cons_of_ne (isLower_ne_dollar a ha).symm]
      exact hcount
  · rintro ⟨⟨a, ha, hla⟩, hall, hcount⟩
    cases hx : s.toList with
    | nil => rw [hx] at ha; simp at ha
    | cons a' rest =>
      rw [hx] at ha hall hcount
      simp only [List.head?_cons, Option.some.injEq] at ha
      subst ha
      refine ⟨a', rest, rfl, hla, ?_, ?_⟩
      · intro c hc
        rcases hall c (List.mem_cons_of_mem _ hc) with ((h | h) | h) | h
        · exact Or.inl (Or.inl h)
        · exact Or.inl (Or.inr (Or.inl h))
        · exact Or.inl (Or.inr (Or.inr h))
        · exact Or.inr h
      · rw [List.count_cons_of_ne (isLower_ne_dollar a' hla).symm] at hcount
        exact hcount

end Keysbuilder

/-! ## The checks of the body -/

namespace Keysbuilder

theorem body_decode_append (quote : String → String) (pre post : List (String × JSON))
    (st : bodyStruct) (bad : Bool) :
    body.decode quote (pre ++ post) st bad =
      (body.decode quote pre st bad).bind (fun d => body.decode quote post d.1 d.2) := by
  induction pre generalizing st bad with
  | nil => rfl
  | cons e pre ih =>
    obtain ⟨k, v⟩ := e
    simp only [List.cons_append, body.decode]
    split_ifs
    · exact ih _ _
    · exact ih _ _
    · cases fieldsMap.UnmarshalJSON quote v with
      | error e => rfl
      | ok f => exact ih _ _
    · exact ih _ _

theorem body_decode_ids_absent (quote : String → String) (ms : List (String × JSON))
    (st : bodyStruct) (bad : Bool) (d : Decoded bodyStruct)
    (h : body.decode quote ms st bad = .ok d) (habs : ∀ e ∈ ms, isField "ids" e.1 = false) :
    d.1.IDs = st.IDs := by
  induction ms generalizing st bad with
  | nil =>
    simp only [body.decode, Except.ok.injEq] at h
    rw [← h]
  | cons e ms ih =>
    obtain ⟨k, v⟩ := e
    have hk : isField "ids" k = false := habs (k, v) (List.mem_cons_self _ _)
    have hms : ∀ e ∈ ms, isField "ids" e.1 = false := fun e he =>
      habs e (List.mem_cons_of_mem _ he)
    simp only [body.decode, hk, Bool.false_eq_true, if_false] at h
    split_ifs at h
    · have h' := ih _ _ h hms
      exact h'
    · cases hf : fieldsMap.UnmarshalJSON quote v with
      | error e => rw [hf] at h; cases h
      | ok f =>
        rw [hf] at h
        have h' := ih _ _ h hms
        exact h'
    · exact ih _ _ h hms

theorem decodeElems_length (xs : List JSON) (store : List Int) :
    (decodeElems decodeInt 0 xs store).1.length = xs.length := by
  induction xs generalizing store with
  | nil => rfl
  | cons x xs ih => simp [decodeElems, ih]

theorem decodeElems_nonpositive (xs : List JSON)
    (h : ∃ x ∈ xs, x = JSON.null ∨ ∃ n, x = JSON.num n ∧ n ≤ 0) :
    ∃ id ∈ (decodeElems decodeInt 0 xs []).1, id ≤ 0 := by
  induction xs with
  | nil =>
    obtain ⟨x, hx, _⟩ := h
    cases hx
  | cons y xs ih =>
    obtain ⟨x, hx, hcase⟩ := h
    rcases List.mem_cons.1 hx with rfl | hx
    · refine ⟨(decodeInt x 0).1, by simp [decodeElems], ?_⟩
      rcases hcase with rfl | ⟨n, rfl, hn⟩
      · simp [decodeInt]
      · simp only [decodeInt]
        split_ifs
        · exact hn
        · exact le_refl _
    · obtain ⟨id, hid, hle⟩ := ih ⟨x, hx, hcase⟩
      exact ⟨id, by simp only [decodeElems, List.headD_nil, List.tail_nil]; exact List.mem_cons_of_mem _ hid, hle⟩

theorem body_check_positive (d : Decoded bodyStruct) (b : body) (h : body.check d = .ok b) :
    d.2 = false ∧ b.ids = d.1.IDs.elems ∧ b.ids ≠ [] ∧ (∀ id ∈ b.ids, 0 < id) ∧
      b.collection = d.1.Collection ∧ d.1.Fields = some b.fields ∧
      MatchString reCollection b.collection = true := by
  unfold body.check at h
  split_ifs at h with h1 h2 h3 h4 h5
  · cases hf : d.1.Fields with
    | none => rw [hf] at h; cases h
    | some f => rw [hf] at h; cases h
  · cases hf : d.1.Fields with
    | none => rw [hf] at h; cases h
    | some f =>
      rw [hf] at h
      simp only [Except.ok.injEq] at h
      subst h
      refine ⟨by simpa using h1, rfl, ?_, ?_, rfl, rfl, by simpa using h5⟩
      · intro hnil
        exact h2 (by simp only at hnil; rw [hnil]; rfl)
      · intro id hid
        simp only [List.any_eq_true, decide_eq_true_eq, not_exists, not_and, not_le] at h3
        exact h3 id hid

theorem body_UnmarshalJSON_of_decode (quote : String → String) (ms : List (String × JSON))
    (d : Decoded bodyStruct)
    (hdec : body.decode quote ms ⟨Slice.nil, "", none⟩ false = .ok d) :
    body.UnmarshalJSON quote (.obj ms) = body.check d := by
  show (body.decode quote ms ⟨Slice.nil, "", none⟩ false).bind body.check = body.check d
  rw [hdec]
  rfl

theorem body_check_no_ids (d : Decoded bodyStruct) (h2 : d.2 = false)
    (h : d.1.IDs.elems = []) : body.check d = .error (.invalid (.base "no ids" "")) := by
  unfold body.check
  simp [h2, h]

theorem body_check_nonpositive (d : Decoded bodyStruct) (h2 : d.2 = false)
    (hne : d.1.IDs.elems ≠ []) (h : ∃ id ∈ d.1.IDs.elems, id ≤ 0) :
    body.check d = .error (.invalid (.base "id has to be a positive number" "")) := by
  unfold body.check
  have hlen : ¬ d.1.IDs.elems.length = 0 := fun hl => hne (List.length_eq_zero.1 hl)
  have hany : d.1.IDs.elems.any (fun id => decide (id ≤ 0)) = true := by
    simpa [List.any_eq_true] using h
  simp [h2, hlen, hany]

/-- C1, amended. Let `json.Unmarshal` decode the members `ms` of a root object without an
error, into the struct `st` (no attribute has a value of a wrong type, and the attribute
`fields`, when there is one, is parsed without error). Then `body.UnmarshalJSON` fails with
Invalid `no ids` when no member is the attribute `ids` and when the last such member is the
empty array, and it fails with Invalid `id has to be a positive number` when the only such
member is an array with an element that is `null`, zero or negative. A root that is parsed
has a list of ids that is not empty and holds positive numbers only. -/
theorem body_UnmarshalJSON_ids (quote : String → String) (ms : List (String × JSON))
    (st : bodyStruct)
    (hdec : body.decode quote ms ⟨Slice.nil, "", none⟩ false = .ok (st, false)) :
    ((∀ e ∈ ms, isField "ids" e.1 = false) →
        body.UnmarshalJSON quote (.obj ms) = .error (.invalid (.base "no ids" ""))) ∧
    (∀ pre k post, ms = pre ++ (k, JSON.arr []) :: post → isField "ids" k = true →
        (∀ e ∈ post, isField "ids" e.1 = false) →
        body.UnmarshalJSON quote (.obj ms) = .error (.invalid (.base "no ids" ""))) ∧
    (∀ pre k xs post, ms = pre ++ (k, JSON.arr xs) :: post → isField "ids" k = true →
        (∀ e ∈ pre, isField "ids" e.1 = false) → (∀ e ∈ post, isField "ids" e.1 = false) →
        (∃ x ∈ xs, x = JSON.null ∨ ∃ n, x = JSON.num n ∧ n ≤ 0) →
        body.UnmarshalJSON quote (.obj ms) =
          .error (.invalid (.base "id has to be a positive number" ""))) ∧
    (∀ b, body.UnmarshalJSON quote (.obj ms) = .ok b → b.ids ≠ [] ∧ ∀ id ∈ b.ids, 0 < id) := by
  have hU := body_UnmarshalJSON_of_decode quote ms (st, false) hdec
  refine ⟨?_, ?_, ?_, ?_⟩
  · intro habs
    rw [hU]
    have h := body_decode_ids_absent quote ms _ _ _ hdec habs
    exact body_check_no_ids _ rfl (by rw [h]; rfl)
  · intro pre k post hms hk hpost
    rw [hU]
    subst hms
    rw [body_decode_append] at hdec
    cases h1 : body.decode quote pre ⟨Slice.nil, "", none⟩ false with
    | error e => rw [h1] at hdec; cases hdec
    | ok d1 =>
      rw [h1] at hdec
      simp only [Except.bind, body.decode, hk, if_true, decodeSlice] at hdec
      have h := body_decode_ids_absent quote post _ _ _ hdec hpost
      exact body_check_no_ids _ rfl (by rw [h]; rfl)
  · intro pre k xs post hms hk hpre hpost hx
    rw [hU]
    subst hms
    rw [body_decode_append] at hdec
    cases h1 : body.decode quote pre ⟨Slice.nil, "", none⟩ false with
    | error e => rw [h1] at hdec; cases hdec
    | ok d1 =>
      rw [h1] at hdec
      have hd1 : d1.1.IDs = Slice.nil := body_decode_ids_absent quote pre _ _ _ h1 hpre
      cases xs with
      | nil =>
        obtain ⟨x, hxm, _⟩ := hx
        cases hxm
      | cons y ys =>
        simp only [Except.bind, body.decode, hk, if_true, decodeSlice, hd1] at hdec
        have h := body_decode_ids_absent quote post _ _ _ hdec hpost
        have helems : st.IDs.elems = (decodeElems decodeInt 0 (y :: ys) []).1 := by
          have h' : (st, false).1.IDs = st.IDs := rfl
          rw [← h', h]
          rfl
        refine body_check_nonpositive _ rfl ?_ ?_
        · intro hnil
          have hl := decodeElems_length (y :: ys) []
          rw [← helems] at hl
          have hnil' : st.IDs.elems = [] := hnil
          rw [hnil'] at hl
          simp at hl
        · have h' : (st, false).1.IDs.elems = st.IDs.elems := rfl
          rw [h', helems]
          exact decodeElems_nonpositive (y :: ys) hx
  · intro b hb
    rw [hU] at hb
    have h := body_check_positive _ b hb
    exact ⟨h.2.2.1, h.2.2.2.1⟩

/-- C1, the claim as stated fails. A root object without `ids` whose `fields` object has the
invalid name `Username` fails with the error of that name and not with `no ids`; and with the
ids `[0, 1.5]`, which hold a zero, the error is the type error of `encoding/json` and not an
Invalid error. -/
theorem body_UnmarshalJSON_ids_counterexample :
    body.UnmarshalJSON quoteASCII
        (.obj [("collection", .str "user"), ("fields", .obj [("Username", .null)])]) =
      .error (.invalid
        (.base "fieldname \"Username\" is not a valid fieldname" "Username")) ∧
    body.UnmarshalJSON quoteASCII
        (.obj [("ids", .arr [.num 0, .float "1.5"]), ("collection", .str "user"),
          ("fields", .obj [("name", .null)])]) = .error .json := by
  decide

/-- C1, witness: the root of the test `no ids`, and a root with the ids `[null]`. -/
theorem body_UnmarshalJSON_ids_witness :
    body.UnmarshalJSON quoteASCII
        (.obj [("fields", .obj [("name", .null)]), ("collection", .str "user")]) =
      .error (.invalid (.base "no ids" "")) ∧
    body.UnmarshalJSON quoteASCII
        (.obj [("ids", .arr [.null]), ("collection", .str "user"),
          ("fields", .obj [("name", .null)])]) =
      .error (.invalid (.base "id has to be a positive number" "")) :=
  ⟨(body_UnmarshalJSON_ids quoteASCII
      [("fields", .obj [("name", .null)]), ("collection", .str "user")]
      ⟨Slice.nil, "user", some [("name", .nil)]⟩ (by decide)).1 (by decide),
   (body_UnmarshalJSON_ids quoteASCII
      [("ids", .arr [.null]), ("collection", .str "user"), ("fields", .obj [("name", .null)])]
      ⟨⟨[0], []⟩, "user", some [("name", .nil)]⟩ (by decide)).2.2.1
      [] "ids" [.null] [("collection", .str "user"), ("fields", .obj [("name", .null)])]
      rfl (by decide) (by decide) (by decide) ⟨.null, List.mem_cons_self _ _, Or.inl rfl⟩⟩

theorem body_check_collection (st : bodyStruct) (fields : fieldsMap)
    (hids : st.IDs.elems ≠ []) (hpos : ∀ id ∈ st.IDs.elems, 0 < id) (hc : st.Collection ≠ "")
    (hf : st.Fields = some fields) :
    body.check (st, false) =
      if isCollectionName st.Collection = true then .ok ⟨st.IDs.elems, st.Collection, fields⟩
      else .error (.invalid (.base "invalid collection name" "")) := by
  unfold body.check
  have hlen : ¬ st.IDs.elems.length = 0 := fun hl => hids (List.length_eq_zero.1 hl)
  have hany : ¬ (st.IDs.elems.any (fun id => decide (id ≤ 0)) = true) := by
    simp only [List.any_eq_true, decide_eq_true_eq, not_exists, not_and, not_le]
    exact hpos
  simp only [Bool.false_eq_true, if_false, hlen, hany, hc, hf, MatchString_reCollection]
  cases isCollectionName st.Collection <;> simp

theorem relationField_check_collection (st : relationStruct) (fields : fieldsMap)
    (hc : st.Collection ≠ "") (hf : st.Fields = some fields) :
    relationField.check (st, false) =
      if isCollectionName st.Collection = true then .ok (st.Collection, fields)
      else .error (.invalid (.base "invalid collection name" "")) := by
  unfold relationField.check
  simp only [Bool.false_eq_true, if_false, hc, hf, MatchString_reCollection]
  cases isCollectionName st.Collection <;> simp

/-- C2, amended. Let `c` be a collection name that is not empty. The name is checked with the
pattern `^([a-z]+|[a-z][a-z_]*[a-z])$`, which accepts it if and only if it consists of
lower-case letters and underscores and has a letter at both ends (`isCollectionName`). A root
that decodes without error, with valid ids, the collection `c` and a `fields` attribute, is
parsed if `c` is of this form and is rejected with Invalid `invalid collection name` if it is
not; the same holds for a relation and a relation-list description with the collection `c`
and a `fields` attribute. -/
theorem collection_name_accepted (quote : String → String) (c : String) (hc : c ≠ "") :
    MatchString reCollection c = isCollectionName c ∧
    (∀ ms st fields, body.decode quote ms ⟨Slice.nil, "", none⟩ false = .ok (st, false) →
      st.Collection = c → st.IDs.elems ≠ [] → (∀ id ∈ st.IDs.elems, 0 < id) →
      st.Fields = some fields →
      body.UnmarshalJSON quote (.obj ms) =
        if isCollectionName c = true then .ok ⟨st.IDs.elems, c, fields⟩
        else .error (.invalid (.base "invalid collection name" ""))) ∧
    (∀ ms st fields, relationField.decode quote ms ⟨"", none⟩ false = .ok (st, false) →
      st.Collection = c → st.Fields = some fields →
      relationField.UnmarshalJSON quote ms =
        if isCollectionName c = true then .ok (c, fields)
        else .error (.invalid (.base "invalid collection name" ""))) := by
  refine ⟨MatchString_reCollection c, ?_, ?_⟩
  · intro ms st fields hdec hcol hids hpos hf
    rw [body_UnmarshalJSON_of_decode quote ms _ hdec, ← hcol]
    exact body_check_collection st fields hids hpos (hcol ▸ hc) hf
  · intro ms st fields hdec hcol hf
    unfold relationField.UnmarshalJSON
    rw [hdec, ← hcol]
    exact relationField_check_collection st fields (hcol ▸ hc) hf

/-- C2, the claim as stated fails: the name `a__b` with two underscores in a row does not match
`^[a-z]+(_[a-z]+)*$`, and the parser accepts it as the collection of the root and as the
collection of a relation. -/
theorem collection_name_counterexample :
    MatchString reCollectionSpec "a__b" = false ∧
    body.UnmarshalJSON quoteASCII
        (.obj [("ids", .arr [.num 1]), ("collection", .str "a__b"),
          ("fields", .obj [("name", .null)])]) = .ok ⟨[1], "a__b", [("name", .nil)]⟩ ∧
    unmarshalField quoteASCII
        (.obj [("type", .str "relation"), ("collection", .str "a__b"),
          ("fields", .obj [("name", .null)])]) =
      .ok (.relationField "a__b" [("name", .nil)]) := by
  decide

/-- C2, witness: the root of the test `collection has upper letter` is rejected. -/
theorem collection_name_accepted_witness :
    body.UnmarshalJSON quoteASCII
        (.obj [("ids", .arr [.num 1]), ("collection", .str "User"),
          ("fields", .obj [("username", .null)])]) =
      .error (.invalid (.base "invalid collection name" "")) :=
  ((collection_name_accepted quoteASCII "User" (by decide)).2.1
    [("ids", .arr [.num 1]), ("collection", .str "User"), ("fields", .obj [("username", .null)])]
    ⟨⟨[1], []⟩, "User", some [("username", .nil)]⟩ [("username", .nil)]
    (by decide) rfl (by decide) (by decide) rfl).trans (by decide)

/-! ## The names of the fields -/

theorem unmarshalFields_eq_map (quote : String → String) (ms : List (String × JSON)) :
    unmarshalFields quote ms = ms.map (fun m => (m.1, unmarshalField quote m.2)) := by
  induction ms with
  | nil => simp [unmarshalFields]
  | cons m ms ih =>
    obtain ⟨k, v⟩ := m
    simp [unmarshalFields, ih]

theorem lastMembers_subset {α : Type} (l : List (String × α)) :
    ∀ e ∈ lastMembers l, e ∈ l := by
  induction l with
  | nil => intro e he; cases he
  | cons m l ih =>
    obtain ⟨k, v⟩ := m
    intro e he
    simp only [lastMembers] at he
    split_ifs at he
    · exact List.mem_cons_of_mem _ (ih e he)
    · rcases List.mem_cons.1 he with rfl | he
      · exact List.mem_cons_self _ _
      · exact List.mem_cons_of_mem _ (ih e he)

theorem lastMembers_name {α : Type} (l : List (String × α)) :
    ∀ e ∈ l, ∃ e' ∈ lastMembers l, e'.1 = e.1 := by
  induction l with
  | nil => intro e he; cases he
  | cons m l ih =>
    obtain ⟨k, v⟩ := m
    intro e he
    simp only [lastMembers]
    rcases List.mem_cons.1 he with rfl | he
    · split_ifs with h
      · obtain ⟨x, hx, hxk⟩ := List.any_eq_true.1 h
        obtain ⟨e', he', hn⟩ := ih x hx
        exact ⟨e', he', by rw [hn]; simpa using hxk⟩
      · exact ⟨(k, v), List.mem_cons_self _ _, rfl⟩
    · obtain ⟨e', he', hn⟩ := ih e he
      split_ifs
      · exact ⟨e', he', hn⟩
      · exact ⟨e', List.mem_cons_of_mem _ he', hn⟩

theorem fieldsMap_collect_names (quote : String → String)
    (es : List (String × Except Err fieldDescription)) (acc f : fieldsMap)
    (h : fieldsMap.collect quote es acc = .ok f) :
    ∀ e ∈ es, MatchString reField e.1 = true := by
  induction es generalizing acc with
  | nil => intro e he; cases he
  | cons m es ih =>
    obtain ⟨name, r⟩ := m
    intro e he
    simp only [fieldsMap.collect] at h
    split_ifs at h with hn
    have hname : MatchString reField name = true := by simpa using hn
    rcases List.mem_cons.1 he with rfl | he'
    · exact hname
    · cases r with
      | error err => cases err <;> cases h
      | ok fd => exact ih _ h e he'

theorem fieldsMap_collect_ok (quote : String → String)
    (es : List (String × Except Err fieldDescription)) (acc : fieldsMap)
    (h : ∀ e ∈ es, MatchString reField e.1 = true ∧ ∃ d, e.2 = .ok d) :
    ∃ f, fieldsMap.collect quote es acc = .ok f := by
  induction es generalizing acc with
  | nil => exact ⟨acc, rfl⟩
  | cons m es ih =>
    obtain ⟨name, r⟩ := m
    obtain ⟨hn, d, hd⟩ := h (name, r) (List.mem_cons_self _ _)
    simp only at hn hd
    subst hd
    simp only [fieldsMap.collect, hn, Bool.not_true, Bool.false_eq_true, if_false]
    exact ih _ (fun e he => h e (List.mem_cons_of_mem _ he))

theorem fieldsMap_collect_first_invalid (quote : String → String)
    (pre : List (String × JSON)) (X : String) (v : JSON) (post : List (String × JSON))
    (acc : fieldsMap)
    (hpre : ∀ e ∈ pre, isFieldName e.1 = true ∧ ∃ d, unmarshalField quote e.2 = .ok d)
    (hX : isFieldName X = false) (hpost : ∀ e ∈ post, e.1 ≠ X) :
    fieldsMap.collect quote (lastMembers (unmarshalFields quote (pre ++ (X, v) :: post))) acc =
      .error (.invalid (.base ("fieldname " ++ quote X ++ " is not a valid fieldname") X)) := by
  induction pre generalizing acc with
  | nil =>
    have hany : (unmarshalFields quote post).any (fun e => e.1 == X) = false := by
      rw [unmarshalFields_eq_map, Bool.eq_false_iff]
      intro h
      obtain ⟨x, hx, hxk⟩ := List.any_eq_true.1 h
      obtain ⟨m, hm, rfl⟩ := List.mem_map.1 hx
      exact hpost m hm (by simpa using hxk)
    simp only [List.nil_append, unmarshalFields, lastMembers, hany, Bool.false_eq_true,
      if_false, fieldsMap.collect, MatchString_reField, hX, Bool.not_false, if_true]
  | cons m pre ih =>
    obtain ⟨k, w⟩ := m
    obtain ⟨hk, d, hd⟩ := hpre (k, w) (List.mem_cons_self _ _)
    have hpre' : ∀ e ∈ pre, isFieldName e.1 = true ∧ ∃ d, unmarshalField quote e.2 = .ok d :=
      fun e he => hpre e (List.mem_cons_of_mem _ he)
    simp only [List.cons_append, unmarshalFields, lastMembers]
    split_ifs
    · exact ih acc hpre'
    · simp only at hk hd
      simp only [fieldsMap.collect, MatchString_reField, hk, Bool.not_true, Bool.false_eq_true,
        if_false, hd]
      exact ih _ hpre'

/-- C3, amended. The name of a field is checked with `reField`, which accepts it if and only
if it starts with a lower-case letter and consists of lower-case letters, digits, underscores
and at most one `$` (`isFieldName`). A `fields` object is parsed only if all its names are of
this form, and it is parsed if they are and every description is parsed. The error of an
object that is not parsed is the error of the first entry that fails in the order of the
iteration: when this entry has the name `X` that is not of the form, it is the Invalid error
on the field `X` with the message `fieldname "X" is not a valid fieldname` (`X` quoted by the
verb `%q`). -/
theorem fieldsMap_UnmarshalJSON_names (quote : String → String) :
    (∀ name, MatchString reField name = isFieldName name) ∧
    (∀ ms f, fieldsMap.UnmarshalJSON quote (.obj ms) = .ok f →
      ∀ e ∈ ms, isFieldName e.1 = true) ∧
    (∀ ms, (∀ e ∈ ms, isFieldName e.1 = true ∧ ∃ d, unmarshalField quote e.2 = .ok d) →
      ∃ f, fieldsMap.UnmarshalJSON quote (.obj ms) = .ok f) ∧
    (∀ pre X v post,
      (∀ e ∈ pre, isFieldName e.1 = true ∧ ∃ d, unmarshalField quote e.2 = .ok d) →
      isFieldName X = false → (∀ e ∈ post, e.1 ≠ X) →
      fieldsMap.UnmarshalJSON quote (.obj (pre ++ (X, v) :: post)) =
        .error (.invalid
          (.base ("fieldname " ++ quote X ++ " is not a valid fieldname") X))) := by
  refine ⟨MatchString_reField, ?_, ?_, ?_⟩
  · intro ms f h e he
    simp only [fieldsMap.UnmarshalJSON] at h
    have hall := fieldsMap_collect_names quote _ _ _ h
    have hmem : (e.1, unmarshalField quote e.2) ∈ unmarshalFields quote ms := by
      rw [unmarshalFields_eq_map]
      exact List.mem_map.2 ⟨e, he, rfl⟩
    obtain ⟨e', he', hn⟩ := lastMembers_name _ _ hmem
    rw [← MatchString_reField, ← (show e'.1 = e.1 from hn)]
    exact hall e' he'
  · intro ms h
    simp only [fieldsMap.UnmarshalJSON]
    apply fieldsMap_collect_ok
    intro e he
    have he' := lastMembers_subset _ e he
    rw [unmarshalFields_eq_map] at he'
    obtain ⟨m, hm, rfl⟩ := List.mem_map.1 he'
    obtain ⟨h1, d, hd⟩ := h m hm
    exact ⟨by rw [MatchString_reField]; exact h1, d, hd⟩
  · intro pre X v post hpre hX hpost
    simp only [fieldsMap.UnmarshalJSON]
    exact fieldsMap_collect_first_invalid quote pre X v post [] hpre hX hpost

/-- C3, the claim as stated fails: an object with the two invalid names `A` and `B` fails with
the error of the name that the iteration meets first, so for either order of the two there is
an invalid name that the error is not about. -/
theorem fieldsMap_UnmarshalJSON_names_counterexample :
    isFieldName "A" = false ∧ isFieldName "B" = false ∧
    fieldsMap.UnmarshalJSON quoteASCII (.obj [("A", .null), ("B", .null)]) =
      .error (.invalid (.base "fieldname \"A\" is not a valid fieldname" "A")) ∧
    fieldsMap.UnmarshalJSON quoteASCII (.obj [("B", .null), ("A", .null)]) =
      .error (.invalid (.base "fieldname \"B\" is not a valid fieldname" "B")) := by
  decide

/-- C3, witness: the `fields` object of the test `field with upper letter`, after a valid
entry. -/
theorem fieldsMap_UnmarshalJSON_names_witness :
    fieldsMap.UnmarshalJSON quoteASCII (.obj [("name", .null), ("Username", .null)]) =
      .error (.invalid
        (.base "fieldname \"Username\" is not a valid fieldname" "Username")) :=
  (fieldsMap_UnmarshalJSON_names quoteASCII).2.2.2 [("name", .null)] "Username" .null []
    (by
      intro e he
      rw [List.mem_singleton] at he
      subst he
      exact ⟨by decide, .nil, rfl⟩)
    (by decide) (by intro e he; cases he)

/-! ## The attributes of the root and the type of a description -/

/-- C4, the code at the failing input: a root with valid ids and a collection but without
`fields` fails with the message `attribte fields is missing`, which is misspelt; the root of
the test `No Collection` fails with `attribute collection is missing`. -/
theorem body_UnmarshalJSON_missing_attribute :
    body.UnmarshalJSON quoteASCII (.obj [("ids", .arr [.num 5]), ("collection", .str "user")]) =
      .error (.invalid (.base "attribte fields is missing" "")) ∧
    body.UnmarshalJSON quoteASCII
        (.obj [("ids", .arr [.num 5]), ("fields", .obj [("name", .null)])]) =
      .error (.invalid (.base "attribute collection is missing" "")) := by
  decide

theorem decodeType_absent (ms : List (String × JSON)) (st : Decoded String)
    (h : ∀ e ∈ ms, isField "type" e.1 = false) : decodeType ms st = st := by
  induction ms generalizing st with
  | nil => rfl
  | cons m ms ih =>
    obtain ⟨k, v⟩ := m
    have hk : isField "type" k = false := h (k, v) (List.mem_cons_self _ _)
    simp only [decodeType, hk, Bool.false_eq_true, if_false]
    exact ih st (fun e he => h e (List.mem_cons_of_mem _ he))

theorem unmarshalField_obj (quote : String → String) (ms : List (String × JSON)) (T : String)
    (hT : decodeType ms ("", false) = (T, false)) :
    unmarshalField quote (.obj ms) =
      if T = "relation" then
        (relationField.UnmarshalJSON quote ms).map (fun r => .relationField r.1 r.2)
      else if T = "relation-list" then
        (relationField.UnmarshalJSON quote ms).map (fun r => .relationListField r.1 r.2)
      else if T = "generic-relation" then
        (genericRelationField.UnmarshalJSON quote ms).map .genericRelationField
      else if T = "generic-relation-list" then
        (genericRelationField.UnmarshalJSON quote ms).map .genericRelationListField
      else if T = "template" then (templateField.UnmarshalJSON quote ms).map .templateField
      else if T = "" then .error (.invalid (.base "no type" ""))
      else .error (.invalid (.base ("unknown type " ++ T) "")) := by
  simp only [unmarshalField, hT, Bool.false_eq_true, if_false, relationField.UnmarshalJSON,
    genericRelationField.UnmarshalJSON, templateField.UnmarshalJSON]

theorem map_kind {α : Type} (r : Except Err α) (g : α → fieldDescription) (T : String)
    (hg : ∀ a, (g a).kind = T) (d : fieldDescription) (h : r.map g = .ok d) : d.kind = T := by
  cases r with
  | error e => cases h
  | ok a =>
    simp only [Except.map, Except.ok.injEq] at h
    rw [← h]
    exact hg a

/-- C5, amended. The function `unmarshalField` returns the nil description without error on
`null`. On an object whose attribute `type` decodes to `T`: for `T` one of the five type names
it runs the method `UnmarshalJSON` of that type and returns either the error of this method
or a description, which is of the kind `T`; for the empty `T`, which is the case when the
object has no attribute `type`, it fails with Invalid `no type`; for every other `T` it fails
with Invalid `unknown type T`. -/
theorem unmarshalField_type (quote : String → String) :
    unmarshalField quote .null = .ok .nil ∧
    (∀ ms T, decodeType ms ("", false) = (T, false) →
      (T = "relation" → unmarshalField quote (.obj ms) =
        (relationField.UnmarshalJSON quote ms).map (fun r => .relationField r.1 r.2)) ∧
      (T = "relation-list" → unmarshalField quote (.obj ms) =
        (relationField.UnmarshalJSON quote ms).map (fun r => .relationListField r.1 r.2)) ∧
      (T = "generic-relation" → unmarshalField quote (.obj ms) =
        (genericRelationField.UnmarshalJSON quote ms).map .genericRelationField) ∧
      (T = "generic-relation-list" → unmarshalField quote (.obj ms) =
        (genericRelationField.UnmarshalJSON quote ms).map .genericRelationListField) ∧
      (T = "template" → unmarshalField quote (.obj ms) =
        (templateField.UnmarshalJSON quote ms).map .templateField) ∧
      (∀ d, unmarshalField quote (.obj ms) = .ok d → d.kind = T) ∧
      (T = "" → unmarshalField quote (.obj ms) = .error (.invalid (.base "no type" ""))) ∧
      (T ≠ "relation" → T ≠ "relation-list" → T ≠ "generic-relation" →
        T ≠ "generic-relation-list" → T ≠ "template" → T ≠ "" →
        unmarshalField quote (.obj ms) =
          .error (.invalid (.base ("unknown type " ++ T) "")))) ∧
    (∀ ms, (∀ e ∈ ms, isField "type" e.1 = false) →
      unmarshalField quote (.obj ms) = .error (.invalid (.base "no type" ""))) := by
  refine ⟨by simp [unmarshalField], ?_, ?_⟩
  · intro ms T hT
    have h := unmarshalField_obj quote ms T hT
    refine ⟨?_, ?_, ?_, ?_, ?_, ?_, ?_, ?_⟩
    · intro hk
      rw [h, if_pos hk]
    · intro hk
      subst hk
      rw [h]
      simp
    · intro hk
      subst hk
      rw [h]
      simp
    · intro hk
      subst hk
      rw [h]
      simp
    · intro hk
      subst hk
      rw [h]
      simp
    · intro d hd
      rw [h] at hd
      split_ifs at hd with h1 h2 h3 h4 h5 h6
      · refine map_kind _ _ T ?_ d hd
        intro a
        exact h1.symm
      · refine map_kind _ _ T ?_ d hd
        intro a
        exact h2.symm
      · refine map_kind _ _ T ?_ d hd
        intro a
        exact h3.symm
      · refine map_kind _ _ T ?_ d hd
        intro a
        exact h4.symm
      · refine map_kind _ _ T ?_ d hd
        intro a
        exact h5.symm
    · intro hk
      subst hk
      rw [h]
      simp
    · intro h1 h2 h3 h4 h5 h6
      rw [h]
      simp [h1, h2, h3, h4, h5, h6]
  · intro ms habs
    have hT := decodeType_absent ms ("", false) habs
    rw [unmarshalField_obj quote ms "" hT]
    simp

/-- C5, the claim as stated fails: an entry with the type `generic-relation` and without
`fields` has one of the five types, and `unmarshalField` returns an error and no description;
so it does for a template whose `values` have an unknown type. -/
theorem unmarshalField_type_counterexample :
    unmarshalField quoteASCII (.obj [("type", .str "generic-relation")]) =
      .error (.invalid (.base "no fields" "")) ∧
    unmarshalField quoteASCII
        (.obj [("type", .str "template"), ("values", .obj [("type", .str "bad")])]) =
      .error (.invalid
        (.nested (.base "unknown type bad" "") "Error in template sub" "template")) := by
  decide

/-- C5, witness: the entries of the tests `NoType` and `Unknown Type`, and the relation-list
of the test `TestJSONValid`. -/
theorem unmarshalField_type_witness :
    unmarshalField quoteASCII
        (.obj [("collection", .str "group"), ("fields", .obj [("name", .null)])]) =
      .error (.invalid (.base "no type" "")) ∧
    unmarshalField quoteASCII
        (.obj [("type", .str "invalid-type"), ("collection", .str "group"),
          ("fields", .obj [("name", .null)])]) =
      .error (.invalid (.base "unknown type invalid-type" "")) ∧
    unmarshalField quoteASCII
        (.obj [("type", .str "relation-list"), ("collection", .str "motion"),
          ("fields", .obj [("name", .null)])]) =
      .ok (.relationListField "motion" [("name", .nil)]) :=
  ⟨(unmarshalField_type quoteASCII).2.2 _ (by decide),
   ((unmarshalField_type quoteASCII).2.1 _ "invalid-type" (by decide)).2.2.2.2.2.2.2
      (by decide) (by decide) (by decide) (by decide) (by decide) (by decide),
   (((unmarshalField_type quoteASCII).2.1 _ "relation-list" (by decide)).2.1 rfl).trans
      (by decide)⟩

/-! ## The shape of the descriptions -/

theorem relationField_decode_collection_absent (quote : String → String)
    (ms : List (String × JSON)) (st : relationStruct) (bad : Bool) (d : Decoded relationStruct)
    (h : relationField.decode quote ms st bad = .ok d)
    (habs : ∀ e ∈ ms, isField "collection" e.1 = false) :
    d.1.Collection = st.Collection ∧ d.2 = bad := by
  induction ms generalizing st bad with
  | nil =>
    simp only [relationField.decode, Except.ok.injEq] at h
    rw [← h]
    exact ⟨rfl, rfl⟩
  | cons e ms ih =>
    obtain ⟨k, v⟩ := e
    have hk : isField "collection" k = false := habs (k, v) (List.mem_cons_self _ _)
    have hms : ∀ e ∈ ms, isField "collection" e.1 = false := fun e he =>
      habs e (List.mem_cons_of_mem _ he)
    simp only [relationField.decode, hk, Bool.false_eq_true, if_false] at h
    split_ifs at h
    · cases hf : fieldsMap.UnmarshalJSON quote v with
      | error e => rw [hf] at h; cases h
      | ok f =>
        rw [hf] at h
        have h' := ih _ _ h hms
        exact h'
    · exact ih _ _ h hms

theorem relationField_decode_fields_absent (quote : String → String)
    (ms : List (String × JSON)) (st : relationStruct) (bad : Bool) (d : Decoded relationStruct)
    (h : relationField.decode quote ms st bad = .ok d)
    (habs : ∀ e ∈ ms, isField "fields" e.1 = false) : d.1.Fields = st.Fields := by
  induction ms generalizing st bad with
  | nil =>
    simp only [relationField.decode, Except.ok.injEq] at h
    rw [← h]
  | cons e ms ih =>
    obtain ⟨k, v⟩ := e
    have hk : isField "fields" k = false := habs (k, v) (List.mem_cons_self _ _)
    have hms : ∀ e ∈ ms, isField "fields" e.1 = false := fun e he =>
      habs e (List.mem_cons_of_mem _ he)
    simp only [relationField.decode, hk, Bool.false_eq_true, if_false] at h
    split_ifs at h
    · have h' := ih _ _ h hms
      exact h'
    · exact ih _ _ h hms

theorem genericRelationField_decode_absent (quote : String → String)
    (ms : List (String × JSON)) (st : Option fieldsMap) (bad : Bool)
    (habs : ∀ e ∈ ms, isField "fields" e.1 = false) :
    genericRelationField.decode quote ms st bad = .ok (st, bad) := by
  induction ms with
  | nil => simp [genericRelationField.decode]
  | cons e ms ih =>
    obtain ⟨k, v⟩ := e
    have hk : isField "fields" k = false := habs (k, v) (List.mem_cons_self _ _)
    simp only [genericRelationField.decode, hk, Bool.false_eq_true, if_false]
    exact ih (fun e he => habs e (List.mem_cons_of_mem _ he))

theorem templateField_decode_absent (quote : String → String)
    (ms : List (String × JSON)) (st : Option (Except Err fieldDescription))
    (habs : ∀ e ∈ ms, isField "values" e.1 = false) :
    templateField.decode quote ms st = st := by
  induction ms with
  | nil => simp [templateField.decode]
  | cons e ms ih =>
    obtain ⟨k, v⟩ := e
    have hk : isField "values" k = false := habs (k, v) (List.mem_cons_self _ _)
    simp only [templateField.decode, hk, Bool.false_eq_true, if_false]
    exact ih (fun e he => habs e (List.mem_cons_of_mem _ he))

theorem relationField_check_ok (d : Decoded relationStruct) (r : String × fieldsMap)
    (h : relationField.check d = .ok r) :
    d.2 = false ∧ d.1.Collection ≠ "" ∧ d.1.Fields = some r.2 ∧ d.1.Collection = r.1 ∧
      MatchString reCollection r.1 = true := by
  unfold relationField.check at h
  split_ifs at h with h1 h2 h3
  · cases hf : d.1.Fields with
    | none => rw [hf] at h; cases h
    | some f => rw [hf] at h; cases h
  · cases hf : d.1.Fields with
    | none => rw [hf] at h; cases h
    | some f =>
      rw [hf] at h
      simp only [Except.ok.injEq] at h
      subst h
      exact ⟨by simpa using h1, h2, rfl, rfl, by simpa using h3⟩

theorem exists_of_not_forall_false (ms : List (String × JSON)) (name : String)
    (h : ¬ ∀ e ∈ ms, isField name e.1 = false) : ∃ e ∈ ms, isField name e.1 = true := by
  by_contra hne
  apply h
  intro e he
  cases hb : isField name e.1 with
  | false => rfl
  | true => exact absurd ⟨e, he, hb⟩ hne

/-- C6, amended. A relation or relation-list description is parsed only if the object has an
attribute `collection` and an attribute `fields`. When the decoding of the object is without
error, a description without `collection` fails with Invalid `no collection`, and one with a
collection that is not empty and without `fields` fails with Invalid `no fields`. A
generic-relation or generic-relation-list description is parsed only if it has `fields`, and
fails with Invalid `no fields` without it. A template description without `values` is parsed,
and its inner description is nil. -/
theorem description_shape (quote : String → String) (ms : List (String × JSON)) :
    (∀ r, relationField.UnmarshalJSON quote ms = .ok r →
      (∃ e ∈ ms, isField "collection" e.1 = true) ∧ (∃ e ∈ ms, isField "fields" e.1 = true)) ∧
    (∀ st, relationField.decode quote ms ⟨"", none⟩ false = .ok (st, false) →
      ((∀ e ∈ ms, isField "collection" e.1 = false) →
        relationField.UnmarshalJSON quote ms = .error (.invalid (.base "no collection" ""))) ∧
      (st.Collection ≠ "" → (∀ e ∈ ms, isField "fields" e.1 = false) →
        relationField.UnmarshalJSON quote ms = .error (.invalid (.base "no fields" "")))) ∧
    (∀ f, genericRelationField.UnmarshalJSON quote ms = .ok f →
      ∃ e ∈ ms, isField "fields" e.1 = true) ∧
    ((∀ e ∈ ms, isField "fields" e.1 = false) →
      genericRelationField.UnmarshalJSON quote ms = .error (.invalid (.base "no fields" ""))) ∧
    ((∀ e ∈ ms, isField "values" e.1 = false) →
      templateField.UnmarshalJSON quote ms = .ok .nil) := by
  have hgen : (∀ e ∈ ms, isField "fields" e.1 = false) →
      genericRelationField.UnmarshalJSON quote ms =
        .error (.invalid (.base "no fields" "")) := by
    intro habs
    unfold genericRelationField.UnmarshalJSON
    rw [genericRelationField_decode_absent quote ms none false habs]
    rfl
  refine ⟨?_, ?_, ?_, hgen, ?_⟩
  · intro r hr
    unfold relationField.UnmarshalJSON at hr
    cases hd : relationField.decode quote ms ⟨"", none⟩ false with
    | error e => rw [hd] at hr; cases hr
    | ok d =>
      rw [hd] at hr
      have hc := relationField_check_ok d r hr
      constructor
      · apply exists_of_not_forall_false
        intro habs
        exact hc.2.1 (relationField_decode_collection_absent quote ms _ _ d hd habs).1
      · apply exists_of_not_forall_false
        intro habs
        have h := relationField_decode_fields_absent quote ms _ _ d hd habs
        rw [hc.2.2.1] at h
        cases h
  · intro st hdec
    constructor
    · intro habs
      unfold relationField.UnmarshalJSON
      rw [hdec]
      have h := (relationField_decode_collection_absent quote ms _ _ _ hdec habs).1
      simp only at h
      simp [Except.bind, relationField.check, h]
    · intro hc habs
      unfold relationField.UnmarshalJSON
      rw [hdec]
      have h := relationField_decode_fields_absent quote ms _ _ _ hdec habs
      simp only at h
      simp [Except.bind, relationField.check, h, hc]
  · intro f hf
    apply exists_of_not_forall_false
    intro habs
    rw [hgen habs] at hf
    cases hf
  · intro habs
    unfold templateField.UnmarshalJSON
    rw [templateField_decode_absent quote ms none habs]
    rfl

/-- C6, the claim as stated fails for the messages: a relation without `collection` whose
`fields` object has the invalid name `Name` fails with the error of that name and not with
`no collection`, and a relation without `collection` and without `fields` fails with
`no collection` and not with `no fields`. -/
theorem description_shape_counterexample :
    unmarshalField quoteASCII
        (.obj [("type", .str "relation"), ("fields", .obj [("Name", .null)])]) =
      .error (.invalid (.base "fieldname \"Name\" is not a valid fieldname" "Name")) ∧
    unmarshalField quoteASCII (.obj [("type", .str "relation")]) =
      .error (.invalid (.base "no collection" "")) := by
  decide

/-- C6, witness: the relation of the test `Relation no collection`, the relation-list of the
test `Relation twice no fields`, and a template without `values`. -/
theorem description_shape_witness :
    relationField.UnmarshalJSON quoteASCII
        [("type", .str "relation"), ("fields", .obj [("name", .null)])] =
      .error (.invalid (.base "no collection" "")) ∧
    relationField.UnmarshalJSON quoteASCII
        [("type", .str "relation-list"), ("collection", .str "perm")] =
      .error (.invalid (.base "no fields" "")) ∧
    templateField.UnmarshalJSON quoteASCII [("type", .str "template")] = .ok .nil :=
  ⟨((description_shape quoteASCII _).2.1 ⟨"", some [("name", .nil)]⟩ (by decide)).1
      (by decide),
   ((description_shape quoteASCII _).2.1 ⟨"perm", none⟩ (by decide)).2 (by decide) (by decide),
   (description_shape quoteASCII _).2.2.2.2 (by decide)⟩

/-! ## The path that an error carries -/

theorem relationField_decode_error (quote : String → String) (ms : List (String × JSON))
    (st : relationStruct) (bad : Bool) (err : Err)
    (h : relationField.decode quote ms st bad = .error err) :
    ∃ k v, (k, v) ∈ ms ∧ isField "fields" k = true ∧
      fieldsMap.UnmarshalJSON quote v = .error err := by
  induction ms generalizing st bad with
  | nil => simp [relationField.decode] at h
  | cons m ms ih =>
    obtain ⟨k, v⟩ := m
    simp only [relationField.decode] at h
    split_ifs at h with h1 h2
    · obtain ⟨k', v', hm, hk, hv⟩ := ih _ _ h
      exact ⟨k', v', List.mem_cons_of_mem _ hm, hk, hv⟩
    · cases hf : fieldsMap.UnmarshalJSON quote v with
      | error e =>
        rw [hf] at h
        simp only [Except.error.injEq] at h
        exact ⟨k, v, List.mem_cons_self _ _, h2, by rw [hf, h]⟩
      | ok f =>
        rw [hf] at h
        obtain ⟨k', v', hm, hk, hv⟩ := ih _ _ h
        exact ⟨k', v', List.mem_cons_of_mem _ hm, hk, hv⟩
    · obtain ⟨k', v', hm, hk, hv⟩ := ih _ _ h
      exact ⟨k', v', List.mem_cons_of_mem _ hm, hk, hv⟩

theorem genericRelationField_decode_error (quote : String → String)
    (ms : List (String × JSON)) (st : Option fieldsMap) (bad : Bool) (err : Err)
    (h : genericRelationField.decode quote ms st bad = .error err) :
    ∃ k v, (k, v) ∈ ms ∧ isField "fields" k = true ∧
      fieldsMap.UnmarshalJSON quote v = .error err := by
  induction ms generalizing st bad with
  | nil => simp [genericRelationField.decode] at h
  | cons m ms ih =>
    obtain ⟨k, v⟩ := m
    simp only [genericRelationField.decode] at h
    split_ifs at h with h1
    · cases hf : fieldsMap.UnmarshalJSON quote v with
      | error e =>
        rw [hf] at h
        simp only [Except.error.injEq] at h
        exact ⟨k, v, List.mem_cons_self _ _, h1, by rw [hf, h]⟩
      | ok f =>
        rw [hf] at h
        obtain ⟨k', v', hm, hk, hv⟩ := ih _ _ h
        exact ⟨k', v', List.mem_cons_of_mem _ hm, hk, hv⟩
    · obtain ⟨k', v', hm, hk, hv⟩ := ih _ _ h
      exact ⟨k', v', List.mem_cons_of_mem _ hm, hk, hv⟩

theorem body_decode_error (quote : String → String) (ms : List (String × JSON))
    (st : bodyStruct) (bad : Bool) (err : Err)
    (h : body.decode quote ms st bad = .error err) :
    ∃ k v, (k, v) ∈ ms ∧ isField "fields" k = true ∧
      fieldsMap.UnmarshalJSON quote v = .error err := by
  induction ms generalizing st bad with
  | nil => simp [body.decode] at h
  | cons m ms ih =>
    obtain ⟨k, v⟩ := m
    simp only [body.decode] at h
    split_ifs at h with h1 h2 h3
    · obtain ⟨k', v', hm, hk, hv⟩ := ih _ _ h
      exact ⟨k', v', List.mem_cons_of_mem _ hm, hk, hv⟩
    · obtain ⟨k', v', hm, hk, hv⟩ := ih _ _ h
      exact ⟨k', v', List.mem_cons_of_mem _ hm, hk, hv⟩
    · cases hf : fieldsMap.UnmarshalJSON quote v with
      | error e =>
        rw [hf] at h
        simp only [Except.error.injEq] at h
        exact ⟨k, v, List.mem_cons_self _ _, h3, by rw [hf, h]⟩
      | ok f =>
        rw [hf] at h
        obtain ⟨k', v', hm, hk, hv⟩ := ih _ _ h
        exact ⟨k', v', List.mem_cons_of_mem _ hm, hk, hv⟩
    · obtain ⟨k', v', hm, hk, hv⟩ := ih _ _ h
      exact ⟨k', v', List.mem_cons_of_mem _ hm, hk, hv⟩

theorem templateField_decode_some (quote : String → String) (ms : List (String × JSON))
    (st : Option (Except Err fieldDescription)) (r : Except Err fieldDescription)
    (h : templateField.decode quote ms st = some r) :
    st = some r ∨ ∃ k v, (k, v) ∈ ms ∧ isField "values" k = true ∧ r = unmarshalField quote v := by
  induction ms generalizing st with
  | nil =>
    simp only [templateField.decode] at h
    exact Or.inl h
  | cons m ms ih =>
    obtain ⟨k, v⟩ := m
    simp only [templateField.decode] at h
    split_ifs at h with h1
    · rcases ih _ h with h' | ⟨k', v', hm, hk, hv⟩
      · simp only [Option.some.injEq] at h'
        exact Or.inr ⟨k, v, List.mem_cons_self _ _, h1, h'.symm⟩
      · exact Or.inr ⟨k', v', List.mem_cons_of_mem _ hm, hk, hv⟩
    · rcases ih _ h with h' | ⟨k', v', hm, hk, hv⟩
      · exact Or.inl h'
      · exact Or.inr ⟨k', v', List.mem_cons_of_mem _ hm, hk, hv⟩

theorem relationField_check_error (d : Decoded relationStruct) (e : InvalidError)
    (h : relationField.check d = .error (.invalid e)) : ∃ msg, e = .base msg "" := by
  unfold relationField.check at h
  split_ifs at h with h1 h2 h3
  · cases h
  · simp only [Except.error.injEq, Err.invalid.injEq] at h
    exact ⟨_, h.symm⟩
  · cases hf : d.1.Fields with
    | none =>
      rw [hf] at h
      simp only [Except.error.injEq, Err.invalid.injEq] at h
      exact ⟨_, h.symm⟩
    | some f =>
      rw [hf] at h
      simp only [Except.error.injEq, Err.invalid.injEq] at h
      exact ⟨_, h.symm⟩
  · cases hf : d.1.Fields with
    | none =>
      rw [hf] at h
      simp only [Except.error.injEq, Err.invalid.injEq] at h
      exact ⟨_, h.symm⟩
    | some f => rw [hf] at h; cases h

theorem genericRelationField_check_error (d : Decoded (Option fieldsMap)) (e : InvalidError)
    (h : genericRelationField.check d = .error (.invalid e)) : ∃ msg, e = .base msg "" := by
  unfold genericRelationField.check at h
  split_ifs at h with h1
  · cases h
  · cases hf : d.1 with
    | none =>
      rw [hf] at h
      simp only [Except.error.injEq, Err.invalid.injEq] at h
      exact ⟨_, h.symm⟩
    | some f => rw [hf] at h; cases h

theorem body_check_error (d : Decoded bodyStruct) (e : InvalidError)
    (h : body.check d = .error (.invalid e)) : ∃ msg, e = .base msg "" := by
  unfold body.check at h
  split_ifs at h with h1 h2 h3 h4 h5
  · cases h
  · simp only [Except.error.injEq, Err.invalid.injEq] at h
    exact ⟨_, h.symm⟩
  · simp only [Except.error.injEq, Err.invalid.injEq] at h
    exact ⟨_, h.symm⟩
  · simp only [Except.error.injEq, Err.invalid.injEq] at h
    exact ⟨_, h.symm⟩
  · cases hf : d.1.Fields with
    | none =>
      rw [hf] at h
      simp only [Except.error.injEq, Err.invalid.injEq] at h
      exact ⟨_, h.symm⟩
    | some f =>
      rw [hf] at h
      simp only [Except.error.injEq, Err.invalid.injEq] at h
      exact ⟨_, h.symm⟩
  · cases hf : d.1.Fields with
    | none =>
      rw [hf] at h
      simp only [Except.error.injEq, Err.invalid.injEq] at h
      exact ⟨_, h.symm⟩
    | some f => rw [hf] at h; cases h

theorem templateField_check_error (x : Option (Except Err fieldDescription))
    (e : InvalidError) (h : templateField.check x = .error (.invalid e)) :
    ∃ sub, x = some (.error (.invalid sub)) ∧
      e = .nested sub "Error in template sub" "template" := by
  unfold templateField.check at h
  split at h
  · cases h
  · simp only [Except.error.injEq, Err.invalid.injEq] at h
    exact ⟨_, rfl, h.symm⟩
  · cases h
  · cases h

theorem fieldsMap_collect_error (quote : String → String)
    (es : List (String × Except Err fieldDescription)) (acc : fieldsMap) (e : InvalidError)
    (h : fieldsMap.collect quote es acc = .error (.invalid e)) :
    ∃ name r, (name, r) ∈ es ∧
      ((MatchString reField name = false ∧
          e = .base ("fieldname " ++ quote name ++ " is not a valid fieldname") name) ∨
        ∃ sub, r = .error (.invalid sub) ∧ e = .nested sub "Error on field" name) := by
  induction es generalizing acc with
  | nil => simp [fieldsMap.collect] at h
  | cons m es ih =>
    obtain ⟨name, r⟩ := m
    simp only [fieldsMap.collect] at h
    split_ifs at h with hn
    · simp only [Except.error.injEq, Err.invalid.injEq] at h
      exact ⟨name, r, List.mem_cons_self _ _, Or.inl ⟨by simpa using hn, h.symm⟩⟩
    · cases r with
      | error err =>
        cases err with
        | invalid sub =>
          simp only [Except.error.injEq, Err.invalid.injEq] at h
          exact ⟨name, _, List.mem_cons_self _ _, Or.inr ⟨sub, rfl, h.symm⟩⟩
        | json => cases h
        | wrapped msg e' => cases h
      | ok fd =>
        obtain ⟨name', r', hm, hcase⟩ := ih _ h
        exact ⟨name', r', List.mem_cons_of_mem _ hm, hcase⟩

theorem sizeOf_member_lt (ms : List (String × JSON)) (k : String) (v : JSON)
    (h : (k, v) ∈ ms) : sizeOf v < sizeOf (JSON.obj ms) := by
  have h1 := List.sizeOf_lt_of_mem h
  have h2 : sizeOf (k, v) = 1 + sizeOf k + sizeOf v := rfl
  simp only [JSON.obj.sizeOf_spec]
  omega

theorem fields_failure_of_error (quote : String → String) (v : JSON) (e : InvalidError)
    (h : fieldsMap.UnmarshalJSON quote v = .error (.invalid e))
    (ih : ∀ w, sizeOf w < sizeOf v → ∀ sub, unmarshalField quote w = .error (.invalid sub) →
      DescriptionFailure quote w sub.Fields sub.innerMsg) :
    ∃ fs, v = JSON.obj fs ∧ FieldsFailure quote fs e.Fields e.innerMsg := by
  cases v with
  | obj fs =>
    refine ⟨fs, rfl, ?_⟩
    simp only [fieldsMap.UnmarshalJSON] at h
    obtain ⟨name, r, hm, hcase⟩ := fieldsMap_collect_error quote _ _ e h
    have hm' := lastMembers_subset _ _ hm
    rw [unmarshalFields_eq_map] at hm'
    obtain ⟨m, hmem, hmeq⟩ := List.mem_map.1 hm'
    obtain ⟨k, w⟩ := m
    simp only [Prod.mk.injEq] at hmeq
    obtain ⟨hk, hr⟩ := hmeq
    subst hk
    rcases hcase with ⟨hname, he⟩ | ⟨sub, hsub, he⟩
    · subst he
      rw [MatchString_reField] at hname
      exact FieldsFailure.name hmem hname
    · subst he
      rw [← hr] at hsub
      exact FieldsFailure.sub hmem (ih w (sizeOf_member_lt fs k w hmem) sub hsub)
  | null => simp [fieldsMap.UnmarshalJSON] at h
  | bool b => simp [fieldsMap.UnmarshalJSON] at h
  | num n => simp [fieldsMap.UnmarshalJSON] at h
  | float l => simp [fieldsMap.UnmarshalJSON] at h
  | str s => simp [fieldsMap.UnmarshalJSON] at h
  | arr xs => simp [fieldsMap.UnmarshalJSON] at h

theorem map_error {α β : Type} (r : Except Err α) (g : α → β) (err : Err)
    (h : r.map g = .error err) : r = .error err := by
  cases r with
  | error e => simpa [Except.map] using h
  | ok a => simp [Except.map] at h

theorem unmarshalField_error_cases (quote : String → String) (ms : List (String × JSON))
    (e : InvalidError) (h : unmarshalField quote (.obj ms) = .error (.invalid e)) :
    (∃ msg, e = .base msg "") ∨
      relationField.UnmarshalJSON quote ms = .error (.invalid e) ∨
      genericRelationField.UnmarshalJSON quote ms = .error (.invalid e) ∨
      templateField.UnmarshalJSON quote ms = .error (.invalid e) := by
  cases hT : decodeType ms ("", false) with
  | mk T b =>
    cases b with
    | true => simp [unmarshalField, hT] at h
    | false =>
      rw [unmarshalField_obj quote ms T hT] at h
      split_ifs at h
      · exact Or.inr (Or.inl (map_error _ _ _ h))
      · exact Or.inr (Or.inl (map_error _ _ _ h))
      · exact Or.inr (Or.inr (Or.inl (map_error _ _ _ h)))
      · exact Or.inr (Or.inr (Or.inl (map_error _ _ _ h)))
      · exact Or.inr (Or.inr (Or.inr (map_error _ _ _ h)))
      · simp only [Except.error.injEq, Err.invalid.injEq] at h
        exact Or.inl ⟨_, h.symm⟩
      · simp only [Except.error.injEq, Err.invalid.injEq] at h
        exact Or.inl ⟨_, h.symm⟩

theorem bind_error {α β : Type} (r : Except Err α) (g : α → Except Err β) (err : Err)
    (h : r.bind g = .error err) : r = .error err ∨ ∃ a, r = .ok a ∧ g a = .error err := by
  cases r with
  | error e => exact Or.inl (by simpa [Except.bind] using h)
  | ok a => exact Or.inr ⟨a, rfl, by simpa [Except.bind] using h⟩

theorem description_failure_of_error (quote : String → String) (j : JSON) (e : InvalidError)
    (h : unmarshalField quote j = .error (.invalid e)) :
    DescriptionFailure quote j e.Fields e.innerMsg := by
  generalize hn : sizeOf j = n
  induction n using Nat.strong_induction_on generalizing j e with
  | _ n ih =>
    subst hn
    have ih' : ∀ w, sizeOf w < sizeOf j → ∀ sub,
        unmarshalField quote w = .error (.invalid sub) →
        DescriptionFailure quote w sub.Fields sub.innerMsg :=
      fun w hw sub hsub => ih (sizeOf w) hw w sub hsub rfl
    cases j with
    | obj ms =>
      have hfields : ∀ k v, (k, v) ∈ ms → isField "fields" k = true →
          fieldsMap.UnmarshalJSON quote v = .error (.invalid e) →
          DescriptionFailure quote (.obj ms) e.Fields e.innerMsg := by
        intro k v hm hk hv
        obtain ⟨fs, hfs, hfail⟩ := fields_failure_of_error quote v e hv
          (fun w hw => ih' w (lt_trans hw (sizeOf_member_lt ms k v hm)))
        subst hfs
        exact DescriptionFailure.fields hm hk hfail
      rcases unmarshalField_error_cases quote ms e h with ⟨msg, rfl⟩ | hrel | hgen | htmpl
      · exact DescriptionFailure.own h
      · rcases bind_error _ _ _ hrel with hdec | ⟨d, _, hcheck⟩
        · obtain ⟨k, v, hm, hk, hv⟩ := relationField_decode_error quote ms _ _ _ hdec
          exact hfields k v hm hk hv
        · obtain ⟨msg, rfl⟩ := relationField_check_error d e hcheck
          exact DescriptionFailure.own h
      · rcases bind_error _ _ _ hgen with hdec | ⟨d, _, hcheck⟩
        · obtain ⟨k, v, hm, hk, hv⟩ := genericRelationField_decode_error quote ms _ _ _ hdec
          exact hfields k v hm hk hv
        · obtain ⟨msg, rfl⟩ := genericRelationField_check_error d e hcheck
          exact DescriptionFailure.own h
      · obtain ⟨sub, hsome, rfl⟩ := templateField_check_error _ e htmpl
        rcases templateField_decode_some quote ms none _ hsome with hnone | ⟨k, v, hm, hk, hv⟩
        · cases hnone
        · exact DescriptionFailure.values hm hk
            (ih' v (sizeOf_member_lt ms k v hm) sub hv.symm)
    | null => simp [unmarshalField] at h
    | bool b => simp [unmarshalField] at h
    | num n => simp [unmarshalField] at h
    | float l => simp [unmarshalField] at h
    | str s => simp [unmarshalField] at h
    | arr xs => simp [unmarshalField] at h

/-- C7, amended. When `unmarshalField` fails with an Invalid error, the path that the error
carries leads to the place of a failure, and its innermost message is the message of that
failure: the path names the fields from the outermost to the innermost, and it has the
additional step `template` wherever it passes from a template description to its `values`.
When `body.UnmarshalJSON` fails with an Invalid error, either the root itself is rejected and
the path is empty, or the path leads to the place of a failure in the attribute `fields`. -/
theorem invalid_error_path (quote : String → String) :
    (∀ j e, unmarshalField quote j = .error (.invalid e) →
      DescriptionFailure quote j e.Fields e.innerMsg) ∧
    (∀ ms e, body.UnmarshalJSON quote (.obj ms) = .error (.invalid e) →
      (e.Fields = [] ∧ ∃ msg, e = .base msg "") ∨
      (∃ k fs, (k, JSON.obj fs) ∈ ms ∧ isField "fields" k = true ∧
        FieldsFailure quote fs e.Fields e.innerMsg)) := by
  refine ⟨description_failure_of_error quote, ?_⟩
  intro ms e h
  rcases bind_error _ _ _ h with hdec | ⟨d, _, hcheck⟩
  · obtain ⟨k, v, hm, hk, hv⟩ := body_decode_error quote ms _ _ _ hdec
    obtain ⟨fs, hfs, hfail⟩ := fields_failure_of_error quote v e hv
      (fun w _ sub hsub => description_failure_of_error quote w sub hsub)
    subst hfs
    exact Or.inr ⟨k, fs, hm, hk, hfail⟩
  · obtain ⟨msg, rfl⟩ := body_check_error d e hcheck
    exact Or.inl ⟨rfl, msg, rfl⟩

/-- C7, the claim as stated fails: a failure in the `values` of the template field `b_$_ids`
is reached from the root through the one field name `b_$_ids`, and the error carries the
path `b_$_ids`, `template` and is reported as `field "b_$_ids.template": unknown type bad`. -/
theorem invalid_error_path_counterexample :
    body.UnmarshalJSON quoteASCII
        (.obj [("ids", .arr [.num 1]), ("collection", .str "d"),
          ("fields", .obj [("b_$_ids",
            .obj [("type", .str "template"), ("values", .obj [("type", .str "bad")])])])]) =
      .error (.invalid
        (.nested (.nested (.base "unknown type bad" "") "Error in template sub" "template")
          "Error on field" "b_$_ids")) ∧
    (InvalidError.nested
        (.nested (.base "unknown type bad" "") "Error in template sub" "template")
        "Error on field" "b_$_ids").Fields = ["b_$_ids", "template"] ∧
    (InvalidError.nested
        (.nested (.base "unknown type bad" "") "Error in template sub" "template")
        "Error on field" "b_$_ids").Error = "field \"b_$_ids.template\": unknown type bad" := by
  decide

/-- C7, witness: the description of `group_id` in the test `NoType sub` fails at the place
`perm_ids` with the message `no type`. -/
theorem invalid_error_path_witness :
    DescriptionFailure quoteASCII
      (.obj [("type", .str "relation-list"), ("collection", .str "group"),
        ("fields", .obj [("perm_ids",
          .obj [("fields", .obj [("collection", .str "perm"),
            ("fields", .obj [("name", .null)])])])])])
      ["perm_ids"] "no type" :=
  (invalid_error_path quoteASCII).1 _
    (.nested (.base "no type" "") "Error on field" "perm_ids") (by decide)

/-! ## Reading and writing a Go map -/

theorem GoMap_get?_set {κ α : Type} [DecidableEq κ] (m : GoMap κ α) (k k' : κ) (v : α) :
    GoMap.get? (GoMap.set m k v) k' = if k = k' then some v else GoMap.get? m k' := by
  induction m with
  | nil => simp [GoMap.set, GoMap.get?]
  | cons e m ih =>
    obtain ⟨k0, v0⟩ := e
    simp only [GoMap.set]
    by_cases h0 : k0 = k
    · subst h0
      simp only [if_true, GoMap.get?]
      by_cases h1 : k0 = k' <;> simp [h1]
    · simp only [h0, if_false, GoMap.get?, ih]
      by_cases h1 : k0 = k'
      · subst h1
        simp [Ne.symm h0]
      · simp [h1]

theorem GoMap_mem_range_iff {κ α : Type} [DecidableEq κ] (m : GoMap κ α) (k : κ) (v : α) :
    (k, v) ∈ GoMap.range m ↔ GoMap.get? m k = some v := by
  induction m with
  | nil => simp [GoMap.range, GoMap.get?]
  | cons e m ih =>
    obtain ⟨k0, v0⟩ := e
    simp only [GoMap.range, GoMap.get?, List.mem_cons, List.mem_filter, ih, Prod.mk.injEq,
      decide_eq_true_eq]
    by_cases h0 : k0 = k
    · subst h0
      simp [eq_comm]
    · simp [h0, Ne.symm h0]

theorem GoMap_range_nodup {κ α : Type} [DecidableEq κ] (m : GoMap κ α) :
    ((GoMap.range m).map Prod.fst).Nodup := by
  induction m with
  | nil => simp [GoMap.range]
  | cons e m ih =>
    obtain ⟨k0, v0⟩ := e
    simp only [GoMap.range, List.map_cons, List.nodup_cons]
    constructor
    · intro hmem
      obtain ⟨x, hx, hxk⟩ := List.mem_map.1 hmem
      have := (List.mem_filter.1 hx).2
      simp only [decide_eq_true_eq] at this
      exact this hxk
    · exact (ih.sublist (List.Sublist.map _ (List.filter_sublist _)))

theorem GoMap_mem_keySet_iff {κ α : Type} [DecidableEq κ] (m : GoMap κ α) (k : κ) :
    k ∈ GoMap.keySet m ↔ (GoMap.get? m k).isSome = true := by
  unfold GoMap.keySet
  constructor
  · intro h
    obtain ⟨e, he, hk⟩ := List.mem_map.1 h
    obtain ⟨k0, v0⟩ := e
    simp only at hk
    subst hk
    rw [(GoMap_mem_range_iff m k0 v0).1 he]
    rfl
  · intro h
    obtain ⟨v, hv⟩ := Option.isSome_iff_exists.1 h
    exact List.mem_map.2 ⟨(k, v), (GoMap_mem_range_iff m k v).2 hv, rfl⟩

/-- The map after the writes `data[(c, i, name)] = d` for the entries `(name, d)` of `es`. -/
theorem fold_set_get?_of_ne (es : List (String × fieldDescription)) (c : String) (i : Int)
    (data : KeyMap) (k : Key) (h : ∀ e ∈ es, (⟨c, i, e.1⟩ : Key) ≠ k) :
    GoMap.get? (es.foldl (fun d e => GoMap.set d ⟨c, i, e.1⟩ e.2) data) k =
      GoMap.get? data k := by
  induction es generalizing data with
  | nil => rfl
  | cons e es ih =>
    simp only [List.foldl_cons]
    rw [ih _ (fun e' he' => h e' (List.mem_cons_of_mem _ he')), GoMap_get?_set,
      if_neg (h e (List.mem_cons_self _ _))]

theorem fold_set_get?_of_mem (es : List (String × fieldDescription)) (c : String) (i : Int)
    (data : KeyMap) (n : String) (d : fieldDescription)
    (hnd : (es.map Prod.fst).Nodup) (hmem : (n, d) ∈ es) :
    GoMap.get? (es.foldl (fun d e => GoMap.set d ⟨c, i, e.1⟩ e.2) data) ⟨c, i, n⟩ =
      some d := by
  induction es generalizing data with
  | nil => cases hmem
  | cons e es ih =>
    simp only [List.map_cons, List.nodup_cons] at hnd
    simp only [List.foldl_cons]
    rcases List.mem_cons.1 hmem with rfl | hm
    · rw [fold_set_get?_of_ne, GoMap_get?_set, if_pos rfl]
      intro e' he' heq
      simp only [Key.mk.injEq, true_and] at heq
      exact hnd.1 (List.mem_map.2 ⟨e', he', heq⟩)
    · exact ih _ hnd.2 hm

/-- What `fieldsMap.keys` leaves in the map: the description of the field for a key of the
collection and the id with a field of `f`, and the former entry for every other key. -/
theorem fieldsMap_keys_get? (f : fieldsMap) (c : String) (i : Int) (data : KeyMap)
    (k : Key) :
    GoMap.get? (fieldsMap.keys f c i data) k =
      if k.Collection = c ∧ k.ID = i ∧ (GoMap.get? f k.Field).isSome = true then
        GoMap.get? f k.Field
      else GoMap.get? data k := by
  unfold fieldsMap.keys
  split_ifs with h
  · obtain ⟨hc, hi, hs⟩ := h
    obtain ⟨d, hd⟩ := Option.isSome_iff_exists.1 hs
    rw [hd]
    have hk : k = ⟨c, i, k.Field⟩ := by
      cases k
      simp only [Key.mk.injEq] at hc hi ⊢
      exact ⟨hc, hi, trivial⟩
    rw [hk]
    exact fold_set_get?_of_mem _ c i data k.Field d (GoMap_range_nodup f)
      ((GoMap_mem_range_iff f k.Field d).2 hd)
  · apply fold_set_get?_of_ne
    intro e he heq
    apply h
    subst heq
    obtain ⟨n, d⟩ := e
    refine ⟨rfl, rfl, ?_⟩
    rw [(GoMap_mem_range_iff f n d).1 he]
    rfl

/-- The map after `fieldsMap.keys` for every pair of a collection and an id of `ps`. -/
theorem fold_keys_get? (f : fieldsMap) (ps : List (String × Int)) (data : KeyMap) (k : Key) :
    GoMap.get? (ps.foldl (fun d p => fieldsMap.keys f p.1 p.2 d) data) k =
      if (k.Collection, k.ID) ∈ ps ∧ (GoMap.get? f k.Field).isSome = true then
        GoMap.get? f k.Field
      else GoMap.get? data k := by
  induction ps generalizing data with
  | nil => simp
  | cons p ps ih =>
    obtain ⟨c, i⟩ := p
    simp only [List.foldl_cons]
    rw [ih, fieldsMap_keys_get?]
    by_cases hs : (GoMap.get? f k.Field).isSome = true
    · by_cases hp : (k.Collection, k.ID) ∈ ps
      · simp [hs, hp]
      · by_cases hc : k.Collection = c ∧ k.ID = i
        · simp [hs, hp, hc.1, hc.2]
        · have hne : ¬ ((k.Collection, k.ID) = (c, i)) := by
            simpa [Prod.mk.injEq] using hc
          have hc' : ¬ (k.Collection = c ∧ k.ID = i ∧ True) := by simpa using hc
          simp only [hs, hp, hne, hc', List.mem_cons, or_false, and_true, false_and,
            if_false]
          rw [if_neg hc]
    · simp [hs]

/-! ## The keys of the root -/

theorem body_keys_eq_fold (b : body) (data : KeyMap) :
    body.keys b data =
      (b.ids.map (fun id => (b.collection, id))).foldl
        (fun d p => fieldsMap.keys b.fields p.1 p.2 d) data := by
  unfold body.keys
  rw [List.foldl_map]

theorem body_keys_get? (b : body) (k : Key) :
    GoMap.get? (body.keys b []) k =
      if k.Collection = b.collection ∧ k.ID ∈ b.ids then GoMap.get? b.fields k.Field
      else none := by
  rw [body_keys_eq_fold, fold_keys_get?]
  have hmem : (k.Collection, k.ID) ∈ b.ids.map (fun id => (b.collection, id)) ↔
      (k.Collection = b.collection ∧ k.ID ∈ b.ids) := by
    simp only [List.mem_map, Prod.mk.injEq]
    constructor
    · rintro ⟨id, hid, hc, hi⟩
      exact ⟨hc.symm, hi ▸ hid⟩
    · rintro ⟨hc, hid⟩
      exact ⟨k.ID, hid, hc.symm, rfl⟩
  by_cases h : k.Collection = b.collection ∧ k.ID ∈ b.ids
  · rw [if_pos h]
    by_cases hs : (GoMap.get? b.fields k.Field).isSome = true
    · rw [if_pos ⟨hmem.2 h, hs⟩]
    · rw [if_neg (fun hh => hs hh.2)]
      simp only [Bool.not_eq_true, Option.not_isSome, Option.isNone_iff_eq_none] at hs
      rw [hs]
      rfl
  · rw [if_neg h, if_neg (fun hh => h (hmem.1 hh.1))]
    rfl

theorem body_keys_mem_keySet (b : body) (k : Key) :
    k ∈ GoMap.keySet (body.keys b []) ↔
      (k.Collection = b.collection ∧ k.ID ∈ b.ids ∧ k.Field ∈ GoMap.keySet b.fields) := by
  rw [GoMap_mem_keySet_iff, body_keys_get?, GoMap_mem_keySet_iff]
  by_cases h : k.Collection = b.collection ∧ k.ID ∈ b.ids
  · rw [if_pos h]
    exact ⟨fun hs => ⟨h.1, h.2, hs⟩, fun hs => hs.2.2⟩
  · rw [if_neg h]
    constructor
    · intro hs
      cases hs
    · intro hs
      exact absurd ⟨hs.1, hs.2.1⟩ h

theorem GoMap_size_eq_card {κ α : Type} [DecidableEq κ] (m : GoMap κ α) :
    GoMap.size m = (GoMap.keySet m).toFinset.card := by
  unfold GoMap.size GoMap.keySet
  rw [List.toFinset_card_of_nodup (GoMap_range_nodup m), List.length_map]

/-- C8. The map that `body.keys` builds from the empty map holds, for a key of the collection
of the root with one of its ids, the description that `fields` has for the field of the key,
and nothing for any other key; its keys are the keys `(collection, id, f)` with `id` among
the ids and `f` a name of `fields`, and their number is the number of different ids times
the number of fields. -/
theorem body_keys_seed (b : body) :
    (∀ k, GoMap.get? (body.keys b []) k =
      if k.Collection = b.collection ∧ k.ID ∈ b.ids then GoMap.get? b.fields k.Field
      else none) ∧
    (∀ k, k ∈ GoMap.keySet (body.keys b []) ↔
      (k.Collection = b.collection ∧ k.ID ∈ b.ids ∧ k.Field ∈ GoMap.keySet b.fields)) ∧
    GoMap.size (body.keys b []) = b.ids.dedup.length * GoMap.size b.fields := by
  refine ⟨body_keys_get? b, body_keys_mem_keySet b, ?_⟩
  rw [GoMap_size_eq_card, GoMap_size_eq_card, ← List.card_toFinset, ← Finset.card_product]
  have himg : (GoMap.keySet (body.keys b [])).toFinset =
      Finset.image (fun p : Int × String => (⟨b.collection, p.1, p.2⟩ : Key))
        (b.ids.toFinset ×ˢ (GoMap.keySet b.fields).toFinset) := by
    ext k
    simp only [List.mem_toFinset, body_keys_mem_keySet, Finset.mem_image, Finset.mem_product,
      Prod.exists]
    constructor
    · rintro ⟨hc, hi, hf⟩
      refine ⟨k.ID, k.Field, ⟨hi, hf⟩, ?_⟩
      cases k
      simp only [Key.mk.injEq] at hc ⊢
      exact ⟨hc.symm, trivial, trivial⟩
    · rintro ⟨i, f, ⟨hi, hf⟩, rfl⟩
      exact ⟨rfl, hi, hf⟩
  rw [himg]
  apply Finset.card_image_of_injective
  intro p q hpq
  simp only [Key.mk.injEq, true_and] at hpq
  exact Prod.ext hpq.1 hpq.2

/-! ## Relations and lists of relations -/

theorem relationField_keys_num (C : String) (F : fieldsMap) (key : Key) (n : Int)
    (data : KeyMap) (hfit : fitsInt n = true) :
    relationField.keys C F key (.num n) data = (fieldsMap.keys F C n data, none) := by
  simp [relationField.keys, decodeInt, hfit]

/-- C9, amended. For a relation to the collection `C` with the sub-fields `F`, every key,
every map `data` and every JSON integer `n` that fits Go's `int`, `relationField.keys` returns
no error, and the map after the call is `data` overridden with `(C, n, f) -> F[f]` for the
names `f` of `F`: every other entry of `data` is as before and none is removed. -/
theorem relationField_keys_integer (C : String) (F : fieldsMap) (key : Key) (data : KeyMap)
    (n : Int) (hfit : fitsInt n = true) :
    (relationField.keys C F key (.num n) data).2 = none ∧
    (∀ k, GoMap.get? (relationField.keys C F key (.num n) data).1 k =
      if k.Collection = C ∧ k.ID = n ∧ (GoMap.get? F k.Field).isSome = true then
        GoMap.get? F k.Field
      else GoMap.get? data k) ∧
    (∀ k, (GoMap.get? data k).isSome = true →
      (GoMap.get? (relationField.keys C F key (.num n) data).1 k).isSome = true) := by
  rw [relationField_keys_num C F key n data hfit]
  refine ⟨rfl, fun k => fieldsMap_keys_get? F C n data k, ?_⟩
  intro k hk
  simp only [fieldsMap_keys_get?]
  split_ifs with h
  · exact h.2.2
  · exact hk

/-- C9, the claim as stated fails: the JSON integer `9223372036854775808` does not fit Go's
`int`, the decoding fails and `relationField.keys` returns the error for the key. -/
theorem relationField_keys_integer_counterexample :
    relationField.keys "b" [("name", .nil)] ⟨"a", 1, "b_id"⟩ (.num 9223372036854775808) [] =
      ([], some (.decoding ⟨"a", 1, "b_id"⟩)) := by
  decide

/-- C9, witness: the field `a/1/b_id` with the value `1` and the sub-field `name`. -/
theorem relationField_keys_integer_witness :
    (relationField.keys "b" [("name", .nil)] ⟨"a", 1, "b_id"⟩ (.num 1) []).2 = none ∧
    GoMap.get? (relationField.keys "b" [("name", .nil)] ⟨"a", 1, "b_id"⟩ (.num 1) []).1
      ⟨"b", 1, "name"⟩ = some .nil :=
  ⟨(relationField_keys_integer "b" [("name", .nil)] ⟨"a", 1, "b_id"⟩ [] 1 (by decide)).1,
   ((relationField_keys_integer "b" [("name", .nil)] ⟨"a", 1, "b_id"⟩ [] 1 (by decide)).2.1
      ⟨"b", 1, "name"⟩).trans (by decide)⟩

theorem decodeElems_num (ns : List Int) (store : List Int) (h : ∀ n ∈ ns, fitsInt n = true) :
    decodeElems decodeInt 0 (ns.map JSON.num) store = (ns, false) := by
  induction ns generalizing store with
  | nil => rfl
  | cons n ns ih =>
    have hn := h n (List.mem_cons_self _ _)
    simp only [List.map_cons, decodeElems, decodeInt, hn, if_true,
      ih _ (fun m hm => h m (List.mem_cons_of_mem _ hm)), Bool.or_self]

theorem decodeElems_str (ss : List String) (store : List String) :
    decodeElems decodeString "" (ss.map JSON.str) store = (ss, false) := by
  induction ss generalizing store with
  | nil => rfl
  | cons s ss ih => simp only [List.map_cons, decodeElems, decodeString, ih, Bool.or_self]

theorem decodeSlice_num (ns : List Int) (h : ∀ n ∈ ns, fitsInt n = true) :
    decodeSlice decodeInt 0 (.arr (ns.map JSON.num)) Slice.nil = (⟨ns, []⟩, false) := by
  cases ns with
  | nil => rfl
  | cons n ns =>
    simp only [List.map_cons, decodeSlice, Slice.nil, List.append_nil]
    rw [← List.map_cons, decodeElems_num (n :: ns) [] h]
    rfl

theorem decodeSlice_str (ss : List String) :
    decodeSlice decodeString "" (.arr (ss.map JSON.str)) Slice.nil = (⟨ss, []⟩, false) := by
  cases ss with
  | nil => rfl
  | cons s ss =>
    simp only [List.map_cons, decodeSlice, Slice.nil, List.append_nil]
    rw [← List.map_cons, decodeElems_str (s :: ss) []]
    rfl

theorem relationListField_keys_nums (C : String) (F : fieldsMap) (key : Key) (ns : List Int)
    (data : KeyMap) (h : ∀ n ∈ ns, fitsInt n = true) :
    relationListField.keys C F key (.arr (ns.map JSON.num)) data =
      (ns.foldl (fun d n => fieldsMap.keys F C n d) data, none) := by
  unfold relationListField.keys
  rw [decodeSlice_num ns h]
  rfl

theorem fold_relationField_keys (C : String) (F : fieldsMap) (key : Key) (ns : List Int)
    (data : KeyMap) (h : ∀ n ∈ ns, fitsInt n = true) :
    ns.foldl (fun d n => (relationField.keys C F key (.num n) d).1) data =
      ns.foldl (fun d n => fieldsMap.keys F C n d) data := by
  induction ns generalizing data with
  | nil => rfl
  | cons n ns ih =>
    simp only [List.foldl_cons]
    rw [relationField_keys_num C F key n data (h n (List.mem_cons_self _ _))]
    exact ih _ (fun m hm => h m (List.mem_cons_of_mem _ hm))

theorem fold_keys_perm (F : fieldsMap) (ps ps' : List (String × Int)) (hp : ps'.Perm ps)
    (data : KeyMap) (k : Key) :
    GoMap.get? (ps.foldl (fun d p => fieldsMap.keys F p.1 p.2 d) data) k =
      GoMap.get? (ps'.foldl (fun d p => fieldsMap.keys F p.1 p.2 d) data) k := by
  rw [fold_keys_get?, fold_keys_get?]
  have hmem : (k.Collection, k.ID) ∈ ps' ↔ (k.Collection, k.ID) ∈ ps := hp.mem_iff
  simp only [hmem]

theorem genericRelationField_add_eq (F : fieldsMap) (cid : String) (data : KeyMap) :
    genericRelationField.add F cid data =
      match collectionID cid with
      | none => (data, some (.invalidCollectionID cid))
      | some p => (fieldsMap.keys F p.1 p.2 data, none) := by
  unfold genericRelationField.add collectionID
  cases cutSlash cid.toList with
  | none => rfl
  | some r =>
    obtain ⟨c, raw⟩ := r
    simp only
    cases Atoi (String.mk raw) with
    | none => rfl
    | some id => rfl

theorem genericRelationField_keys_str (F : fieldsMap) (key : Key) (cid : String)
    (data : KeyMap) :
    genericRelationField.keys F key (.str cid) data = genericRelationField.add F cid data := by
  simp [genericRelationField.keys, decodeString]

theorem genericRelationField_add_valid (F : fieldsMap) (cid : String) (data : KeyMap)
    (h : isCollectionID cid = true) :
    ∃ p, collectionID cid = some p ∧
      genericRelationField.add F cid data = (fieldsMap.keys F p.1 p.2 data, none) := by
  obtain ⟨p, hp⟩ := Option.isSome_iff_exists.1 h
  refine ⟨p, hp, ?_⟩
  rw [genericRelationField_add_eq, hp]

theorem genericRelationListField_loop_valid (F : fieldsMap) (cids : List String)
    (data : KeyMap) (h : ∀ cid ∈ cids, isCollectionID cid = true) :
    genericRelationListField.loop F cids data =
      ((cids.filterMap collectionID).foldl (fun d p => fieldsMap.keys F p.1 p.2 d) data,
        none) := by
  induction cids generalizing data with
  | nil => rfl
  | cons cid cids ih =>
    obtain ⟨p, hp, hadd⟩ := genericRelationField_add_valid F cid data
      (h cid (List.mem_cons_self _ _))
    simp only [genericRelationListField.loop, hadd, List.filterMap_cons, hp, List.foldl_cons]
    exact ih _ (fun c hc => h c (List.mem_cons_of_mem _ hc))

theorem fold_genericRelationField_keys (F : fieldsMap) (key : Key) (cids : List String)
    (data : KeyMap) (h : ∀ cid ∈ cids, isCollectionID cid = true) :
    cids.foldl (fun d cid => (genericRelationField.keys F key (.str cid) d).1) data =
      (cids.filterMap collectionID).foldl (fun d p => fieldsMap.keys F p.1 p.2 d) data := by
  induction cids generalizing data with
  | nil => rfl
  | cons cid cids ih =>
    obtain ⟨p, hp, hadd⟩ := genericRelationField_add_valid F cid data
      (h cid (List.mem_cons_self _ _))
    simp only [List.foldl_cons, genericRelationField_keys_str, hadd, List.filterMap_cons, hp]
    exact ih _ (fun c hc => h c (List.mem_cons_of_mem _ hc))

theorem genericRelationListField_keys_strs (F : fieldsMap) (key : Key) (cids : List String)
    (data : KeyMap) (h : ∀ cid ∈ cids, isCollectionID cid = true) :
    genericRelationListField.keys F key (.arr (cids.map JSON.str)) data =
      ((cids.filterMap collectionID).foldl (fun d p => fieldsMap.keys F p.1 p.2 d) data,
        none) := by
  unfold genericRelationListField.keys
  rw [decodeSlice_str cids]
  exact genericRelationListField_loop_valid F cids data h

/-- C10. On a JSON list of integers that fit `int`, `relationListField.keys` returns no error
and leaves the map that `relationField.keys` of the same collection and sub-fields leaves
when it is applied to the elements one after the other, none of which returns an error; in
any other order of the elements the map holds the same entry for every key. The same holds
for `genericRelationListField.keys` on a list of strings of the form `collection/id` and
`genericRelationField.keys`. On the empty list both leave the map as it is. -/
theorem list_keys_refine (C : String) (F : fieldsMap) (key : Key) (data : KeyMap) :
    (∀ ns : List Int, (∀ n ∈ ns, fitsInt n = true) →
      relationListField.keys C F key (.arr (ns.map JSON.num)) data =
        (ns.foldl (fun d n => (relationField.keys C F key (.num n) d).1) data, none) ∧
      (∀ n ∈ ns, ∀ d, (relationField.keys C F key (.num n) d).2 = none) ∧
      (∀ ns' : List Int, ns'.Perm ns → ∀ k,
        GoMap.get? (relationListField.keys C F key (.arr (ns.map JSON.num)) data).1 k =
          GoMap.get?
            (ns'.foldl (fun d n => (relationField.keys C F key (.num n) d).1) data) k)) ∧
    (∀ cids : List String, (∀ cid ∈ cids, isCollectionID cid = true) →
      genericRelationListField.keys F key (.arr (cids.map JSON.str)) data =
        (cids.foldl (fun d cid => (genericRelationField.keys F key (.str cid) d).1) data,
          none) ∧
      (∀ cid ∈ cids, ∀ d, (genericRelationField.keys F key (.str cid) d).2 = none) ∧
      (∀ cids' : List String, cids'.Perm cids → ∀ k,
        GoMap.get? (genericRelationListField.keys F key (.arr (cids.map JSON.str)) data).1 k =
          GoMap.get?
            (cids'.foldl (fun d cid => (genericRelationField.keys F key (.str cid) d).1)
              data) k)) ∧
    relationListField.keys C F key (.arr []) data = (data, none) ∧
    genericRelationListField.keys F key (.arr []) data = (data, none) := by
  refine ⟨?_, ?_, rfl, rfl⟩
  · intro ns hns
    refine ⟨?_, ?_, ?_⟩
    · rw [relationListField_keys_nums C F key ns data hns,
        fold_relationField_keys C F key ns data hns]
    · intro n hn d
      rw [relationField_keys_num C F key n d (hns n hn)]
    · intro ns' hperm k
      have hns' : ∀ n ∈ ns', fitsInt n = true := fun n hn => hns n (hperm.mem_iff.1 hn)
      rw [relationListField_keys_nums C F key ns data hns,
        fold_relationField_keys C F key ns' data hns']
      have h1 := fold_keys_perm F (ns.map (fun n => (C, n))) (ns'.map (fun n => (C, n)))
        (hperm.map _) data k
      rw [List.foldl_map, List.foldl_map] at h1
      exact h1
  · intro cids hcids
    refine ⟨?_, ?_, ?_⟩
    · rw [genericRelationListField_keys_strs F key cids data hcids,
        fold_genericRelationField_keys F key cids data hcids]
    · intro cid hcid d
      obtain ⟨p, _, hadd⟩ := genericRelationField_add_valid F cid d (hcids cid hcid)
      rw [genericRelationField_keys_str, hadd]
    · intro cids' hperm k
      have hcids' : ∀ cid ∈ cids', isCollectionID cid = true :=
        fun c hc => hcids c (hperm.mem_iff.1 hc)
      rw [genericRelationListField_keys_strs F key cids data hcids,
        fold_genericRelationField_keys F key cids' data hcids']
      exact fold_keys_perm F _ _ (hperm.filterMap _) data k

/-- C10, witness: the list `[1, 2]` of the field `a/1/ga_ids` gives no error and, for the key
`ga/2/ga`, the entry that the single relation leaves when it is applied to `2` and then to
`1`. -/
theorem list_keys_refine_witness :
    (relationListField.keys "ga" [("ga", .nil)] ⟨"a", 1, "ga_ids"⟩
        (.arr [.num 1, .num 2]) []).2 = none ∧
    GoMap.get? (relationListField.keys "ga" [("ga", .nil)] ⟨"a", 1, "ga_ids"⟩
        (.arr [.num 1, .num 2]) []).1 ⟨"ga", 2, "ga"⟩ =
      GoMap.get? ((relationField.keys "ga" [("ga", .nil)] ⟨"a", 1, "ga_ids"⟩ (.num 1)
        (relationField.keys "ga" [("ga", .nil)] ⟨"a", 1, "ga_ids"⟩ (.num 2) []).1).1)
        ⟨"ga", 2, "ga"⟩ :=
  ⟨congrArg Prod.snd
      (((list_keys_refine "ga" [("ga", .nil)] ⟨"a", 1, "ga_ids"⟩ []).1 [1, 2]
        (by decide)).1),
   ((list_keys_refine "ga" [("ga", .nil)] ⟨"a", 1, "ga_ids"⟩ []).1 [1, 2] (by decide)).2.2
      [2, 1] (List.Perm.swap 1 2 []) ⟨"ga", 2, "ga"⟩⟩

/-! ## Generic relations and templates -/

theorem Atoi_eq_decimalValue (s : String) :
    Atoi s = (decimalValue s.toList).bind (fun n => if fitsInt n then some n else none) := by
  unfold Atoi decimalValue
  split <;> rfl

theorem cutSlash_some_iff (cs c r : List Char) :
    cutSlash cs = some (c, r) ↔ (cs = c ++ '/' :: r ∧ '/' ∉ c) := by
  induction cs generalizing c with
  | nil => simp [cutSlash]
  | cons a cs ih =>
    simp only [cutSlash]
    by_cases ha : a = '/'
    · subst ha
      simp only [if_true, Option.some.injEq, Prod.mk.injEq]
      constructor
      · rintro ⟨rfl, rfl⟩
        simp
      · rintro ⟨h, hc⟩
        cases c with
        | nil => simpa using h
        | cons x c =>
          simp only [List.cons_append, List.cons.injEq] at h
          exact absurd (h.1 ▸ List.mem_cons_self _ _) hc
    · simp only [ha, if_false, Option.map_eq_some', Prod.exists, Prod.mk.injEq]
      constructor
      · rintro ⟨c', r', h, rfl, rfl⟩
        obtain ⟨h1, h2⟩ := (ih c').1 h
        refine ⟨by rw [h1]; rfl, ?_⟩
        intro hm
        rcases List.mem_cons.1 hm with h3 | h3
        · exact ha h3.symm
        · exact h2 h3
      · rintro ⟨h, hc⟩
        cases c with
        | nil =>
          simp only [List.nil_append, List.cons.injEq] at h
          exact absurd h.1 ha
        | cons x c =>
          simp only [List.cons_append, List.cons.injEq] at h
          obtain ⟨rfl, h⟩ := h
          exact ⟨c, r, (ih c).2 ⟨h, fun hm => hc (List.mem_cons_of_mem _ hm)⟩, rfl, rfl⟩

theorem cutSlash_none_iff (cs : List Char) : cutSlash cs = none ↔ '/' ∉ cs := by
  induction cs with
  | nil => simp [cutSlash]
  | cons a cs ih =>
    simp only [cutSlash]
    by_cases ha : a = '/'
    · subst ha
      simp
    · simp only [ha, if_false, Option.map_eq_none', ih, List.mem_cons, not_or]
      exact ⟨fun h => ⟨fun h' => ha h'.symm, h⟩, fun h => h.2⟩

theorem collectionID_of_decimal (s : String) (c r : List Char) (n : Int)
    (hcut : cutSlash s.toList = some (c, r)) (hdec : decimalValue r = some n)
    (hfit : fitsInt n = true) : collectionID s = some (String.mk c, n) := by
  unfold collectionID
  rw [hcut]
  simp only
  rw [Atoi_eq_decimalValue]
  simp [hdec, hfit]

theorem genericRelationField_add_invalid (F : fieldsMap) (cid : String) (data : KeyMap)
    (h : collectionID cid = none) :
    genericRelationField.add F cid data = (data, some (.invalidCollectionID cid)) := by
  rw [genericRelationField_add_eq, h]

/-- C11, amended. For a generic relation with the sub-fields `F` and a value that is the JSON
string `s`, `genericRelationField.keys` cuts `s` at its first `/` into `c` and `r`. If `s` has
a `/` and `r` is a decimal integer `n` that fits Go's `int`, it returns no error and the map
after the call is `data` overridden with `(c, n, f) -> F[f]` for the names `f` of `F`. If `s`
has no `/`, or `r` is not a decimal integer, it returns the error `invalid collection id` and
leaves the map as it is. -/
theorem genericRelationField_keys_string (F : fieldsMap) (key : Key) (data : KeyMap)
    (s : String) :
    (∀ c r, cutSlash s.toList = some (c, r) ↔ (s.toList = c ++ '/' :: r ∧ '/' ∉ c)) ∧
    (∀ c r n, cutSlash s.toList = some (c, r) → decimalValue r = some n → fitsInt n = true →
      (genericRelationField.keys F key (.str s) data).2 = none ∧
      ∀ k, GoMap.get? (genericRelationField.keys F key (.str s) data).1 k =
        if k.Collection = String.mk c ∧ k.ID = n ∧ (GoMap.get? F k.Field).isSome = true then
          GoMap.get? F k.Field
        else GoMap.get? data k) ∧
    ('/' ∉ s.toList →
      genericRelationField.keys F key (.str s) data = (data, some (.invalidCollectionID s))) ∧
    (∀ c r, cutSlash s.toList = some (c, r) → decimalValue r = none →
      genericRelationField.keys F key (.str s) data =
        (data, some (.invalidCollectionID s))) := by
  refine ⟨fun c r => cutSlash_some_iff _ c r, ?_, ?_, ?_⟩
  · intro c r n hcut hdec hfit
    rw [genericRelationField_keys_str, genericRelationField_add_eq,
      collectionID_of_decimal s c r n hcut hdec hfit]
    exact ⟨rfl, fun k => fieldsMap_keys_get? F (String.mk c) n data k⟩
  · intro hno
    rw [genericRelationField_keys_str]
    apply genericRelationField_add_invalid
    unfold collectionID
    rw [(cutSlash_none_iff _).2 hno]
  · intro c r hcut hdec
    rw [genericRelationField_keys_str]
    apply genericRelationField_add_invalid
    unfold collectionID
    rw [hcut]
    simp only
    rw [Atoi_eq_decimalValue]
    have hr : (String.mk r).toList = r := rfl
    rw [hr, hdec]
    rfl

/-- C11, the claim as stated fails: in `b/9223372036854775808` the text after the `/` is a
decimal integer, which does not fit Go's `int`; `strconv.Atoi` fails and the method returns the
error `invalid collection id`. -/
theorem genericRelationField_keys_string_counterexample :
    cutSlash "b/9223372036854775808".toList =
      some ("b".toList, "9223372036854775808".toList) ∧
    decimalValue "9223372036854775808".toList = some 9223372036854775808 ∧
    genericRelationField.keys [("name", .nil)] ⟨"gb", 1, "content_object_id"⟩
        (.str "b/9223372036854775808") [] =
      ([], some (.invalidCollectionID "b/9223372036854775808")) := by
  decide

/-- C11, witness: the value `b/1` of `gb/1/content_object_id` adds the key `b/1/name`, and the
values `a/1/2` and `a` are rejected. -/
theorem genericRelationField_keys_string_witness :
    GoMap.get? (genericRelationField.keys [("name", .nil)] ⟨"gb", 1, "content_object_id"⟩
        (.str "b/1") []).1 ⟨"b", 1, "name"⟩ = some .nil ∧
    genericRelationField.keys [("name", .nil)] ⟨"gb", 1, "content_object_id"⟩
        (.str "a/1/2") [] = ([], some (.invalidCollectionID "a/1/2")) ∧
    genericRelationField.keys [("name", .nil)] ⟨"gb", 1, "content_object_id"⟩
        (.str "a") [] = ([], some (.invalidCollectionID "a")) :=
  ⟨(((genericRelationField_keys_string [("name", .nil)] ⟨"gb", 1, "content_object_id"⟩ []
      "b/1").2.1 "b".toList "1".toList 1 (by decide) (by decide) (by decide)).2
      ⟨"b", 1, "name"⟩).trans (by decide),
   (genericRelationField_keys_string [("name", .nil)] ⟨"gb", 1, "content_object_id"⟩ []
      "a/1/2").2.2.2 "a".toList "1/2".toList (by decide) (by decide),
   (genericRelationField_keys_string [("name", .nil)] ⟨"gb", 1, "content_object_id"⟩ []
      "a").2.2.1 (by decide)⟩

theorem replaceDollar_split (pre post new : List Char) (h : '$' ∉ pre) :
    replaceDollar (pre ++ '$' :: post) new = pre ++ new ++ post := by
  induction pre with
  | nil => simp [replaceDollar]
  | cons a pre ih =>
    have ha : a ≠ '$' := fun e => h (e ▸ List.mem_cons_self _ _)
    simp only [List.cons_append, replaceDollar, ha, if_false, List.cons.injEq, true_and]
    have := ih (fun hm => h (List.mem_cons_of_mem _ hm))
    simpa using this

theorem fold_set_const_get? (ks : List Key) (d : fieldDescription) (data : KeyMap) (k : Key) :
    GoMap.get? (ks.foldl (fun m x => GoMap.set m x d) data) k =
      if k ∈ ks then some d else GoMap.get? data k := by
  induction ks generalizing data with
  | nil => simp
  | cons x ks ih =>
    simp only [List.foldl_cons]
    rw [ih, GoMap_get?_set]
    by_cases h1 : k ∈ ks
    · simp [h1]
    · by_cases h2 : x = k
      · subst h2
        simp
      · have h3 : ¬ k = x := fun e => h2 e.symm
        simp [h1, h2, h3]

theorem templateField_keys_strs (d : fieldDescription) (key : Key) (rs : List String)
    (data : KeyMap) :
    templateField.keys d key (.arr (rs.map JSON.str)) data =
      ((rs.map (templateKey key)).foldl (fun m x => GoMap.set m x d) data, none) := by
  unfold templateField.keys
  rw [decodeSlice_str rs, List.foldl_map]
  rfl

/-- C12. For a template with the inner description `d`, every key and every JSON list of the
strings `r1`, ..., `rk`, `templateField.keys` returns no error, and the map after the call
holds `d` for the keys with the collection and the id of the key and the field in which the
first `$` is followed by `rj`, and the former entry for every other key. For the field
`b_$_ids`, the value `["1", "2", "3"]` and the inner description nil these are the keys with
the fields `b_$1_ids`, `b_$2_ids` and `b_$3_ids`, with the description nil. -/
theorem templateField_keys_replacements (d : fieldDescription) (key : Key) (rs : List String)
    (data : KeyMap) :
    (templateField.keys d key (.arr (rs.map JSON.str)) data).2 = none ∧
    (∀ k, GoMap.get? (templateField.keys d key (.arr (rs.map JSON.str)) data).1 k =
      if k ∈ rs.map (templateKey key) then some d else GoMap.get? data k) ∧
    (∀ r pre post, key.Field.toList = pre ++ '$' :: post → '$' ∉ pre →
      templateKey key r =
        ⟨key.Collection, key.ID, String.mk (pre ++ '$' :: r.toList ++ post)⟩) ∧
    templateField.keys .nil ⟨"d", 1, "b_$_ids"⟩ (.arr [.str "1", .str "2", .str "3"]) [] =
      ([(⟨"d", 1, "b_$1_ids"⟩, .nil), (⟨"d", 1, "b_$2_ids"⟩, .nil),
        (⟨"d", 1, "b_$3_ids"⟩, .nil)], none) := by
  rw [templateField_keys_strs]
  refine ⟨rfl, fun k => fold_set_const_get? _ d data k, ?_, by decide⟩
  intro r pre post hf hpre
  unfold templateKey
  rw [hf, replaceDollar_split pre post _ hpre]

/-- C12, witness: the template field `d/2/b_$_ids` with the value `["1", "4"]` and a
relation-list as inner description. -/
theorem templateField_keys_replacements_witness :
    GoMap.get? (templateField.keys (.relationListField "b" [("b", .nil)]) ⟨"d", 2, "b_$_ids"⟩
        (.arr [.str "1", .str "4"]) []).1 ⟨"d", 2, "b_$4_ids"⟩ =
      some (.relationListField "b" [("b", .nil)]) :=
  ((templateField_keys_replacements (.relationListField "b" [("b", .nil)])
    ⟨"d", 2, "b_$_ids"⟩ ["1", "4"] []).2.1 ⟨"d", 2, "b_$4_ids"⟩).trans (by decide)

/-! ## Values that are `null` or do not decode -/

/-- C13, amended. With the JSON value `null`, the methods `keys` of a relation-list, of a
generic-relation-list and of a template return no error and leave the map as it is. The method
of a relation decodes `null` to the id `0`: it returns no error and writes the keys
`(C, 0, f)` for the names `f` of its sub-fields. The method of a generic relation decodes
`null` to the empty string, which has no `/`: it returns the error `invalid collection id`
and leaves the map as it is. -/
theorem keys_null (C : String) (F : fieldsMap) (d : fieldDescription) (key : Key)
    (data : KeyMap) :
    relationListField.keys C F key .null data = (data, none) ∧
    genericRelationListField.keys F key .null data = (data, none) ∧
    templateField.keys d key .null data = (data, none) ∧
    relationField.keys C F key .null data = (fieldsMap.keys F C 0 data, none) ∧
    (∀ k, GoMap.get? (relationField.keys C F key .null data).1 k =
      if k.Collection = C ∧ k.ID = 0 ∧ (GoMap.get? F k.Field).isSome = true then
        GoMap.get? F k.Field
      else GoMap.get? data k) ∧
    genericRelationField.keys F key .null data = (data, some (.invalidCollectionID "")) := by
  refine ⟨rfl, rfl, rfl, rfl, fun k => fieldsMap_keys_get? F C 0 data k, rfl⟩

/-- C13, the claim as stated fails: with the value `null` the relation `a/1/b_id` to `b` with
the sub-field `name` adds the key `b/0/name`, and the generic relation
`gb/1/content_object_id` returns an error. -/
theorem keys_null_counterexample :
    relationField.keys "b" [("name", .nil)] ⟨"a", 1, "b_id"⟩ .null [] =
      ([(⟨"b", 0, "name"⟩, .nil)], none) ∧
    genericRelationField.keys [("name", .nil)] ⟨"gb", 1, "content_object_id"⟩ .null [] =
      ([], some (.invalidCollectionID "")) := by
  decide

theorem genericRelationListField_loop_error (F : fieldsMap) (cids : List String)
    (data : KeyMap) :
    (genericRelationListField.loop F cids data).2 =
      (cids.find? (fun c => !isCollectionID c)).map KeysErr.invalidCollectionID := by
  induction cids generalizing data with
  | nil => rfl
  | cons cid cids ih =>
    simp only [genericRelationListField.loop, List.find?_cons]
    cases h : isCollectionID cid with
    | true =>
      obtain ⟨p, _, hadd⟩ := genericRelationField_add_valid F cid data h
      simp only [hadd, Bool.not_true]
      exact ih _
    | false =>
      have hnone : collectionID cid = none := by
        unfold isCollectionID at h
        simpa using h
      rw [genericRelationField_add_invalid F cid data hnone]
      simp

theorem key_text_in_message (jsonError : String) (key : Key) :
    key.String.toList <:+: ((KeysErr.decoding key).Error jsonError).toList := by
  refine ⟨"decoding value for key ".toList, (": " ++ jsonError).toList, ?_⟩
  simp only [KeysErr.Error, String.toList, String.data_append, List.append_assoc]

/-- C14, amended. The method `keys` returns the error `decoding value for key k: ...`, whose
message contains the text of the key `k`, exactly when `encoding/json` cannot decode the value
into the Go type of the kind: `int` for a relation, `[]int` for a relation-list, `string` for a
generic relation, `[]string` for a generic-relation-list and for a template (`null` decodes
into each of them, also as an element of a list). A generic relation whose string is not of
the form `collection/id`, and a generic-relation-list with such a string, return the error
`invalid collection id: s` for the first such string `s`: its message names the string and
not the key. -/
theorem keys_error_attribution (jsonError : String) (key : Key) (value : JSON)
    (data : KeyMap) :
    (∀ C F, (relationField.keys C F key value data).2 =
      if (decodeInt value 0).2 = true then some (.decoding key) else none) ∧
    (∀ C F, (relationListField.keys C F key value data).2 =
      if (decodeSlice decodeInt 0 value Slice.nil).2 = true then some (.decoding key)
      else none) ∧
    (∀ d, (templateField.keys d key value data).2 =
      if (decodeSlice decodeString "" value Slice.nil).2 = true then some (.decoding key)
      else none) ∧
    (∀ F, (genericRelationField.keys F key value data).2 =
      if (decodeString value "").2 = true then some (.decoding key)
      else if isCollectionID (decodeString value "").1 = true then none
      else some (.invalidCollectionID (decodeString value "").1)) ∧
    (∀ F, (genericRelationListField.keys F key value data).2 =
      if (decodeSlice decodeString "" value Slice.nil).2 = true then some (.decoding key)
      else ((decodeSlice decodeString "" value Slice.nil).1.elems.find?
        (fun c => !isCollectionID c)).map KeysErr.invalidCollectionID) ∧
    key.String.toList <:+: ((KeysErr.decoding key).Error jsonError).toList ∧
    (∀ cid, (KeysErr.invalidCollectionID cid).Error jsonError =
      "invalid collection id: " ++ cid) := by
  refine ⟨?_, ?_, ?_, ?_, ?_, key_text_in_message jsonError key, fun _ => rfl⟩
  · intro C F
    by_cases h : (decodeInt value 0).2 = true <;> simp [relationField.keys, h]
  · intro C F
    by_cases h : (decodeSlice decodeInt 0 value Slice.nil).2 = true <;>
      simp [relationListField.keys, h]
  · intro d
    by_cases h : (decodeSlice decodeString "" value Slice.nil).2 = true <;>
      simp [templateField.keys, h]
  · intro F
    unfold genericRelationField.keys
    by_cases hbad : (decodeString value "").2 = true
    · simp [hbad]
    · simp only [hbad, if_false, Bool.false_eq_true]
      cases h : isCollectionID (decodeString value "").1 with
      | true =>
        obtain ⟨p, _, hadd⟩ := genericRelationField_add_valid F _ data h
        rw [hadd]
        rfl
      | false =>
        have hnone : collectionID (decodeString value "").1 = none := by
          unfold isCollectionID at h
          simpa using h
        rw [genericRelationField_add_invalid F _ data hnone]
        rfl
  · intro F
    unfold genericRelationListField.keys
    by_cases hbad : (decodeSlice decodeString "" value Slice.nil).2 = true
    · simp [hbad]
    · simp only [hbad, if_false, Bool.false_eq_true]
      exact genericRelationListField_loop_error F _ data

/-- C14, the claim as stated fails: for the generic relation `gb/1/content_object_id` the
value `"b"` is not of the form `collection/id`, and the message of the error is
`invalid collection id: b`, which does not contain the text `gb/1/content_object_id` of the
key. -/
theorem keys_error_attribution_counterexample :
    genericRelationField.keys [("name", .nil)] ⟨"gb", 1, "content_object_id"⟩ (.str "b") [] =
      ([], some (.invalidCollectionID "b")) ∧
    (KeysErr.invalidCollectionID "b").Error "" = "invalid collection id: b" ∧
    Key.String ⟨"gb", 1, "content_object_id"⟩ = "gb/1/content_object_id" ∧
    ¬ ((Key.String ⟨"gb", 1, "content_object_id"⟩).toList <:+:
      ((KeysErr.invalidCollectionID "b").Error "").toList) := by
  decide

/-- C14, witness: the relation `a/1/b_id` with the value `"x"`, which is not an integer,
returns the error with the text of the key. -/
theorem keys_error_attribution_witness :
    (relationField.keys "b" [("name", .nil)] ⟨"a", 1, "b_id"⟩ (.str "x") []).2 =
      some (.decoding ⟨"a", 1, "b_id"⟩) ∧
    (KeysErr.decoding ⟨"a", 1, "b_id"⟩).Error "cannot unmarshal" =
      "decoding value for key a/1/b_id: cannot unmarshal" :=
  ⟨((keys_error_attribution "" ⟨"a", 1, "b_id"⟩ (.str "x") []).1 "b" [("name", .nil)]).trans
      (by decide),
   by decide⟩

/-! ## Two writes to the same key -/

theorem GoMap_set_isSome (m : KeyMap) (x : Key) (d : fieldDescription) (k : Key)
    (h : (GoMap.get? m k).isSome = true) : (GoMap.get? (GoMap.set m x d) k).isSome = true := by
  rw [GoMap_get?_set]
  split_ifs
  · rfl
  · exact h

theorem fieldsMap_keys_isSome (F : fieldsMap) (c : String) (i : Int) (data : KeyMap) (k : Key)
    (h : (GoMap.get? data k).isSome = true) :
    (GoMap.get? (fieldsMap.keys F c i data) k).isSome = true := by
  rw [fieldsMap_keys_get?]
  split_ifs with hc
  · exact hc.2.2
  · exact h

theorem fold_fieldsMap_keys_isSome (F : fieldsMap) (ps : List (String × Int)) (data : KeyMap)
    (k : Key) (h : (GoMap.get? data k).isSome = true) :
    (GoMap.get? (ps.foldl (fun d p => fieldsMap.keys F p.1 p.2 d) data) k).isSome = true := by
  induction ps generalizing data with
  | nil => exact h
  | cons p ps ih => exact ih _ (fieldsMap_keys_isSome F p.1 p.2 data k h)

theorem genericRelationField_add_isSome (F : fieldsMap) (cid : String) (data : KeyMap)
    (k : Key) (h : (GoMap.get? data k).isSome = true) :
    (GoMap.get? (genericRelationField.add F cid data).1 k).isSome = true := by
  rw [genericRelationField_add_eq]
  cases collectionID cid with
  | none => exact h
  | some p => exact fieldsMap_keys_isSome F p.1 p.2 data k h

theorem genericRelationListField_loop_isSome (F : fieldsMap) (cids : List String)
    (data : KeyMap) (k : Key) (h : (GoMap.get? data k).isSome = true) :
    (GoMap.get? (genericRelationListField.loop F cids data).1 k).isSome = true := by
  induction cids generalizing data with
  | nil => exact h
  | cons cid cids ih =>
    have hadd := genericRelationField_add_isSome F cid data k h
    simp only [genericRelationListField.loop]
    cases hr : genericRelationField.add F cid data with
    | mk data' err =>
      rw [hr] at hadd
      cases err with
      | none => exact ih _ hadd
      | some e => exact hadd

theorem keys_isSome (d : fieldDescription) (key : Key) (v : JSON) (data : KeyMap) (k : Key)
    (h : (GoMap.get? data k).isSome = true) :
    (GoMap.get? (d.keys key v data).1 k).isSome = true := by
  cases d with
  | nil => exact h
  | relationField c f =>
    simp only [fieldDescription.keys, relationField.keys]
    split_ifs
    · exact h
    · exact fieldsMap_keys_isSome f c _ data k h
  | relationListField c f =>
    simp only [fieldDescription.keys, relationListField.keys]
    split_ifs
    · exact h
    · have h1 := fold_fieldsMap_keys_isSome f
        ((decodeSlice decodeInt 0 v Slice.nil).1.elems.map (fun n => (c, n))) data k h
      rw [List.foldl_map] at h1
      exact h1
  | genericRelationField f =>
    simp only [fieldDescription.keys, genericRelationField.keys]
    split_ifs
    · exact h
    · exact genericRelationField_add_isSome f _ data k h
  | genericRelationListField f =>
    simp only [fieldDescription.keys, genericRelationListField.keys]
    split_ifs
    · exact h
    · exact genericRelationListField_loop_isSome f _ data k h
  | templateField values =>
    simp only [fieldDescription.keys, templateField.keys]
    split_ifs
    · exact h
    · have h1 := fold_set_const_get?
        ((decodeSlice decodeString "" v Slice.nil).1.elems.map (templateKey key)) values data k
      rw [List.foldl_map] at h1
      have h2 : (GoMap.get? (List.foldl (fun m r => GoMap.set m (templateKey key r) values) data
          (decodeSlice decodeString "" v Slice.nil).1.elems) k).isSome = true := by
        rw [h1]
        split_ifs
        · rfl
        · exact h
      exact h2

/-! ## The order of the entries of a `fields` object -/

theorem fieldsMap_collect_eq (quote : String → String)
    (es : List (String × Except Err fieldDescription)) (acc : fieldsMap) :
    fieldsMap.collect quote es acc =
      match es.findSome? (fieldsMap.entryError quote) with
      | some err => .error err
      | none => .ok (es.foldl fieldsMap.store acc) := by
  induction es generalizing acc with
  | nil => rfl
  | cons m es ih =>
    obtain ⟨name, r⟩ := m
    by_cases hn : MatchString reField name = true
    · cases r with
      | error err =>
        cases err <;>
          simp only [fieldsMap.collect, List.findSome?_cons, fieldsMap.entryError, hn,
            Bool.not_true, Bool.false_eq_true, if_false]
      | ok fd =>
        simp only [fieldsMap.collect, List.findSome?_cons, fieldsMap.entryError, hn,
          Bool.not_true, Bool.false_eq_true, if_false, List.foldl_cons, fieldsMap.store]
        exact ih _
    · have hn' : MatchString reField name = false := Bool.eq_false_iff.2 hn
      simp only [fieldsMap.collect, List.findSome?_cons, fieldsMap.entryError, hn',
        Bool.not_false, if_true]

theorem findSome?_eq_head?_filterMap {α β : Type} (f : α → Option β) (l : List α) :
    l.findSome? f = (l.filterMap f).head? := by
  induction l with
  | nil => rfl
  | cons a l ih =>
    cases h : f a with
    | none => rw [List.findSome?_cons, List.filterMap_cons, h]; exact ih
    | some b => rw [List.findSome?_cons, List.filterMap_cons, h]; rfl

theorem perm_eq_of_length_le_one {α : Type} (l l' : List α) (hp : l'.Perm l)
    (h : l.length ≤ 1) : l' = l := by
  match l, h with
  | [], _ => exact hp.eq_nil
  | [a], _ => exact List.perm_singleton.1 hp

theorem entryError_none (quote : String → String) (e : String × Except Err fieldDescription)
    (h : fieldsMap.entryError quote e = none) : ∃ fd, e.2 = .ok fd := by
  obtain ⟨name, r⟩ := e
  unfold fieldsMap.entryError at h
  split_ifs at h
  cases r with
  | error err => cases err <;> simp at h
  | ok fd => exact ⟨fd, rfl⟩

theorem fold_store_get?_of_not_mem (es : List (String × Except Err fieldDescription))
    (acc : fieldsMap) (name : String) (h : ∀ e ∈ es, e.1 ≠ name) :
    GoMap.get? (es.foldl fieldsMap.store acc) name = GoMap.get? acc name := by
  induction es generalizing acc with
  | nil => rfl
  | cons m es ih =>
    obtain ⟨k, r⟩ := m
    simp only [List.foldl_cons]
    rw [ih _ (fun e he => h e (List.mem_cons_of_mem _ he))]
    have hk : k ≠ name := h (k, r) (List.mem_cons_self _ _)
    cases r with
    | error err => rfl
    | ok fd =>
      simp only [fieldsMap.store]
      rw [GoMap_get?_set, if_neg hk]

theorem fold_store_get?_of_mem (es : List (String × Except Err fieldDescription))
    (acc : fieldsMap) (name : String) (fd : fieldDescription)
    (hnd : (es.map Prod.fst).Nodup) (hmem : (name, Except.ok fd) ∈ es) :
    GoMap.get? (es.foldl fieldsMap.store acc) name = some fd := by
  induction es generalizing acc with
  | nil => cases hmem
  | cons m es ih =>
    simp only [List.map_cons, List.nodup_cons] at hnd
    simp only [List.foldl_cons]
    rcases List.mem_cons.1 hmem with rfl | hm
    · rw [fold_store_get?_of_not_mem]
      · simp only [fieldsMap.store]
        rw [GoMap_get?_set, if_pos rfl]
      · intro e he heq
        exact hnd.1 (List.mem_map.2 ⟨e, he, heq⟩)
    · exact ih _ hnd.2 hm

theorem fold_store_get?_perm (quote : String → String)
    (es es' : List (String × Except Err fieldDescription))
    (hnd : (es.map Prod.fst).Nodup) (hp : es'.Perm es)
    (hok : ∀ e ∈ es, fieldsMap.entryError quote e = none) (name : String) :
    GoMap.get? (es.foldl fieldsMap.store []) name =
      GoMap.get? (es'.foldl fieldsMap.store []) name := by
  have hnd' : (es'.map Prod.fst).Nodup := (hp.map Prod.fst).nodup_iff.2 hnd
  by_cases h : ∃ e ∈ es, e.1 = name
  · obtain ⟨e, he, hname⟩ := h
    obtain ⟨fd, hfd⟩ := entryError_none quote e (hok e he)
    have hmem : (name, Except.ok fd) ∈ es := by
      obtain ⟨k, r⟩ := e
      simp only at hname hfd
      subst hname
      subst hfd
      exact he
    rw [fold_store_get?_of_mem es [] name fd hnd hmem,
      fold_store_get?_of_mem es' [] name fd hnd' (hp.mem_iff.2 hmem)]
  · have h1 : ∀ e ∈ es, e.1 ≠ name := fun e he heq => h ⟨e, he, heq⟩
    have h2 : ∀ e ∈ es', e.1 ≠ name := fun e he => h1 e (hp.mem_iff.1 he)
    rw [fold_store_get?_of_not_mem es [] name h1, fold_store_get?_of_not_mem es' [] name h2]

/-- C16, amended. The parser does not look at the data-store, and the loop of
`fieldsMap.UnmarshalJSON` returns at the first entry that fails, in the order in which the
entries are visited. For the entries `es` of one `fields` object, which have different
names, and the same entries `es'` visited in another order: the object is parsed in one order
if and only if it is parsed in the other, and the two maps hold the same description for every
name; the error of an object that is not parsed is the error of the first entry that fails
(`fieldsMap.entryError`); and when at most one entry fails, the two orders return the same
error. With two entries that fail the error depends on the order. -/
theorem fieldsMap_collect_order (quote : String → String)
    (es es' : List (String × Except Err fieldDescription))
    (hnd : (es.map Prod.fst).Nodup) (hp : es'.Perm es) :
    ((∃ f, fieldsMap.collect quote es [] = .ok f) ↔
      (∃ f', fieldsMap.collect quote es' [] = .ok f')) ∧
    (∀ f f', fieldsMap.collect quote es [] = .ok f → fieldsMap.collect quote es' [] = .ok f' →
      ∀ name, GoMap.get? f name = GoMap.get? f' name) ∧
    (∀ err, fieldsMap.collect quote es [] = .error err ↔
      es.findSome? (fieldsMap.entryError quote) = some err) ∧
    ((es.filterMap (fieldsMap.entryError quote)).length ≤ 1 →
      ∀ err, fieldsMap.collect quote es' [] = .error err ↔
        fieldsMap.collect quote es [] = .error err) := by
  have hnone : es.findSome? (fieldsMap.entryError quote) = none ↔
      es'.findSome? (fieldsMap.entryError quote) = none := by
    rw [List.findSome?_eq_none_iff, List.findSome?_eq_none_iff]
    exact ⟨fun h e he => h e (hp.mem_iff.1 he), fun h e he => h e (hp.mem_iff.2 he)⟩
  refine ⟨?_, ?_, ?_, ?_⟩
  · rw [fieldsMap_collect_eq, fieldsMap_collect_eq]
    cases h : es.findSome? (fieldsMap.entryError quote) with
    | none =>
      rw [hnone.1 h]
      exact ⟨fun _ => ⟨_, rfl⟩, fun _ => ⟨_, rfl⟩⟩
    | some err =>
      cases h' : es'.findSome? (fieldsMap.entryError quote) with
      | none => rw [hnone.2 h'] at h; cases h
      | some err' => simp
  · intro f f' hf hf' name
    rw [fieldsMap_collect_eq] at hf hf'
    cases h : es.findSome? (fieldsMap.entryError quote) with
    | some err => rw [h] at hf; cases hf
    | none =>
      rw [h] at hf
      rw [hnone.1 h] at hf'
      simp only [Except.ok.injEq] at hf hf'
      rw [← hf, ← hf']
      exact fold_store_get?_perm quote es es' hnd hp (List.findSome?_eq_none_iff.1 h) name
  · intro err
    rw [fieldsMap_collect_eq]
    cases h : es.findSome? (fieldsMap.entryError quote) with
    | none => simp
    | some err' => simp
  · intro hle err
    have hfm : es'.filterMap (fieldsMap.entryError quote) =
        es.filterMap (fieldsMap.entryError quote) :=
      perm_eq_of_length_le_one _ _ (hp.filterMap _) hle
    have hfs : es'.findSome? (fieldsMap.entryError quote) =
        es.findSome? (fieldsMap.entryError quote) := by
      rw [findSome?_eq_head?_filterMap, findSome?_eq_head?_filterMap, hfm]
    rw [fieldsMap_collect_eq, fieldsMap_collect_eq, hfs]
    cases h : es.findSome? (fieldsMap.entryError quote) with
    | none => simp
    | some err' => simp

/-- C16, the claim as stated fails. The `fields` object of a root with the two entries
`Username`, whose name is not valid, and `group_id`, whose description has no type, is one Go
map; visited in one order the parser returns the error of the name, visited in the other
order the error `no type` on the field `group_id`. -/
theorem fieldsMap_collect_order_counterexample :
    body.UnmarshalJSON quoteASCII
        (.obj [("ids", .arr [.num 5]), ("collection", .str "user"),
          ("fields", .obj [("Username", .null),
            ("group_id", .obj [("collection", .str "group"),
              ("fields", .obj [("name", .null)])])])]) =
      .error (.invalid
        (.base "fieldname \"Username\" is not a valid fieldname" "Username")) ∧
    body.UnmarshalJSON quoteASCII
        (.obj [("ids", .arr [.num 5]), ("collection", .str "user"),
          ("fields", .obj [("group_id", .obj [("collection", .str "group"),
              ("fields", .obj [("name", .null)])]),
            ("Username", .null)])]) =
      .error (.invalid (.nested (.base "no type" "") "Error on field" "group_id")) := by
  decide

/-- C16, witness: the entries `name` and `Username`, of which one fails, in the two orders. -/
theorem fieldsMap_collect_order_witness :
    fieldsMap.collect quoteASCII [("Username", .ok .nil), ("name", .ok .nil)] [] =
      .error (.invalid
        (.base "fieldname \"Username\" is not a valid fieldname" "Username")) :=
  ((fieldsMap_collect_order quoteASCII [("name", .ok .nil), ("Username", .ok .nil)]
    [("Username", .ok .nil), ("name", .ok .nil)] (by decide) (List.Perm.swap _ _ _)).2.2.2
    (by decide) _).2 (by decide)

end Keysbuilder

/-! ## The restricter of the collection `meeting` -/

namespace Collection

theorem eachCondition_loop_ok (f : Int → Except String Bool) (p : Int → Bool)
    (ids allowed : List Int) (h : ∀ id ∈ ids, f id = .ok (p id)) :
    eachCondition.loop f ids allowed = (allowed.reverse ++ ids.filter p, none) := by
  induction ids generalizing allowed with
  | nil => simp [eachCondition.loop]
  | cons id rest ih =>
    have hid := h id (List.mem_cons_self _ _)
    have hrest : ∀ x ∈ rest, f x = .ok (p x) := fun x hx => h x (List.mem_cons_of_mem _ hx)
    cases hp : p id with
    | true =>
      rw [hp] at hid
      simp only [eachCondition.loop, hid]
      rw [ih _ hrest]
      simp [List.filter_cons, hp]
    | false =>
      rw [hp] at hid
      simp only [eachCondition.loop, hid]
      rw [ih _ hrest]
      simp [List.filter_cons, hp]

theorem eachCondition_ok (f : Int → Except String Bool) (p : Int → Bool) (ids : List Int)
    (h : ∀ id ∈ ids, f id = .ok (p id)) : eachCondition ids f = (ids.filter p, none) := by
  unfold eachCondition
  rw [eachCondition_loop_ok f p ids [] h]
  rfl

theorem eachCondition_loop_error (f : Int → Except String Bool) (ids allowed : List Int)
    (h : ∃ id ∈ ids, ∃ err, f id = .error err) :
    ∃ err, eachCondition.loop f ids allowed = ([], some err) := by
  induction ids generalizing allowed with
  | nil =>
    obtain ⟨id, hid, _⟩ := h
    cases hid
  | cons id rest ih =>
    cases hf : f id with
    | error err => exact ⟨err, by simp only [eachCondition.loop, hf]⟩
    | ok b =>
      have hrest : ∃ x ∈ rest, ∃ err, f x = .error err := by
        obtain ⟨x, hx, err, hxe⟩ := h
        rcases List.mem_cons.1 hx with rfl | hx'
        · rw [hf] at hxe
          cases hxe
        · exact ⟨x, hx', err, hxe⟩
      cases b with
      | true =>
        simp only [eachCondition.loop, hf]
        exact ih _ hrest
      | false =>
        simp only [eachCondition.loop, hf]
        exact ih _ hrest

theorem eachCondition_error (f : Int → Except String Bool) (ids : List Int)
    (h : ∃ id ∈ ids, ∃ err, f id = .error err) :
    ∃ err, eachCondition ids f = ([], some err) :=
  eachCondition_loop_error f ids [] h

/-- C17. When all reads succeed, `Meeting.see` returns no error and the ids of the batch, in
the order of the batch, for which the request user has the organization management level
`can_manage_organization`, or the meeting has `enable_anonymous`, or the request user is not
the anonymous user 0 and is one of the users of the meeting, or has the committee management
level for the committee of the meeting, or the meeting is a template meeting and the user
manages at least one committee. In the data model the ids of the users are positive and 0 is
the anonymous user, who is in the user ids of no meeting and has no committee management
level: then these are exactly the ids of the batch for which one of the five documented
conditions holds, and no other id is returned. -/
theorem meeting_see_visible (R : Reads) (ids : List Int) (u : Int) (oml : Bool)
    (anon : Int → Bool) (users : Int → List Int) (committee : Int → Int) (cml : Int → Bool)
    (tmpl : Int → Int × Bool) (cmls : List Int)
    (hu : R.requestUser = .ok u) (ho : R.hasOrganizationManagementLevel u = .ok oml)
    (ha : ∀ m, R.enableAnonymous m = .ok (anon m))
    (hids : ∀ m, R.userIDs m = .ok (users m))
    (hc : ∀ m, R.committeeID m = .ok (committee m))
    (hcml : ∀ c, R.hasCommitteeManagementLevel u c = .ok (cml c))
    (ht : ∀ m, R.templateForOrganizationID m = .ok (tmpl m))
    (hm : R.managementLevelCommittees u = .ok cmls) :
    Meeting.see R ids =
      (ids.filter (fun m => oml || (anon m || (decide (u ≠ 0) &&
        (decide (u ∈ users m) || cml (committee m) ||
          ((tmpl m).2 && decide (cmls ≠ [])))))), none) ∧
    ((u = 0 → (∀ m, u ∉ users m) ∧ (∀ c, cml c = false) ∧ cmls = []) →
      Meeting.see R ids =
        (ids.filter (fun m => anon m || decide (u ∈ users m) || cml (committee m) ||
          ((tmpl m).2 && decide (cmls ≠ [])) || oml), none) ∧
      ∀ m, m ∈ (Meeting.see R ids).1 ↔
        m ∈ ids ∧
          (anon m = true ∨ u ∈ users m ∨ cml (committee m) = true ∨
            ((tmpl m).2 = true ∧ cmls ≠ []) ∨ oml = true)) := by
  have hcond : ∀ m, Meeting.seeCondition R u m =
      .ok (anon m || (decide (u ≠ 0) && (decide (u ∈ users m) || cml (committee m) ||
        ((tmpl m).2 && decide (cmls ≠ []))))) := by
    intro m
    simp only [Meeting.seeCondition, ha m, hids m, hc m, hcml, ht m, hm]
    cases hanon : anon m with
    | true => simp
    | false =>
      by_cases hu0 : u = 0
      · simp [hu0]
      · by_cases hmem : u ∈ users m
        · have hany : (users m).any (fun id => decide (u = id)) = true :=
            List.any_eq_true.2 ⟨u, hmem, by simp⟩
          simp [hu0, hmem, hany]
        · have hany : (users m).any (fun id => decide (u = id)) = false := by
            rw [Bool.eq_false_iff]
            intro h
            obtain ⟨x, hx, hxu⟩ := List.any_eq_true.1 h
            have : u = x := by simpa using hxu
            exact hmem (this ▸ hx)
          cases hcm : cml (committee m) with
          | true => simp [hu0, hmem, hany]
          | false =>
            obtain ⟨t1, t2⟩ := tmpl m
            cases cmls with
            | nil => simp [hu0, hmem, hany]
            | cons c cs => cases t2 <;> simp [hu0, hmem, hany]
  have hsee : Meeting.see R ids =
      (ids.filter (fun m => oml || (anon m || (decide (u ≠ 0) &&
        (decide (u ∈ users m) || cml (committee m) ||
          ((tmpl m).2 && decide (cmls ≠ [])))))), none) := by
    simp only [Meeting.see, hu, ho]
    cases oml with
    | true => simp
    | false =>
      simp only [Bool.false_eq_true, if_false, Bool.false_or]
      exact eachCondition_ok _ _ ids (fun id _ => hcond id)
  refine ⟨hsee, fun hmodel => ?_⟩
  have hfun : (fun m => oml || (anon m || (decide (u ≠ 0) &&
      (decide (u ∈ users m) || cml (committee m) ||
        ((tmpl m).2 && decide (cmls ≠ [])))))) =
      (fun m => anon m || decide (u ∈ users m) || cml (committee m) ||
        ((tmpl m).2 && decide (cmls ≠ [])) || oml) := by
    funext m
    by_cases hu0 : u = 0
    · obtain ⟨h1, h2, h3⟩ := hmodel hu0
      have h1m : decide (u ∈ users m) = false := by simpa using h1 m
      rw [h1m, h2 (committee m), h3]
      cases oml <;> cases anon m <;> simp [hu0]
    · have hd : decide (u ≠ 0) = true := by simpa using hu0
      rw [hd]
      cases oml <;> cases anon m <;> cases decide (u ∈ users m) <;>
        cases cml (committee m) <;> simp
  have hsee' : Meeting.see R ids =
      (ids.filter (fun m => anon m || decide (u ∈ users m) || cml (committee m) ||
        ((tmpl m).2 && decide (cmls ≠ [])) || oml), none) := by
    rw [hsee, hfun]
  refine ⟨hsee', fun m => ?_⟩
  rw [hsee']
  simp only [List.mem_filter, Bool.or_eq_true, Bool.and_eq_true, decide_eq_true_eq]
  tauto

/-- The guard of `Meeting.see` for the anonymous user. For the request user 0, who has no
organization management level, `Meeting.see` does not read the user ids of a meeting: in a
state in which the user ids of the meeting 1 list the id 0, which the data model does not
allow, the meeting is not returned. -/
theorem meeting_see_anonymous_guard :
    (sampleReads 0 [0] [] [] []).requestUser = .ok 0 ∧
    (sampleReads 0 [0] [] [] []).userIDs 1 = .ok [0] ∧
    Meeting.see (sampleReads 0 [0] [] [] []) [1] = ([], none) := by
  decide

/-- C17, witness: for the anonymous user 0 and the batch `[1, 2, 1]`, in which the meeting 1
has `enable_anonymous` and the users of every meeting are `[5]`, the meeting 1 is returned at
both places; the user 5 sees both meetings of the batch `[1, 2]`. -/
theorem meeting_see_visible_witness :
    Meeting.see (anonymousReads [1] [5]) [1, 2, 1] = ([1, 1], none) ∧
    Meeting.see (sampleReads 5 [5] [] [] []) [1, 2] = ([1, 2], none) :=
  ⟨((meeting_see_visible (anonymousReads [1] [5]) [1, 2, 1] 0 false
      (fun m => decide (m ∈ [(1 : Int)])) (fun _ => [5]) (fun _ => 1) (fun _ => false)
      (fun _ => (0, false)) [] rfl rfl (fun _ => rfl) (fun _ => rfl) (fun _ => rfl)
      (fun _ => rfl) (fun _ => rfl) rfl).2
      (fun _ => ⟨fun _ => by decide, fun _ => rfl, rfl⟩)).1.trans (by decide),
    ((meeting_see_visible (sampleReads 5 [5] [] [] []) [1, 2] 5 false (fun _ => false)
      (fun _ => [5]) (fun _ => 1) (fun c => decide (c ∈ ([] : List Int)))
      (fun m => (1, decide (m ∈ ([] : List Int)))) [] rfl rfl (fun _ => rfl) (fun _ => rfl)
      (fun _ => rfl) (fun _ => rfl) (fun _ => rfl) rfl).2
      (fun h => absurd h (by decide))).1.trans (by decide)⟩

theorem modeC_eq (R : Reads) (ids : List Int) :
    Meeting.modeC R ids =
      match eachCondition ids (Meeting.hasPermission R MeetingCanSeeFrontpage) with
      | (_, some err) => ([], some ("checking can front page permission: " ++ err))
      | (allowed, none) => (allowed, none) := rfl

theorem modeD_eq (R : Reads) (ids : List Int) :
    Meeting.modeD R ids =
      match eachCondition ids (Meeting.hasPermission R MeetingCanSeeLivestream) with
      | (_, some err) => ([], some ("checking can see lievestream permission: " ++ err))
      | (allowed, none) => (allowed, none) := rfl

theorem hasPermission_error (R : Reads) (p : String) (ids : List Int)
    (h : ∃ id ∈ ids, ∃ err, R.permissions id = .error err) :
    ∃ id ∈ ids, ∃ err, Meeting.hasPermission R p id = .error err := by
  obtain ⟨id, hid, err, he⟩ := h
  exact ⟨id, hid, "getting permissions: " ++ err, by simp only [Meeting.hasPermission, he]⟩

/-- C18. `Meeting.modeC` and `Meeting.modeD` fail closed: when the lookup of the permissions
fails for an id of the batch, both return an error and no id; when no lookup fails, mode C
returns without an error the ids of the batch whose permission set has
`meeting.can_see_frontpage`, and mode D those whose permission set has
`meeting.can_see_livestream`. -/
theorem meeting_modes_fail_closed (R : Reads) (ids : List Int) :
    ((∃ id ∈ ids, ∃ err, R.permissions id = .error err) →
      (∃ err, Meeting.modeC R ids = ([], some err)) ∧
      (∃ err, Meeting.modeD R ids = ([], some err))) ∧
    (∀ perms : Int → String → Bool, (∀ id ∈ ids, R.permissions id = .ok (perms id)) →
      Meeting.modeC R ids =
        (ids.filter (fun id => perms id "meeting.can_see_frontpage"), none) ∧
      Meeting.modeD R ids =
        (ids.filter (fun id => perms id "meeting.can_see_livestream"), none)) := by
  constructor
  · intro h
    constructor
    · obtain ⟨err, he⟩ := eachCondition_error _ ids
        (hasPermission_error R MeetingCanSeeFrontpage ids h)
      exact ⟨_, by rw [modeC_eq, he]⟩
    · obtain ⟨err, he⟩ := eachCondition_error _ ids
        (hasPermission_error R MeetingCanSeeLivestream ids h)
      exact ⟨_, by rw [modeD_eq, he]⟩
  · intro perms h
    constructor
    · rw [modeC_eq, eachCondition_ok _ (fun id => perms id "meeting.can_see_frontpage") ids
        (fun id hid => by simp only [Meeting.hasPermission, h id hid, MeetingCanSeeFrontpage])]
    · rw [modeD_eq, eachCondition_ok _ (fun id => perms id "meeting.can_see_livestream") ids
        (fun id hid => by simp only [Meeting.hasPermission, h id hid, MeetingCanSeeLivestream])]

/-- C18, witness: in the batch `[1, 2, 3]` the lookup for the meeting 2 fails, and the user
has `meeting.can_see_frontpage` in the meetings 1 and 3; in the batch `[1, 3]` no lookup
fails. -/
theorem meeting_modes_fail_closed_witness :
    ((∃ err, Meeting.modeC (failingReads ["meeting.can_see_frontpage"]) [1, 2, 3] =
        ([], some err)) ∧
      (∃ err, Meeting.modeD (failingReads ["meeting.can_see_frontpage"]) [1, 2, 3] =
        ([], some err))) ∧
    Meeting.modeC (failingReads ["meeting.can_see_frontpage"]) [1, 3] = ([1, 3], none) ∧
    Meeting.modeD (failingReads ["meeting.can_see_frontpage"]) [1, 3] = ([], none) :=
  ⟨(meeting_modes_fail_closed (failingReads ["meeting.can_see_frontpage"]) [1, 2, 3]).1
      ⟨2, by decide, "no permissions", rfl⟩,
    ((meeting_modes_fail_closed (failingReads ["meeting.can_see_frontpage"]) [1, 3]).2
      (fun _ p => decide (p ∈ ["meeting.can_see_frontpage"]))
      (by
        intro id hid
        have h2 : id ≠ 2 := by
          intro h
          subst h
          revert hid
          decide
        simp only [failingReads, h2, if_false])).1.trans (by decide),
    ((meeting_modes_fail_closed (failingReads ["meeting.can_see_frontpage"]) [1, 3]).2
      (fun _ p => decide (p ∈ ["meeting.can_see_frontpage"]))
      (by
        intro id hid
        have h2 : id ≠ 2 := by
          intro h
          subst h
          revert hid
          decide
        simp only [failingReads, h2, if_false])).2.trans (by decide)⟩

end Collection

namespace Keysbuilder

/-! ## Writes that do not depend on the map -/

theorem overlay_id : Overlay (fun m => m) := by
  intro m k
  simp [GoMap.get?]

theorem overlay_set (x : Key) (d : fieldDescription) : Overlay (fun m => GoMap.set m x d) := by
  intro m k
  rw [GoMap_get?_set, GoMap_get?_set]
  by_cases h : x = k <;> simp [h, GoMap.get?]

theorem overlay_comp (f g : KeyMap → KeyMap) (hf : Overlay f) (hg : Overlay g) :
    Overlay (fun m => g (f m)) := by
  intro m k
  show GoMap.get? (g (f m)) k = (GoMap.get? (g (f [])) k).or (GoMap.get? m k)
  rw [hg (f m) k, hg (f []) k, hf m k]
  cases GoMap.get? (g []) k <;> simp

theorem overlay_foldl {ι : Type} (s : ι → KeyMap → KeyMap) (l : List ι)
    (h : ∀ x ∈ l, Overlay (s x)) : Overlay (fun m => l.foldl (fun acc x => s x acc) m) := by
  induction l with
  | nil => exact overlay_id
  | cons x l ih =>
    exact overlay_comp (s x) (fun m => l.foldl (fun acc x => s x acc) m)
      (h x (List.mem_cons_self _ _)) (ih (fun y hy => h y (List.mem_cons_of_mem _ hy)))

theorem overlay_fieldsMap_keys (F : fieldsMap) (c : String) (i : Int) :
    Overlay (fieldsMap.keys F c i) :=
  overlay_foldl (fun (e : String × fieldDescription) m => GoMap.set m ⟨c, i, e.1⟩ e.2)
    (GoMap.range F) (fun _ _ => overlay_set _ _)

theorem overlay_add (F : fieldsMap) (cid : String) :
    Overlay (fun m => (genericRelationField.add F cid m).1) := by
  have h : (fun m => (genericRelationField.add F cid m).1) =
      match collectionID cid with
      | none => fun m => m
      | some p => fieldsMap.keys F p.1 p.2 := by
    funext m
    rw [genericRelationField_add_eq]
    cases collectionID cid <;> rfl
  rw [h]
  cases collectionID cid with
  | none => exact overlay_id
  | some p => exact overlay_fieldsMap_keys F p.1 p.2

theorem add_error (F : fieldsMap) (cid : String) (m : KeyMap) :
    (genericRelationField.add F cid m).2 = (genericRelationField.add F cid []).2 := by
  rw [genericRelationField_add_eq, genericRelationField_add_eq]
  cases collectionID cid <;> rfl

theorem overlay_loop (F : fieldsMap) (cids : List String) :
    Overlay (fun m => (genericRelationListField.loop F cids m).1) ∧
    ∀ m, (genericRelationListField.loop F cids m).2 =
      (genericRelationListField.loop F cids []).2 := by
  induction cids with
  | nil => exact ⟨overlay_id, fun _ => rfl⟩
  | cons cid cids ih =>
    have hstep : ∀ m, genericRelationListField.loop F (cid :: cids) m =
        match collectionID cid with
        | none => (m, some (.invalidCollectionID cid))
        | some p => genericRelationListField.loop F cids (fieldsMap.keys F p.1 p.2 m) := by
      intro m
      simp only [genericRelationListField.loop]
      rw [genericRelationField_add_eq]
      cases collectionID cid <;> rfl
    cases hc : collectionID cid with
    | none =>
      have h1 : ∀ m, genericRelationListField.loop F (cid :: cids) m =
          (m, some (.invalidCollectionID cid)) := by
        intro m
        rw [hstep, hc]
      refine ⟨?_, fun m => by rw [h1, h1]⟩
      have : (fun m => (genericRelationListField.loop F (cid :: cids) m).1) = fun m => m := by
        funext m
        rw [h1]
      rw [this]
      exact overlay_id
    | some p =>
      have h1 : ∀ m, genericRelationListField.loop F (cid :: cids) m =
          genericRelationListField.loop F cids (fieldsMap.keys F p.1 p.2 m) := by
        intro m
        rw [hstep, hc]
      refine ⟨?_, fun m => by rw [h1, h1, ih.2, ih.2 (fieldsMap.keys F p.1 p.2 [])]⟩
      have : (fun m => (genericRelationListField.loop F (cid :: cids) m).1) =
          fun m => (genericRelationListField.loop F cids (fieldsMap.keys F p.1 p.2 m)).1 := by
        funext m
        rw [h1]
      rw [this]
      exact overlay_comp (fieldsMap.keys F p.1 p.2)
        (fun m => (genericRelationListField.loop F cids m).1)
        (overlay_fieldsMap_keys F p.1 p.2) ih.1

/-- The writes and the error of a method `keys` do not depend on the map on which it
works. -/
theorem overlay_keys (d : fieldDescription) (key : Key) (v : JSON) :
    Overlay (fun m => (d.keys key v m).1) ∧
    ∀ m, (d.keys key v m).2 = (d.keys key v []).2 := by
  cases d with
  | nil => exact ⟨overlay_id, fun _ => rfl⟩
  | relationField c f =>
    by_cases h : (decodeInt v 0).2 = true
    · have h1 : ∀ m, fieldDescription.keys (.relationField c f) key v m =
          (m, some (.decoding key)) := by
        intro m
        simp [fieldDescription.keys, relationField.keys, h]
      refine ⟨?_, fun m => by rw [h1, h1]⟩
      simp only [h1]
      exact overlay_id
    · have h1 : ∀ m, fieldDescription.keys (.relationField c f) key v m =
          (fieldsMap.keys f c (decodeInt v 0).1 m, none) := by
        intro m
        simp [fieldDescription.keys, relationField.keys, h]
      refine ⟨?_, fun m => by rw [h1, h1]⟩
      simp only [h1]
      exact overlay_fieldsMap_keys f c _
  | relationListField c f =>
    by_cases h : (decodeSlice decodeInt 0 v Slice.nil).2 = true
    · have h1 : ∀ m, fieldDescription.keys (.relationListField c f) key v m =
          (m, some (.decoding key)) := by
        intro m
        simp [fieldDescription.keys, relationListField.keys, h]
      refine ⟨?_, fun m => by rw [h1, h1]⟩
      simp only [h1]
      exact overlay_id
    · have h1 : ∀ m, fieldDescription.keys (.relationListField c f) key v m =
          ((decodeSlice decodeInt 0 v Slice.nil).1.elems.foldl
            (fun acc id => fieldsMap.keys f c id acc) m, none) := by
        intro m
        simp [fieldDescription.keys, relationListField.keys, h, fieldsMap.keys]
      refine ⟨?_, fun m => by rw [h1, h1]⟩
      simp only [h1]
      exact overlay_foldl (fun id => fieldsMap.keys f c id) _
        (fun id _ => overlay_fieldsMap_keys f c id)
  | genericRelationField f =>
    by_cases h : (decodeString v "").2 = true
    · have h1 : ∀ m, fieldDescription.keys (.genericRelationField f) key v m =
          (m, some (.decoding key)) := by
        intro m
        simp [fieldDescription.keys, genericRelationField.keys, h]
      refine ⟨?_, fun m => by rw [h1, h1]⟩
      simp only [h1]
      exact overlay_id
    · have h1 : ∀ m, fieldDescription.keys (.genericRelationField f) key v m =
          genericRelationField.add f (decodeString v "").1 m := by
        intro m
        simp [fieldDescription.keys, genericRelationField.keys, h]
      refine ⟨?_, fun m => by rw [h1, h1, add_error]⟩
      simp only [h1]
      exact overlay_add f _
  | genericRelationListField f =>
    by_cases h : (decodeSlice decodeString "" v Slice.nil).2 = true
    · have h1 : ∀ m, fieldDescription.keys (.genericRelationListField f) key v m =
          (m, some (.decoding key)) := by
        intro m
        simp [fieldDescription.keys, genericRelationListField.keys, h]
      refine ⟨?_, fun m => by rw [h1, h1]⟩
      simp only [h1]
      exact overlay_id
    · have h1 : ∀ m, fieldDescription.keys (.genericRelationListField f) key v m =
          genericRelationListField.loop f (decodeSlice decodeString "" v Slice.nil).1.elems
            m := by
        intro m
        simp [fieldDescription.keys, genericRelationListField.keys, h]
      refine ⟨?_, fun m => by rw [h1, h1, (overlay_loop f _).2]⟩
      simp only [h1]
      exact (overlay_loop f _).1
  | templateField values =>
    by_cases h : (decodeSlice decodeString "" v Slice.nil).2 = true
    · have h1 : ∀ m, fieldDescription.keys (.templateField values) key v m =
          (m, some (.decoding key)) := by
        intro m
        simp [fieldDescription.keys, templateField.keys, h]
      refine ⟨?_, fun m => by rw [h1, h1]⟩
      simp only [h1]
      exact overlay_id
    · have h1 : ∀ m, fieldDescription.keys (.templateField values) key v m =
          ((decodeSlice decodeString "" v Slice.nil).1.elems.foldl
            (fun acc r => GoMap.set acc (templateKey key r) values) m, none) := by
        intro m
        simp [fieldDescription.keys, templateField.keys, h, templateKey]
      refine ⟨?_, fun m => by rw [h1, h1]⟩
      simp only [h1]
      exact overlay_foldl (fun r m => GoMap.set m (templateKey key r) values) _
        (fun r _ => overlay_set _ _)

theorem overlay_expandEntry (store : Key → Option JSON) (e : Key × fieldDescription) :
    Overlay (fun m => (expandEntry store e m).1) ∧
    ∀ m, (expandEntry store e m).2 = (expandEntry store e []).2 := by
  unfold expandEntry
  cases store e.1 with
  | none => exact ⟨overlay_id, fun _ => rfl⟩
  | some v =>
    cases v with
    | null => exact ⟨overlay_id, fun _ => rfl⟩
    | bool b => exact overlay_keys e.2 e.1 _
    | num n => exact overlay_keys e.2 e.1 _
    | float s => exact overlay_keys e.2 e.1 _
    | str s => exact overlay_keys e.2 e.1 _
    | arr xs => exact overlay_keys e.2 e.1 _
    | obj ms => exact overlay_keys e.2 e.1 _

theorem overlay_mapEq (f : KeyMap → KeyMap) (hf : Overlay f) (m m' : KeyMap)
    (h : MapEq m m') : MapEq (f m) (f m') := by
  intro k
  rw [hf m k, hf m' k, h k]

theorem overlay_comm (f g : KeyMap → KeyMap) (hf : Overlay f) (hg : Overlay g)
    (hc : Compatible f g) (m : KeyMap) : MapEq (f (g m)) (g (f m)) := by
  intro k
  rw [hf (g m) k, hg m k, hg (f m) k, hf m k]
  cases h1 : GoMap.get? (f []) k with
  | none => simp
  | some d =>
    cases h2 : GoMap.get? (g []) k with
    | none => simp
    | some d' => simp [hc k d d' h1 h2]

theorem foldl_mapEq {ι : Type} (s : ι → KeyMap → KeyMap) (hs : ∀ x, Overlay (s x))
    (l : List ι) (m m' : KeyMap) (h : MapEq m m') :
    MapEq (l.foldl (fun acc x => s x acc) m) (l.foldl (fun acc x => s x acc) m') := by
  induction l generalizing m m' with
  | nil => exact h
  | cons x l ih => exact ih _ _ (overlay_mapEq (s x) (hs x) m m' h)

/-- Writes that do not depend on the map and do not conflict give the same Go map in every
order. -/
theorem foldl_perm_mapEq {ι : Type} (s : ι → KeyMap → KeyMap) (hs : ∀ x, Overlay (s x))
    (l l' : List ι) (hp : l.Perm l')
    (hc : ∀ x ∈ l, ∀ y ∈ l, Compatible (s x) (s y)) (m m' : KeyMap) (h : MapEq m m') :
    MapEq (l.foldl (fun acc x => s x acc) m) (l'.foldl (fun acc x => s x acc) m') := by
  induction hp generalizing m m' with
  | nil => exact h
  | cons x _ ih =>
    exact ih (fun a ha b hb => hc a (List.mem_cons_of_mem _ ha) b (List.mem_cons_of_mem _ hb))
      _ _ (overlay_mapEq (s x) (hs x) m m' h)
  | swap x y l =>
    simp only [List.foldl_cons]
    apply foldl_mapEq s hs
    intro k
    have hxy : Compatible (s x) (s y) :=
      hc x (List.mem_cons_of_mem _ (List.mem_cons_self _ _)) y (List.mem_cons_self _ _)
    rw [overlay_comm (s x) (s y) (hs x) (hs y) hxy m k]
    exact overlay_mapEq (s y) (hs y) _ _ (overlay_mapEq (s x) (hs x) m m' h) k
  | trans h1 _ ih1 ih2 =>
    intro k
    rw [ih1 hc m m' h k]
    exact ih2 (fun a ha b hb => hc a (h1.mem_iff.2 ha) b (h1.mem_iff.2 hb)) m' m'
      (fun _ => rfl) k

/-! ## The order of the entries in a pass of the engine -/

theorem range_perm (m m' : KeyMap) (h : MapEq m m') :
    (GoMap.range m).Perm (GoMap.range m') := by
  refine (List.perm_ext_iff_of_nodup (GoMap_range_nodup m).of_map
    (GoMap_range_nodup m').of_map).2 ?_
  intro a
  obtain ⟨k, v⟩ := a
  rw [GoMap_mem_range_iff, GoMap_mem_range_iff, h k]

theorem isExpanded_iff (st : Expansion) (e : Key × fieldDescription) :
    st.isExpanded e = true ↔ e ∈ st.expanded := by
  unfold Expansion.isExpanded
  rw [List.any_eq_true]
  constructor
  · rintro ⟨x, hx, hxe⟩
    simp only [Bool.and_eq_true, decide_eq_true_eq] at hxe
    have : x = e := Prod.ext hxe.1 (fieldDescription.eq_of_beq _ _ hxe.2)
    exact this ▸ hx
  · intro he
    exact ⟨e, he, by simp [fieldDescription.beq_self]⟩

theorem todo_perm (st st' : Expansion) (h : Expansion.Equiv st st') :
    st.todo.Perm st'.todo := by
  unfold Expansion.todo
  have hpred : (fun e : Key × fieldDescription => !e.2.isLeaf && !st.isExpanded e) =
      (fun e => !e.2.isLeaf && !st'.isExpanded e) := by
    funext e
    have : st.isExpanded e = st'.isExpanded e := by
      rw [Bool.eq_iff_iff, isExpanded_iff, isExpanded_iff]
      exact h.2.1 e
    rw [this]
  rw [hpred]
  exact (range_perm _ _ h.1).filter _

theorem foldl_step_data (store : Key → Option JSON) (l : List (Key × fieldDescription))
    (st : Expansion) :
    (l.foldl (Expansion.step store) st).data =
      l.foldl (fun acc e => (expandEntry store e acc).1) st.data := by
  induction l generalizing st with
  | nil => rfl
  | cons e l ih =>
    simp only [List.foldl_cons]
    rw [ih]
    rfl

theorem foldl_step_expanded (store : Key → Option JSON) (l : List (Key × fieldDescription))
    (st : Expansion) :
    (l.foldl (Expansion.step store) st).expanded = l.reverse ++ st.expanded := by
  induction l generalizing st with
  | nil => rfl
  | cons e l ih =>
    simp only [List.foldl_cons]
    rw [ih]
    simp [Expansion.step]

theorem foldl_step_errors (store : Key → Option JSON) (l : List (Key × fieldDescription))
    (st : Expansion) :
    (l.foldl (Expansion.step store) st).errors =
      st.errors ++ l.flatMap (fun e => (expandEntry store e []).2.toList) := by
  induction l generalizing st with
  | nil => simp
  | cons e l ih =>
    simp only [List.foldl_cons]
    rw [ih]
    simp [Expansion.step, (overlay_expandEntry store e).2 st.data]

theorem foldl_step_equiv (store : Key → Option JSON) (l l' : List (Key × fieldDescription))
    (hp : l.Perm l')
    (hc : ∀ x ∈ l, ∀ y ∈ l, Compatible (fun m => (expandEntry store x m).1)
      (fun m => (expandEntry store y m).1))
    (st st' : Expansion) (h : Expansion.Equiv st st') :
    Expansion.Equiv (l.foldl (Expansion.step store) st) (l'.foldl (Expansion.step store) st') := by
  refine ⟨?_, ?_, ?_⟩
  · rw [foldl_step_data, foldl_step_data]
    exact foldl_perm_mapEq (fun e m => (expandEntry store e m).1)
      (fun e => (overlay_expandEntry store e).1) l l' hp hc _ _ h.1
  · intro e
    rw [foldl_step_expanded, foldl_step_expanded]
    simp only [List.mem_append, List.mem_reverse]
    rw [hp.mem_iff, h.2.1 e]
  · rw [foldl_step_errors, foldl_step_errors]
    exact h.2.2.append (hp.flatMap_right _)

theorem agree_compatible (f g : KeyMap → KeyMap) (h : KeyMap.agree (f []) (g []) = true) :
    Compatible f g := by
  intro k d d' h1 h2
  unfold KeyMap.agree at h
  have hall := List.all_eq_true.1 h (k, d) ((GoMap_mem_range_iff _ k d).2 h1)
  simp only [h2] at hall
  exact (fieldDescription.eq_of_beq _ _ hall).symm

theorem conflictFree_compatible (store : Key → Option JSON)
    (l : List (Key × fieldDescription)) (h : conflictFree store l = true) :
    ∀ x ∈ l, ∀ y ∈ l, Compatible (fun m => (expandEntry store x m).1)
      (fun m => (expandEntry store y m).1) := by
  intro x hx y hy
  unfold conflictFree at h
  exact agree_compatible (fun m => (expandEntry store x m).1)
    (fun m => (expandEntry store y m).1)
    (List.all_eq_true.1 (List.all_eq_true.1 h x hx) y hy)

theorem todo_isEmpty_eq (st st' : Expansion) (h : Expansion.Equiv st st') :
    st.todo.isEmpty = st'.todo.isEmpty := by
  have hp := todo_perm st st' h
  cases h1 : st.todo with
  | nil =>
    rw [h1] at hp
    rw [hp.symm.eq_nil]
  | cons a l =>
    cases h2 : st'.todo with
    | nil =>
      rw [h2] at hp
      rw [hp.eq_nil] at h1
      cases h1
    | cons b l' => rfl

/-- When no two entries of a pass write different descriptions to the same key, the engine
reaches the same Go map, the same expanded entries and the same errors in whatever order it
processes the collected entries. -/
theorem expand_order_free
    (order : List (Key × fieldDescription) → List (Key × fieldDescription))
    (hperm : ∀ l, (order l).Perm l) (store : Key → Option JSON) :
    ∀ (fuel : Nat) (st st' : Expansion), Expansion.Equiv st st' →
      orderFree store fuel st' = true →
      ∃ R R', expand order store fuel st = some R ∧ expand id store fuel st' = some R' ∧
        Expansion.Equiv R R' := by
  intro fuel
  induction fuel with
  | zero =>
    intro st st' h hfree
    simp only [orderFree] at hfree
    have h1 : st.todo.isEmpty = true := by rw [todo_isEmpty_eq st st' h, hfree]
    exact ⟨st, st', by simp only [expand, h1, if_true], by simp only [expand, hfree, if_true],
      h⟩
  | succ n ih =>
    intro st st' h hfree
    by_cases hempty : st'.todo.isEmpty = true
    · have h1 : st.todo.isEmpty = true := by rw [todo_isEmpty_eq st st' h, hempty]
      exact ⟨st, st', by simp only [expand, h1, if_true],
        by simp only [expand, hempty, if_true], h⟩
    · have h1 : ¬ st.todo.isEmpty = true := by rw [todo_isEmpty_eq st st' h]; exact hempty
      have hf : st'.todo.isEmpty = false := Bool.eq_false_iff.2 hempty
      simp only [orderFree, hf, Bool.false_or, Bool.and_eq_true] at hfree
      have hround : Expansion.Equiv (expandRound order store st)
          (expandRound id store st') := by
        unfold expandRound
        have hp : (order st.todo).Perm (id st'.todo) :=
          (hperm st.todo).trans (todo_perm st st' h)
        refine foldl_step_equiv store _ _ hp ?_ st st' h
        intro x hx y hy
        exact conflictFree_compatible store st'.todo hfree.1 x (hp.mem_iff.1 hx) y
          (hp.mem_iff.1 hy)
      obtain ⟨R, R', hR, hR', hE⟩ := ih _ _ hround hfree.2
      exact ⟨R, R', by simp only [expand, h1, if_false]; exact hR,
        by simp only [expand, hempty, if_false]; exact hR', hE⟩

theorem expand_mono (order : List (Key × fieldDescription) → List (Key × fieldDescription))
    (store : Key → Option JSON) (fuel : Nat) (st R : Expansion)
    (h : expand order store fuel st = some R) :
    ∀ n, fuel ≤ n → expand order store n st = some R := by
  induction fuel generalizing st with
  | zero =>
    intro n _
    by_cases hempty : st.todo.isEmpty = true
    · simp only [expand, hempty, if_true] at h
      cases n <;> simp only [expand, hempty, if_true, h]
    · simp [expand, hempty] at h
  | succ m ih =>
    intro n hn
    obtain ⟨n', rfl⟩ : ∃ n', n = n' + 1 := ⟨n - 1, by omega⟩
    by_cases hempty : st.todo.isEmpty = true
    · simp only [expand, hempty, if_true] at h ⊢
      exact h
    · simp only [expand, hempty, if_false] at h ⊢
      exact ih _ h n' (by omega)

theorem update_order_free
    (order : List (Key × fieldDescription) → List (Key × fieldDescription))
    (hperm : ∀ l, (order l).Perm l) (store : Key → Option JSON) (b : body) (fuel n : Nat)
    (hn : fuel ≤ n) (h : orderFree store fuel ⟨body.keys b [], [], []⟩ = true) :
    ∃ R R', Update order store n b = some R ∧ Update id store fuel b = some R' ∧
      Expansion.Equiv R R' := by
  obtain ⟨R, R', hR, hR', hE⟩ := expand_order_free order hperm store fuel
    ⟨body.keys b [], [], []⟩ ⟨body.keys b [], [], []⟩
    ⟨fun _ => rfl, fun _ => Iff.rfl, List.Perm.refl _⟩ h
  exact ⟨R, R', expand_mono order store fuel _ R hR n hn, hR', hE⟩

theorem valued_iff (store : Key → Option JSON) (R R' : Expansion)
    (h : Expansion.Equiv R R') (k : Key) :
    k ∈ R.valued store ↔ k ∈ R'.valued store := by
  unfold Expansion.valued
  rw [List.mem_filter, List.mem_filter, GoMap_mem_keySet_iff, GoMap_mem_keySet_iff, h.1 k]

theorem fieldsMap_keys_union (F1 F2 : fieldsMap) (c : String) (i : Int) (data : KeyMap)
    (k : Key) :
    (GoMap.get? (fieldsMap.keys F2 c i (fieldsMap.keys F1 c i data)) k).isSome = true ↔
      ((GoMap.get? data k).isSome = true ∨
        (k.Collection = c ∧ k.ID = i ∧
          ((GoMap.get? F1 k.Field).isSome = true ∨ (GoMap.get? F2 k.Field).isSome = true))) := by
  rw [fieldsMap_keys_get?, fieldsMap_keys_get?]
  by_cases hc : k.Collection = c ∧ k.ID = i
  · obtain ⟨h1, h2⟩ := hc
    by_cases hF2 : (GoMap.get? F2 k.Field).isSome = true
    · simp [h1, h2, hF2]
    · by_cases hF1 : (GoMap.get? F1 k.Field).isSome = true
      · simp [h1, h2, hF2, hF1]
      · simp [h1, h2, hF2, hF1]
  · have h2 : ¬ (k.Collection = c ∧ k.ID = i ∧ (GoMap.get? F2 k.Field).isSome = true) :=
      fun h => hc ⟨h.1, h.2.1⟩
    have h1 : ¬ (k.Collection = c ∧ k.ID = i ∧ (GoMap.get? F1 k.Field).isSome = true) :=
      fun h => hc ⟨h.1, h.2.1⟩
    rw [if_neg h2, if_neg h1]
    constructor
    · exact Or.inl
    · rintro (h | h)
      · exact h
      · exact absurd ⟨h.1, h.2.1⟩ hc

/-! ## The engine on the test data set -/

theorem generic_lookup_order_free :
    orderFree (GoMap.get? dataSet) 3 ⟨body.keys genericLookup [], [], []⟩ = true := by
  decide

theorem generic_lookup_run :
    (Update id (GoMap.get? dataSet) 3 genericLookup).map
        (fun st => (st.errors, st.valued (GoMap.get? dataSet), GoMap.keySet st.data)) =
      some ([],
        [⟨"gb", 1, "content_object_id"⟩, ⟨"b", 1, "b_children_ids"⟩, ⟨"b", 1, "c_ids"⟩,
          ⟨"b", 1, "gb_id"⟩, ⟨"b", 2, "c_ids"⟩, ⟨"b", 2, "b_parent_id"⟩, ⟨"c", 1, "c"⟩,
          ⟨"c", 1, "title"⟩, ⟨"c", 2, "c"⟩],
        [⟨"gb", 1, "content_object_id"⟩, ⟨"b", 1, "b_children_ids"⟩, ⟨"b", 1, "c_ids"⟩,
          ⟨"b", 1, "gb_id"⟩, ⟨"b", 2, "c_ids"⟩, ⟨"b", 2, "b_parent_id"⟩, ⟨"c", 1, "c"⟩,
          ⟨"c", 1, "title"⟩, ⟨"c", 2, "c"⟩]) := by
  decide

/-- C19. The request of the test `Partial merged fields, generic lookup` parses to the root
`genericLookup`. On the test data set the engine, in whatever order it processes the entries
it has collected, reaches the fixed point in three passes without an error, and the keys of
its map that have a value are exactly `gb/1/content_object_id`, `b/1/b_children_ids`,
`b/1/c_ids`, `b/1/gb_id`, `b/2/c_ids`, `b/2/b_parent_id`, `c/1/c`, `c/1/title` and `c/2/c`;
these are all keys of the map, and `c/2/title` is not among them. In general, after the
sub-fields `F1` and then the sub-fields `F2` have been written for the same object, the keys
of the map are the keys it had and the keys of the object with a name of `F1` or of `F2`. -/
theorem generic_lookup_expansion
    (order : List (Key × fieldDescription) → List (Key × fieldDescription))
    (hperm : ∀ l, (order l).Perm l) (fuel : Nat) (hfuel : 3 ≤ fuel) :
    body.UnmarshalJSON quoteASCII genericLookupRequest = .ok genericLookup ∧
    (∃ st, Update order (GoMap.get? dataSet) fuel genericLookup = some st ∧
      st.errors = [] ∧
      (∀ k, k ∈ st.valued (GoMap.get? dataSet) ↔
        k ∈ [(⟨"gb", 1, "content_object_id"⟩ : Key), ⟨"b", 1, "b_children_ids"⟩,
          ⟨"b", 1, "c_ids"⟩, ⟨"b", 1, "gb_id"⟩, ⟨"b", 2, "c_ids"⟩, ⟨"b", 2, "b_parent_id"⟩,
          ⟨"c", 1, "c"⟩, ⟨"c", 1, "title"⟩, ⟨"c", 2, "c"⟩]) ∧
      (∀ k, (GoMap.get? st.data k).isSome = true → k ∈ st.valued (GoMap.get? dataSet)) ∧
      GoMap.get? st.data ⟨"c", 2, "title"⟩ = none) ∧
    (∀ (F1 F2 : fieldsMap) (c : String) (i : Int) (data : KeyMap) (k : Key),
      (GoMap.get? (fieldsMap.keys F2 c i (fieldsMap.keys F1 c i data)) k).isSome = true ↔
        ((GoMap.get? data k).isSome = true ∨
          (k.Collection = c ∧ k.ID = i ∧
            ((GoMap.get? F1 k.Field).isSome = true ∨
              (GoMap.get? F2 k.Field).isSome = true)))) := by
  refine ⟨by decide, ?_, fieldsMap_keys_union⟩
  obtain ⟨R, R', hR, hR', hE⟩ := update_order_free order hperm (GoMap.get? dataSet)
    genericLookup 3 fuel hfuel generic_lookup_order_free
  have hrun := generic_lookup_run
  rw [hR'] at hrun
  simp only [Option.map_some', Option.some.injEq, Prod.mk.injEq] at hrun
  obtain ⟨herr, hval, hkeys⟩ := hrun
  have hvalued : ∀ k, k ∈ R.valued (GoMap.get? dataSet) ↔
      k ∈ [(⟨"gb", 1, "content_object_id"⟩ : Key), ⟨"b", 1, "b_children_ids"⟩,
        ⟨"b", 1, "c_ids"⟩, ⟨"b", 1, "gb_id"⟩, ⟨"b", 2, "c_ids"⟩, ⟨"b", 2, "b_parent_id"⟩,
        ⟨"c", 1, "c"⟩, ⟨"c", 1, "title"⟩, ⟨"c", 2, "c"⟩] := by
    intro k
    rw [valued_iff (GoMap.get? dataSet) R R' hE k, hval]
  have hall : ∀ k, (GoMap.get? R.data k).isSome = true → k ∈ R.valued (GoMap.get? dataSet) := by
    intro k hk
    rw [hvalued k]
    rw [hE.1 k, ← GoMap_mem_keySet_iff, hkeys] at hk
    exact hk
  refine ⟨R, hR, ?_, hvalued, hall, ?_⟩
  · have hp := hE.2.2
    rw [herr] at hp
    exact hp.eq_nil
  · cases hget : GoMap.get? R.data ⟨"c", 2, "title"⟩ with
    | none => rfl
    | some d =>
      have hmem := (hvalued _).1 (hall ⟨"c", 2, "title"⟩ (by rw [hget]; rfl))
      exact absurd hmem (by decide)

/-- C19, witness: the engine that processes the entries in the order in which it has
collected them, with three passes. -/
theorem generic_lookup_expansion_witness :
    ∃ st, Update id (GoMap.get? dataSet) 3 genericLookup = some st ∧ st.errors = [] ∧
      ⟨"c", 1, "title"⟩ ∈ st.valued (GoMap.get? dataSet) ∧
      GoMap.get? st.data ⟨"c", 2, "title"⟩ = none := by
  obtain ⟨st, h1, h2, h3, _, h5⟩ :=
    (generic_lookup_expansion id (fun l => List.Perm.refl l) 3 (Nat.le_refl 3)).2.1
  exact ⟨st, h1, h2, (h3 _).2 (by decide), h5⟩

theorem structured_references_order_free :
    orderFree (GoMap.get? dataSet) 2 ⟨body.keys structuredReferences [], [], []⟩ = true := by
  decide

theorem structured_references_run :
    (Update id (GoMap.get? dataSet) 2 structuredReferences).map
        (fun st => (st.errors, st.valued (GoMap.get? dataSet),
          GoMap.get? st.data ⟨"d", 2, "b_$4_ids"⟩)) =
      some ([],
        [⟨"d", 1, "b_$_ids"⟩, ⟨"d", 2, "b_$_ids"⟩, ⟨"d", 2, "b_$4_ids"⟩, ⟨"d", 1, "b_$1_ids"⟩,
          ⟨"d", 1, "b_$2_ids"⟩, ⟨"d", 1, "b_$3_ids"⟩, ⟨"d", 2, "b_$1_ids"⟩, ⟨"b", 2, "title"⟩,
          ⟨"b", 2, "b"⟩, ⟨"b", 1, "b"⟩],
        some (.relationListField "b" [("b", .nil)])) := by
  decide

/-- C20. The request of the test `structed references` parses to the root
`structuredReferences`, in which `b_$4_ids` is requested with the sub-field `title` and the
template `b_$_ids` has the inner description with the sub-field `b`. On the test data set the
engine, in whatever order it processes the entries it has collected, reaches the fixed point
in two passes without an error; the template has written its inner description to the key
`d/2/b_$4_ids`, and the keys `b/1/b`, `b/2/b` and `b/2/title` are in the map. The keys of the
map that have a value are the ten keys that the test expects. -/
theorem structured_references_expansion
    (order : List (Key × fieldDescription) → List (Key × fieldDescription))
    (hperm : ∀ l, (order l).Perm l) (fuel : Nat) (hfuel : 2 ≤ fuel) :
    body.UnmarshalJSON quoteASCII structuredReferencesRequest = .ok structuredReferences ∧
    ∃ st, Update order (GoMap.get? dataSet) fuel structuredReferences = some st ∧
      st.errors = [] ∧
      GoMap.get? st.data ⟨"d", 2, "b_$4_ids"⟩ = some (.relationListField "b" [("b", .nil)]) ∧
      (GoMap.get? st.data ⟨"b", 1, "b"⟩).isSome = true ∧
      (GoMap.get? st.data ⟨"b", 2, "b"⟩).isSome = true ∧
      (GoMap.get? st.data ⟨"b", 2, "title"⟩).isSome = true ∧
      (∀ k, k ∈ st.valued (GoMap.get? dataSet) ↔
        k ∈ [(⟨"d", 1, "b_$_ids"⟩ : Key), ⟨"d", 1, "b_$1_ids"⟩, ⟨"d", 1, "b_$2_ids"⟩,
          ⟨"d", 1, "b_$3_ids"⟩, ⟨"d", 2, "b_$_ids"⟩, ⟨"d", 2, "b_$1_ids"⟩,
          ⟨"d", 2, "b_$4_ids"⟩, ⟨"b", 1, "b"⟩, ⟨"b", 2, "b"⟩, ⟨"b", 2, "title"⟩]) := by
  refine ⟨by decide, ?_⟩
  obtain ⟨R, R', hR, hR', hE⟩ := update_order_free order hperm (GoMap.get? dataSet)
    structuredReferences 2 fuel hfuel structured_references_order_free
  have hrun := structured_references_run
  rw [hR'] at hrun
  simp only [Option.map_some', Option.some.injEq, Prod.mk.injEq] at hrun
  obtain ⟨herr, hval, hkey⟩ := hrun
  have hvalued : ∀ k, k ∈ R.valued (GoMap.get? dataSet) ↔
      k ∈ [(⟨"d", 1, "b_$_ids"⟩ : Key), ⟨"d", 1, "b_$1_ids"⟩, ⟨"d", 1, "b_$2_ids"⟩,
        ⟨"d", 1, "b_$3_ids"⟩, ⟨"d", 2, "b_$_ids"⟩, ⟨"d", 2, "b_$1_ids"⟩,
        ⟨"d", 2, "b_$4_ids"⟩, ⟨"b", 1, "b"⟩, ⟨"b", 2, "b"⟩, ⟨"b", 2, "title"⟩] := by
    intro k
    rw [valued_iff (GoMap.get? dataSet) R R' hE k, hval]
    simp only [List.mem_cons, List.mem_singleton, List.not_mem_nil, or_false]
    tauto
  have hsome : ∀ k, k ∈ R.valued (GoMap.get? dataSet) → (GoMap.get? R.data k).isSome = true := by
    intro k hk
    unfold Expansion.valued at hk
    exact (GoMap_mem_keySet_iff _ _).1 (List.mem_filter.1 hk).1
  refine ⟨R, hR, ?_, by rw [hE.1, hkey], hsome _ ((hvalued _).2 (by decide)),
    hsome _ ((hvalued _).2 (by decide)), hsome _ ((hvalued _).2 (by decide)), hvalued⟩
  have hp := hE.2.2
  rw [herr] at hp
  exact hp.eq_nil

/-- C20, witness: the engine that processes the collected entries in the reverse order, with
two passes. -/
theorem structured_references_expansion_witness :
    ∃ st, Update List.reverse (GoMap.get? dataSet) 2 structuredReferences = some st ∧
      st.errors = [] ∧ (GoMap.get? st.data ⟨"b", 2, "title"⟩).isSome = true := by
  obtain ⟨st, h1, h2, _, _, _, h6, _⟩ :=
    (structured_references_expansion List.reverse (fun l => List.reverse_perm l) 2
      (Nat.le_refl 2)).2
  exact ⟨st, h1, h2, h6⟩

/-! ## The descent of the expansion -/

theorem GoMap_mem_of_get? {κ α : Type} [DecidableEq κ] (m : GoMap κ α) (k : κ) (v : α)
    (h : GoMap.get? m k = some v) : (k, v) ∈ m := by
  induction m with
  | nil => simp [GoMap.get?] at h
  | cons e m ih =>
    obtain ⟨k0, v0⟩ := e
    simp only [GoMap.get?] at h
    split_ifs at h with h0
    · simp only [Option.some.injEq] at h
      subst h0
      subst h
      exact List.mem_cons_self _ _
    · exact List.mem_cons_of_mem _ (ih h)

theorem depth_le_depthFields (f : List (String × fieldDescription)) (n : String)
    (d : fieldDescription) (h : (n, d) ∈ f) : d.depth ≤ fieldDescription.depthFields f := by
  induction f with
  | nil => cases h
  | cons e f ih =>
    obtain ⟨n0, d0⟩ := e
    simp only [fieldDescription.depthFields]
    rcases List.mem_cons.1 h with heq | hm
    · simp only [Prod.mk.injEq] at heq
      rw [heq.2]
      exact Nat.le_max_left _ _
    · exact Nat.le_trans (ih hm) (Nat.le_max_right _ _)

theorem depth_of_get? (f : fieldsMap) (n : String) (d : fieldDescription)
    (h : GoMap.get? f n = some d) : d.depth ≤ fieldDescription.depthFields f :=
  depth_le_depthFields f n d (GoMap_mem_of_get? f n d h)

theorem children_depth (d d' : fieldDescription) (h : d' ∈ d.children) :
    d'.depth < d.depth := by
  have hf : ∀ f : fieldsMap, d' ∈ (GoMap.range f).map Prod.snd →
      d'.depth < fieldDescription.depthFields f + 1 := by
    intro f hm
    obtain ⟨e, he, hd⟩ := List.mem_map.1 hm
    obtain ⟨n, x⟩ := e
    simp only at hd
    subst hd
    exact Nat.lt_succ_of_le (depth_of_get? f n x ((GoMap_mem_range_iff f n x).1 he))
  cases d with
  | nil => cases h
  | relationField c f => exact hf f h
  | relationListField c f => exact hf f h
  | genericRelationField f => exact hf f h
  | genericRelationListField f => exact hf f h
  | templateField v =>
    simp only [fieldDescription.children, List.mem_singleton] at h
    subst h
    simp [fieldDescription.depth]

theorem fieldsMap_keys_child (F : fieldsMap) (c : String) (i : Int) (data : KeyMap) (k : Key)
    (d' : fieldDescription) (h : GoMap.get? (fieldsMap.keys F c i data) k = some d') :
    GoMap.get? data k = some d' ∨ d' ∈ (GoMap.range F).map Prod.snd := by
  rw [fieldsMap_keys_get?] at h
  split_ifs at h
  · exact Or.inr (List.mem_map.2 ⟨(k.Field, d'), (GoMap_mem_range_iff F _ _).2 h, rfl⟩)
  · exact Or.inl h

theorem fold_fieldsMap_keys_child {ι : Type} (F : fieldsMap) (g : ι → String × Int)
    (l : List ι) (data : KeyMap) (k : Key) (d' : fieldDescription)
    (h : GoMap.get? (l.foldl (fun acc x => fieldsMap.keys F (g x).1 (g x).2 acc) data) k =
      some d') :
    GoMap.get? data k = some d' ∨ d' ∈ (GoMap.range F).map Prod.snd := by
  induction l generalizing data with
  | nil => exact Or.inl h
  | cons x l ih =>
    rcases ih _ h with h1 | h1
    · exact fieldsMap_keys_child F _ _ data k d' h1
    · exact Or.inr h1

theorem loop_child (F : fieldsMap) (cids : List String) (data : KeyMap) (k : Key)
    (d' : fieldDescription)
    (h : GoMap.get? (genericRelationListField.loop F cids data).1 k = some d') :
    GoMap.get? data k = some d' ∨ d' ∈ (GoMap.range F).map Prod.snd := by
  induction cids generalizing data with
  | nil => exact Or.inl h
  | cons cid cids ih =>
    simp only [genericRelationListField.loop] at h
    rw [genericRelationField_add_eq] at h
    cases hc : collectionID cid with
    | none =>
      rw [hc] at h
      exact Or.inl h
    | some p =>
      rw [hc] at h
      rcases ih _ h with h1 | h1
      · exact fieldsMap_keys_child F _ _ data k d' h1
      · exact Or.inr h1

/-- An entry of the map after a method `keys` is an entry of the map before, or its
description is a direct child of the description whose method it is. -/
theorem keys_child (d : fieldDescription) (key : Key) (v : JSON) (data : KeyMap) (k : Key)
    (d' : fieldDescription) (h : GoMap.get? (d.keys key v data).1 k = some d') :
    GoMap.get? data k = some d' ∨ d' ∈ d.children := by
  cases d with
  | nil => exact Or.inl h
  | relationField c f =>
    simp only [fieldDescription.keys, relationField.keys] at h
    split_ifs at h
    · exact Or.inl h
    · exact fieldsMap_keys_child f c _ data k d' h
  | relationListField c f =>
    simp only [fieldDescription.keys, relationListField.keys] at h
    split_ifs at h
    · exact Or.inl h
    · exact fold_fieldsMap_keys_child f (fun id => (c, id)) _ data k d' h
  | genericRelationField f =>
    simp only [fieldDescription.keys, genericRelationField.keys] at h
    split_ifs at h
    · exact Or.inl h
    · rw [genericRelationField_add_eq] at h
      cases hc : collectionID (decodeString v "").1 with
      | none =>
        rw [hc] at h
        exact Or.inl h
      | some p =>
        rw [hc] at h
        exact fieldsMap_keys_child f _ _ data k d' h
  | genericRelationListField f =>
    simp only [fieldDescription.keys, genericRelationListField.keys] at h
    split_ifs at h
    · exact Or.inl h
    · exact loop_child f _ data k d' h
  | templateField values =>
    simp only [fieldDescription.keys, templateField.keys] at h
    split_ifs at h
    · exact Or.inl h
    · have h1 := fold_set_const_get?
        ((decodeSlice decodeString "" v Slice.nil).1.elems.map (templateKey key)) values data k
      rw [List.foldl_map] at h1
      have h2 : GoMap.get? (List.foldl (fun m r => GoMap.set m (templateKey key r) values) data
          (decodeSlice decodeString "" v Slice.nil).1.elems) k = some d' := h
      rw [h1] at h2
      split_ifs at h2
      · simp only [Option.some.injEq] at h2
        subst h2
        exact Or.inr (List.mem_singleton.2 rfl)
      · exact Or.inl h2

theorem expandEntry_child (store : Key → Option JSON) (e : Key × fieldDescription)
    (data : KeyMap) (k : Key) (d' : fieldDescription)
    (h : GoMap.get? (expandEntry store e data).1 k = some d') :
    GoMap.get? data k = some d' ∨ d' ∈ e.2.children := by
  unfold expandEntry at h
  cases hs : store e.1 with
  | none =>
    rw [hs] at h
    exact Or.inl h
  | some v =>
    rw [hs] at h
    cases v with
    | null => exact Or.inl h
    | bool b => exact keys_child e.2 e.1 _ data k d' h
    | num n => exact keys_child e.2 e.1 _ data k d' h
    | float s => exact keys_child e.2 e.1 _ data k d' h
    | str s => exact keys_child e.2 e.1 _ data k d' h
    | arr xs => exact keys_child e.2 e.1 _ data k d' h
    | obj ms => exact keys_child e.2 e.1 _ data k d' h

theorem foldl_expandEntry_child (store : Key → Option JSON)
    (l : List (Key × fieldDescription)) (data : KeyMap) (k : Key) (d' : fieldDescription)
    (h : GoMap.get? (l.foldl (fun acc e => (expandEntry store e acc).1) data) k = some d') :
    GoMap.get? data k = some d' ∨ ∃ e ∈ l, d' ∈ e.2.children := by
  induction l generalizing data with
  | nil => exact Or.inl h
  | cons e l ih =>
    rcases ih _ h with h1 | ⟨x, hx, hc⟩
    · rcases expandEntry_child store e data k d' h1 with h2 | h2
      · exact Or.inl h2
      · exact Or.inr ⟨e, List.mem_cons_self _ _, h2⟩
    · exact Or.inr ⟨x, List.mem_cons_of_mem _ hx, hc⟩

theorem mem_todo_iff (st : Expansion) (e : Key × fieldDescription) :
    e ∈ st.todo ↔
      GoMap.get? st.data e.1 = some e.2 ∧ e.2.isLeaf = false ∧ e ∉ st.expanded := by
  unfold Expansion.todo
  obtain ⟨k, d⟩ := e
  rw [List.mem_filter, GoMap_mem_range_iff, ← isExpanded_iff]
  cases d.isLeaf <;> cases st.isExpanded (k, d) <;> simp

theorem isLeaf_depth (d : fieldDescription) :
    (d.isLeaf = true → d.depth = 0) ∧ (d.isLeaf = false → 0 < d.depth) := by
  cases d <;> simp [fieldDescription.isLeaf, fieldDescription.depth]

theorem expandRound_bounded
    (order : List (Key × fieldDescription) → List (Key × fieldDescription))
    (hperm : ∀ l, (order l).Perm l) (store : Key → Option JSON) (j : Nat) (st : Expansion)
    (h : Expansion.Bounded (j + 1) st) :
    Expansion.Bounded j (expandRound order store st) := by
  intro k d hget hnot
  unfold expandRound at hget hnot
  rw [foldl_step_expanded, List.mem_append, List.mem_reverse] at hnot
  rw [foldl_step_data] at hget
  have hmem : ∀ e, e ∈ order st.todo ↔ e ∈ st.todo := fun e => (hperm st.todo).mem_iff
  rcases foldl_expandEntry_child store _ _ k d hget with hold | ⟨e, he, hchild⟩
  · cases hl : d.isLeaf with
    | true =>
      rw [(isLeaf_depth d).1 hl]
      exact Nat.zero_le _
    | false =>
      exact absurd (Or.inl ((hmem (k, d)).2 ((mem_todo_iff st (k, d)).2
        ⟨hold, hl, fun hx => hnot (Or.inr hx)⟩))) hnot
  · have hte := (mem_todo_iff st e).1 ((hmem e).1 he)
    have h1 : e.2.depth ≤ j + 1 := h e.1 e.2 hte.1 hte.2.2
    have h2 := children_depth e.2 d hchild
    omega

theorem bounded_zero_todo (st : Expansion) (h : Expansion.Bounded 0 st) : st.todo = [] := by
  rw [List.eq_nil_iff_forall_not_mem]
  intro e he
  have hte := (mem_todo_iff st e).1 he
  have h1 : e.2.depth ≤ 0 := h e.1 e.2 hte.1 hte.2.2
  have h2 := (isLeaf_depth e.2).2 hte.2.1
  omega

theorem expand_terminates
    (order : List (Key × fieldDescription) → List (Key × fieldDescription))
    (hperm : ∀ l, (order l).Perm l) (store : Key → Option JSON) :
    ∀ (j : Nat) (st : Expansion), Expansion.Bounded j st →
      ∃ R, expand order store j st = some R ∧ R.todo = [] := by
  intro j
  induction j with
  | zero =>
    intro st h
    have h0 := bounded_zero_todo st h
    exact ⟨st, by simp [expand, h0], h0⟩
  | succ n ih =>
    intro st h
    by_cases hempty : st.todo.isEmpty = true
    · exact ⟨st, by simp only [expand, hempty, if_true], List.isEmpty_iff.1 hempty⟩
    · obtain ⟨R, hR, hR0⟩ := ih _ (expandRound_bounded order hperm store n st h)
      exact ⟨R, by simp only [expand, hempty, if_false]; exact hR, hR0⟩

theorem seed_bounded (b : body) : Expansion.Bounded b.depth ⟨body.keys b [], [], []⟩ := by
  intro k d hget _
  simp only at hget
  rw [body_keys_get?] at hget
  split_ifs at hget
  exact depth_of_get? b.fields k.Field d hget

/-- C21. Every entry that the method `keys` of a description `d` leaves in the map is an
entry of the map before the call, or its description is a direct child of `d`: the
description of a sub-field of `d`, or the inner description of the template `d`; the depth of
a direct child is smaller than the depth of `d`. Hence the engine on a root of depth at most
`n` reaches within `n` passes, in whatever order it processes the entries it has collected,
a map in which no entry is left to expand. -/
theorem keys_descend (d : fieldDescription) (key : Key) (v : JSON) :
    (∀ data k d', GoMap.get? (d.keys key v data).1 k = some d' →
      GoMap.get? data k = some d' ∨ (d' ∈ d.children ∧ d'.depth < d.depth)) ∧
    (∀ d' ∈ d.children, d'.depth < d.depth) ∧
    (∀ (order : List (Key × fieldDescription) → List (Key × fieldDescription))
      (store : Key → Option JSON) (b : body) (n : Nat),
      (∀ l, (order l).Perm l) → b.depth ≤ n →
      ∃ st, Update order store n b = some st ∧ st.todo = []) := by
  refine ⟨?_, fun d' h => children_depth d d' h, ?_⟩
  · intro data k d' h
    rcases keys_child d key v data k d' h with h1 | h1
    · exact Or.inl h1
    · exact Or.inr ⟨h1, children_depth d d' h1⟩
  · intro order store b n hperm hn
    obtain ⟨R, hR, hR0⟩ := expand_terminates order hperm store b.depth _ (seed_bounded b)
    exact ⟨R, expand_mono order store b.depth _ R hR n hn, hR0⟩

/-- C21, witness: the root of the test `Partial merged fields, generic lookup` has the depth
3, and the engine reaches the fixed point on the test data set within three passes. -/
theorem keys_descend_witness :
    genericLookup.depth = 3 ∧
    ∃ st, Update id (GoMap.get? dataSet) 3 genericLookup = some st ∧ st.todo = [] :=
  ⟨by decide,
    (keys_descend .nil ⟨"gb", 1, "content_object_id"⟩ .null).2.2 id (GoMap.get? dataSet)
      genericLookup 3 (fun l => List.Perm.refl l) (by decide)⟩

/-! ## The keys that are written -/

theorem fieldsMap_keys_written (F : fieldsMap) (c : String) (i : Int) (data : KeyMap)
    (k : Key) (h : GoMap.get? (fieldsMap.keys F c i data) k ≠ GoMap.get? data k) :
    k.Collection = c ∧ k.ID = i := by
  rw [fieldsMap_keys_get?] at h
  split_ifs at h with hc
  · exact ⟨hc.1, hc.2.1⟩
  · exact absurd rfl h

theorem fold_keys_written (F : fieldsMap) (ps : List (String × Int)) (data : KeyMap)
    (k : Key)
    (h : GoMap.get? (ps.foldl (fun d p => fieldsMap.keys F p.1 p.2 d) data) k ≠
      GoMap.get? data k) :
    (k.Collection, k.ID) ∈ ps := by
  rw [fold_keys_get?] at h
  split_ifs at h with hc
  · exact hc.1
  · exact absurd rfl h

theorem loop_written (F : fieldsMap) (cids : List String) (data : KeyMap) (k : Key)
    (h : GoMap.get? (genericRelationListField.loop F cids data).1 k ≠ GoMap.get? data k) :
    ∃ cid ∈ cids, collectionID cid = some (k.Collection, k.ID) := by
  induction cids generalizing data with
  | nil => exact absurd rfl h
  | cons cid cids ih =>
    simp only [genericRelationListField.loop] at h
    rw [genericRelationField_add_eq] at h
    cases hc : collectionID cid with
    | none =>
      rw [hc] at h
      exact absurd rfl h
    | some p =>
      rw [hc] at h
      by_cases h1 : GoMap.get? (fieldsMap.keys F p.1 p.2 data) k = GoMap.get? data k
      · rw [← h1] at h
        obtain ⟨x, hx, hxc⟩ := ih _ h
        exact ⟨x, List.mem_cons_of_mem _ hx, hxc⟩
      · have h2 := fieldsMap_keys_written F p.1 p.2 data k h1
        exact ⟨cid, List.mem_cons_self _ _, by rw [hc, h2.1, h2.2]⟩

theorem body_UnmarshalJSON_ok (quote : String → String) (j : JSON) (b : body)
    (h : body.UnmarshalJSON quote j = .ok b) :
    (∀ id ∈ b.ids, 0 < id) ∧ isCollectionName b.collection = true := by
  unfold body.UnmarshalJSON at h
  cases hd : body.unmarshalStruct quote j with
  | error e =>
    rw [hd] at h
    cases h
  | ok d =>
    rw [hd] at h
    have hp := body_check_positive d b h
    exact ⟨hp.2.2.2.1, by rw [← MatchString_reCollection]; exact hp.2.2.2.2.2.2⟩

/-- C22, amended. A key that `body.keys` writes for a root that the parser has built has a
positive id and a collection that the pattern of the parser accepts. A key that a method
`keys` writes has the collection and the id that the method reads, without a check of the
id: for a relation the collection of the description and the integer that the value holds (0
for `null`), for a relation-list one of the integers of the value, for the generic relations
the text before the first `/` and the integer after it, and for a template the collection and
the id of the key of the template. -/
theorem keys_written_key (key : Key) (v : JSON) (data : KeyMap) (k : Key) :
    (∀ quote j b, body.UnmarshalJSON quote j = .ok b →
      (GoMap.get? (body.keys b []) k).isSome = true →
      0 < k.ID ∧ isCollectionName k.Collection = true) ∧
    (∀ C F, GoMap.get? (relationField.keys C F key v data).1 k ≠ GoMap.get? data k →
      k.Collection = C ∧ k.ID = (decodeInt v 0).1) ∧
    (∀ C F, GoMap.get? (relationListField.keys C F key v data).1 k ≠ GoMap.get? data k →
      k.Collection = C ∧ k.ID ∈ (decodeSlice decodeInt 0 v Slice.nil).1.elems) ∧
    (∀ F, GoMap.get? (genericRelationField.keys F key v data).1 k ≠ GoMap.get? data k →
      collectionID (decodeString v "").1 = some (k.Collection, k.ID)) ∧
    (∀ F, GoMap.get? (genericRelationListField.keys F key v data).1 k ≠ GoMap.get? data k →
      ∃ cid ∈ (decodeSlice decodeString "" v Slice.nil).1.elems,
        collectionID cid = some (k.Collection, k.ID)) ∧
    (∀ d, GoMap.get? (templateField.keys d key v data).1 k ≠ GoMap.get? data k →
      k.Collection = key.Collection ∧ k.ID = key.ID) := by
  refine ⟨?_, ?_, ?_, ?_, ?_, ?_⟩
  · intro quote j b hb hk
    obtain ⟨hids, hcol⟩ := body_UnmarshalJSON_ok quote j b hb
    rw [body_keys_get?] at hk
    split_ifs at hk with hc
    · exact ⟨hids _ hc.2, by rw [hc.1]; exact hcol⟩
    · cases hk
  · intro C F h
    simp only [relationField.keys] at h
    split_ifs at h
    · exact absurd rfl h
    · exact fieldsMap_keys_written F C _ data k h
  · intro C F h
    simp only [relationListField.keys] at h
    split_ifs at h
    · exact absurd rfl h
    · have h1 : GoMap.get?
          (((decodeSlice decodeInt 0 v Slice.nil).1.elems.map (fun id => (C, id))).foldl
            (fun d p => fieldsMap.keys F p.1 p.2 d) data) k ≠ GoMap.get? data k := by
        rw [List.foldl_map]
        exact h
      have h2 := fold_keys_written F _ data k h1
      obtain ⟨id, hid, heq⟩ := List.mem_map.1 h2
      simp only [Prod.mk.injEq] at heq
      exact ⟨heq.1.symm, heq.2 ▸ hid⟩
  · intro F h
    simp only [genericRelationField.keys] at h
    split_ifs at h
    · exact absurd rfl h
    · rw [genericRelationField_add_eq] at h
      cases hc : collectionID (decodeString v "").1 with
      | none =>
        rw [hc] at h
        exact absurd rfl h
      | some p =>
        rw [hc] at h
        have h2 := fieldsMap_keys_written F p.1 p.2 data k h
        rw [h2.1, h2.2]
  · intro F h
    simp only [genericRelationListField.keys] at h
    split_ifs at h
    · exact absurd rfl h
    · exact loop_written F _ data k h
  · intro d h
    simp only [templateField.keys] at h
    split_ifs at h
    · exact absurd rfl h
    · have h1 := fold_set_const_get?
        ((decodeSlice decodeString "" v Slice.nil).1.elems.map (templateKey key)) d data k
      rw [List.foldl_map] at h1
      have h2 : GoMap.get? (List.foldl (fun m r => GoMap.set m (templateKey key r) d) data
          (decodeSlice decodeString "" v Slice.nil).1.elems) k ≠ GoMap.get? data k := h
      rw [h1] at h2
      split_ifs at h2 with hm
      · obtain ⟨r, _, hr⟩ := List.mem_map.1 hm
        rw [← hr]
        exact ⟨rfl, rfl⟩
      · exact absurd rfl h2

/-- C22, the claim as stated fails. The relation `a/1/b_id` to `b` with the stored value `0`
returns no error and writes the key `b/0/name`, whose id is not positive; the generic relation
`gb/1/content_object_id` with the stored value `"B/0"` returns no error and writes the key
`B/0/name`, whose id is not positive and whose collection the pattern does not accept. -/
theorem keys_written_key_counterexample :
    relationField.keys "b" [("name", .nil)] ⟨"a", 1, "b_id"⟩ (.num 0) [] =
      ([(⟨"b", 0, "name"⟩, .nil)], none) ∧
    genericRelationField.keys [("name", .nil)] ⟨"gb", 1, "content_object_id"⟩
        (.str "B/0") [] =
      ([(⟨"B", 0, "name"⟩, .nil)], none) ∧
    isCollectionName "B" = false := by
  decide

/-- C22, witness: the root of the test `Partial merged fields, generic lookup` writes the key
`gb/1/content_object_id`, and the relation-list `b/1/c_ids` with the value `[1]` writes the
key `c/1/c`. -/
theorem keys_written_key_witness :
    ((0 : Int) < 1 ∧ isCollectionName "gb" = true) ∧
    ("c" = "c" ∧ (1 : Int) ∈ (decodeSlice decodeInt 0 (.arr [.num 1]) Slice.nil).1.elems) :=
  ⟨(keys_written_key ⟨"b", 1, "c_ids"⟩ (.arr [.num 1]) [] ⟨"gb", 1, "content_object_id"⟩).1
      quoteASCII genericLookupRequest genericLookup (by decide) (by decide),
    (keys_written_key ⟨"b", 1, "c_ids"⟩ (.arr [.num 1]) [] ⟨"c", 1, "c"⟩).2.2.1 "c"
      [("c", .nil)] (by decide)⟩

/-! ## A root with an empty `fields` object -/

theorem body_decode_empty_fields (quote : String → String) (ns : List Int) (c : String)
    (hfit : ∀ n ∈ ns, fitsInt n = true) :
    body.decode quote
        [("ids", .arr (ns.map JSON.num)), ("collection", .str c), ("fields", .obj [])]
        ⟨Slice.nil, "", none⟩ false =
      .ok (⟨⟨ns, []⟩, c, some []⟩, false) := by
  have h1 : isField "ids" "ids" = true := by decide
  have h2 : isField "ids" "collection" = false := by decide
  have h3 : isField "collection" "collection" = true := by decide
  have h4 : isField "ids" "fields" = false := by decide
  have h5 : isField "collection" "fields" = false := by decide
  have h6 : isField "fields" "fields" = true := by decide
  have h7 : fieldsMap.UnmarshalJSON quote (.obj []) = .ok [] := by
    simp only [fieldsMap.UnmarshalJSON, unmarshalFields, lastMembers, fieldsMap.collect]
  simp only [body.decode, h1, h2, h3, h4, h5, h6, h7, decodeSlice_num ns hfit, decodeString,
    if_true, Bool.false_eq_true, if_false, Bool.or_false]

/-- C23, amended. The parser asks for the attribute `fields` and not for an entry in it: a
root object with the attributes `ids`, a list of positive integers that is not empty,
`collection`, a name that the pattern accepts, and `fields`, the empty object, is parsed; the
map of the fields of the root is empty, and `body.keys` writes no key for it. -/
theorem body_UnmarshalJSON_empty_fields (quote : String → String) (ns : List Int) (c : String)
    (hne : ns ≠ []) (hpos : ∀ n ∈ ns, 0 < n) (hfit : ∀ n ∈ ns, fitsInt n = true)
    (hc : isCollectionName c = true) :
    body.UnmarshalJSON quote
        (.obj [("ids", .arr (ns.map JSON.num)), ("collection", .str c), ("fields", .obj [])]) =
      .ok ⟨ns, c, []⟩ ∧
    ∀ k, GoMap.get? (body.keys ⟨ns, c, []⟩ []) k = none := by
  refine ⟨?_, fun k => by rw [body_keys_get?]; split_ifs <;> rfl⟩
  rw [body_UnmarshalJSON_of_decode quote _ _ (body_decode_empty_fields quote ns c hfit)]
  have hlen : ns.length ≠ 0 := fun h => hne (List.length_eq_zero.1 h)
  have hany : ns.any (fun id => decide (id ≤ 0)) = false := by
    rw [Bool.eq_false_iff]
    intro h
    obtain ⟨x, hx, hx0⟩ := List.any_eq_true.1 h
    have := hpos x hx
    simp only [decide_eq_true_eq] at hx0
    omega
  have hcne : c ≠ "" := by
    intro h
    subst h
    revert hc
    decide
  have hm : MatchString reCollection c = true := by rw [MatchString_reCollection]; exact hc
  simp only [body.check, Bool.false_eq_true, if_false, hlen, hany, hcne, hm, Bool.not_true]

/-- C23, the claim as stated fails: the root `{"ids": [1], "collection": "user", "fields": {}}`
is parsed, and the map of its fields has no entry. -/
theorem body_UnmarshalJSON_empty_fields_counterexample :
    body.UnmarshalJSON quoteASCII
        (.obj [("ids", .arr [.num 1]), ("collection", .str "user"), ("fields", .obj [])]) =
      .ok ⟨[1], "user", []⟩ ∧
    GoMap.size (⟨[1], "user", []⟩ : body).fields = 0 := by
  decide

/-- C23, witness: the root `d/{1,2}` with the empty `fields` object. -/
theorem body_UnmarshalJSON_empty_fields_witness :
    body.UnmarshalJSON quoteASCII
        (.obj [("ids", .arr [.num 1, .num 2]), ("collection", .str "d"),
          ("fields", .obj [])]) =
      .ok ⟨[1, 2], "d", []⟩ :=
  (body_UnmarshalJSON_empty_fields quoteASCII [1, 2] "d" (by decide) (by decide) (by decide)
    (by decide)).1

/-! ## The name of a template field -/

theorem replaceDollar_length (l new : List Char) (h : '$' ∈ l) :
    (replaceDollar l new).length + 1 = l.length + new.length := by
  induction l with
  | nil => cases h
  | cons c cs ih =>
    simp only [replaceDollar]
    split_ifs with hc
    · simp only [List.length_append, List.length_cons]
      omega
    · have hcs : '$' ∈ cs := by
        rcases List.mem_cons.1 h with h1 | h1
        · exact absurd h1.symm hc
        · exact h1
      simp only [List.length_cons]
      have := ih hcs
      omega

theorem replaceDollar_absent (l new : List Char) (h : '$' ∉ l) : replaceDollar l new = l := by
  induction l with
  | nil => rfl
  | cons c cs ih =>
    have hc : c ≠ '$' := fun hc => h (hc ▸ List.mem_cons_self _ _)
    have hcs : '$' ∉ cs := fun hcs => h (List.mem_cons_of_mem _ hcs)
    simp only [replaceDollar, hc, if_false, ih hcs]

theorem unmarshalField_template (quote : String → String) :
    unmarshalField quote (.obj [("type", .str "template")]) = .ok (.templateField .nil) := by
  have hT : decodeType [("type", JSON.str "template")] ("", false) = ("template", false) := by
    decide
  rw [unmarshalField_obj quote _ "template" hT]
  have hd : templateField.decode quote [("type", JSON.str "template")] none = none :=
    templateField_decode_absent quote _ none (by decide)
  have h1 : ¬ ("template" = "relation") := by decide
  have h2 : ¬ ("template" = "relation-list") := by decide
  have h3 : ¬ ("template" = "generic-relation") := by decide
  have h4 : ¬ ("template" = "generic-relation-list") := by decide
  rw [if_neg h1, if_neg h2, if_neg h3, if_neg h4, if_pos rfl]
  simp only [templateField.UnmarshalJSON, hd, templateField.check]
  rfl

/-- C24, amended. The parser accepts a template for every name of a field that the pattern
of the names accepts, with a `$` or without one. For the key of a template whose field
contains a `$`, the key that `templateField.keys` builds for a replacement that is not empty
differs from the key of the template; for a field without a `$` it is the key of the template
itself, for every replacement. -/
theorem templateKey_differs (key : Key) (r : String) :
    ('$' ∈ key.Field.toList → r ≠ "" → templateKey key r ≠ key) ∧
    ('$' ∉ key.Field.toList → templateKey key r = key) ∧
    (∀ (quote : String → String) (name : String), isFieldName name = true →
      fieldsMap.UnmarshalJSON quote (.obj [(name, .obj [("type", .str "template")])]) =
        .ok [(name, .templateField .nil)]) := by
  refine ⟨?_, ?_, ?_⟩
  · intro h hr heq
    have hlen := replaceDollar_length key.Field.toList ('$' :: r.toList) h
    have hfield : (templateKey key r).Field = key.Field := by rw [heq]
    have hlist : replaceDollar key.Field.toList ('$' :: r.toList) = key.Field.toList := by
      have := congrArg String.toList hfield
      exact this
    rw [hlist] at hlen
    have hrl : r.toList = [] := by
      cases hl : r.toList with
      | nil => rfl
      | cons a l =>
        rw [hl] at hlen
        simp only [List.length_cons] at hlen
        omega
    apply hr
    cases r with
    | mk data =>
      have : data = [] := hrl
      subst this
      rfl
  · intro h
    unfold templateKey
    rw [replaceDollar_absent _ _ h]
    cases key
    rfl
  · intro quote name hname
    have hm : MatchString reField name = true := by rw [MatchString_reField]; exact hname
    simp only [fieldsMap.UnmarshalJSON, unmarshalFields, lastMembers, List.any_nil,
      Bool.false_eq_true, if_false, unmarshalField_template, fieldsMap.collect, hm,
      Bool.not_true, GoMap.set]

/-- C24, the claim as stated fails. The root with the field `title` of the type `template` is
parsed, although `title` has no `$`; with the value `["1"]` the method `keys` of this template
builds the key `d/1/title` of the template itself and replaces its entry in the map by the
inner description. -/
theorem templateKey_differs_counterexample :
    body.UnmarshalJSON quoteASCII
        (.obj [("ids", .arr [.num 1]), ("collection", .str "d"),
          ("fields", .obj [("title", .obj [("type", .str "template")])])]) =
      .ok ⟨[1], "d", [("title", .templateField .nil)]⟩ ∧
    templateKey ⟨"d", 1, "title"⟩ "1" = ⟨"d", 1, "title"⟩ ∧
    templateField.keys .nil ⟨"d", 1, "title"⟩ (.arr [.str "1"])
        [(⟨"d", 1, "title"⟩, .templateField .nil)] =
      ([(⟨"d", 1, "title"⟩, .nil)], none) := by
  decide

/-- C24, witness: the template `d/2/b_$_ids` and the replacement `4`, the field `title`
without a `$`, and the parser on a template with the name `b_$_ids`. -/
theorem templateKey_differs_witness :
    templateKey ⟨"d", 2, "b_$_ids"⟩ "4" ≠ ⟨"d", 2, "b_$_ids"⟩ ∧
    templateKey ⟨"d", 1, "title"⟩ "4" = ⟨"d", 1, "title"⟩ ∧
    fieldsMap.UnmarshalJSON quoteASCII
        (.obj [("b_$_ids", .obj [("type", .str "template")])]) =
      .ok [("b_$_ids", .templateField .nil)] :=
  ⟨(templateKey_differs ⟨"d", 2, "b_$_ids"⟩ "4").1 (by decide) (by decide),
    (templateKey_differs ⟨"d", 1, "title"⟩ "4").2.1 (by decide),
    (templateKey_differs ⟨"d", 1, "title"⟩ "4").2.2 quoteASCII "b_$_ids" (by decide)⟩

/-! ## The map after an error -/

theorem loop_append_valid (F : fieldsMap) (pre rest : List String) (data : KeyMap)
    (h : ∀ cid ∈ pre, isCollectionID cid = true) :
    genericRelationListField.loop F (pre ++ rest) data =
      genericRelationListField.loop F rest
        ((pre.filterMap collectionID).foldl (fun d p => fieldsMap.keys F p.1 p.2 d) data) := by
  induction pre generalizing data with
  | nil => rfl
  | cons cid pre ih =>
    obtain ⟨p, hp, hadd⟩ := genericRelationField_add_valid F cid data
      (h cid (List.mem_cons_self _ _))
    simp only [List.cons_append, genericRelationListField.loop, hadd, List.filterMap_cons, hp,
      List.foldl_cons]
    exact ih _ (fun c hc => h c (List.mem_cons_of_mem _ hc))

/-- C25, amended. When the method `keys` of a relation, of a relation-list, of a generic
relation or of a template returns an error, the map is as it was before the call, and so it
is when the method of a generic-relation-list returns the error of the decoding. The loop of
a generic-relation-list writes the keys of the strings `collection/id` that come before the
first string that is not of this form, and returns the error `invalid collection id` for
this string with these keys in the map. -/
theorem keys_error_map (key : Key) (v : JSON) (data : KeyMap) :
    (∀ C F err, (relationField.keys C F key v data).2 = some err →
      (relationField.keys C F key v data).1 = data) ∧
    (∀ C F err, (relationListField.keys C F key v data).2 = some err →
      (relationListField.keys C F key v data).1 = data) ∧
    (∀ F err, (genericRelationField.keys F key v data).2 = some err →
      (genericRelationField.keys F key v data).1 = data) ∧
    (∀ d err, (templateField.keys d key v data).2 = some err →
      (templateField.keys d key v data).1 = data) ∧
    (∀ F key', (genericRelationListField.keys F key v data).2 = some (.decoding key') →
      (genericRelationListField.keys F key v data).1 = data) ∧
    (∀ F pre bad post, (∀ cid ∈ pre, isCollectionID cid = true) → isCollectionID bad = false →
      genericRelationListField.keys F key (.arr ((pre ++ bad :: post).map JSON.str)) data =
        ((pre.filterMap collectionID).foldl (fun d p => fieldsMap.keys F p.1 p.2 d) data,
          some (.invalidCollectionID bad))) := by
  refine ⟨?_, ?_, ?_, ?_, ?_, ?_⟩
  · intro C F err h
    by_cases hb : (decodeInt v 0).2 = true
    · simp [relationField.keys, hb]
    · simp [relationField.keys, hb] at h
  · intro C F err h
    by_cases hb : (decodeSlice decodeInt 0 v Slice.nil).2 = true
    · simp [relationListField.keys, hb]
    · simp [relationListField.keys, hb] at h
  · intro F err h
    by_cases hb : (decodeString v "").2 = true
    · simp [genericRelationField.keys, hb]
    · simp only [genericRelationField.keys, hb, Bool.false_eq_true, if_false] at h ⊢
      rw [genericRelationField_add_eq] at h ⊢
      cases hc : collectionID (decodeString v "").1 with
      | none => rfl
      | some p =>
        rw [hc] at h
        cases h
  · intro d err h
    by_cases hb : (decodeSlice decodeString "" v Slice.nil).2 = true
    · simp [templateField.keys, hb]
    · simp [templateField.keys, hb] at h
  · intro F key' h
    by_cases hb : (decodeSlice decodeString "" v Slice.nil).2 = true
    · simp [genericRelationListField.keys, hb]
    · simp only [genericRelationListField.keys, hb, Bool.false_eq_true, if_false] at h
      rw [genericRelationListField_loop_error] at h
      cases hf : List.find? (fun c => !isCollectionID c)
          (decodeSlice decodeString "" v Slice.nil).1.elems with
      | none =>
        rw [hf] at h
        cases h
      | some c =>
        rw [hf] at h
        simp at h
  · intro F pre bad post hpre hbad
    unfold genericRelationListField.keys
    rw [decodeSlice_str]
    simp only [Bool.false_eq_true, if_false]
    rw [loop_append_valid F pre (bad :: post) data hpre]
    have hnone : collectionID bad = none := by
      unfold isCollectionID at hbad
      cases hc : collectionID bad with
      | none => rfl
      | some p =>
        rw [hc] at hbad
        cases hbad
    simp only [genericRelationListField.loop, genericRelationField_add_invalid F bad _ hnone]

/-- C25, the claim as stated fails. The generic-relation-list `ga/1/content_object_ids` with
the value `["a/1", "x"]` returns the error `invalid collection id: x`, and the key `a/1/name`
of the first string is in the map. -/
theorem keys_error_map_counterexample :
    genericRelationListField.keys [("name", .nil)] ⟨"ga", 1, "content_object_ids"⟩
        (.arr [.str "a/1", .str "x"]) [] =
      ([(⟨"a", 1, "name"⟩, .nil)], some (.invalidCollectionID "x")) := by
  decide

/-- C25, witness: the relation `a/1/b_id` with the value `"x"` leaves the map as it is, and
the generic-relation-list with the value `["a/1", "c/1", "x", "c/2"]` leaves the keys of `a/1`
and `c/1` in the map. -/
theorem keys_error_map_witness :
    (relationField.keys "b" [("name", .nil)] ⟨"a", 1, "b_id"⟩ (.str "x")
      [(⟨"a", 1, "b_id"⟩, .nil)]).1 = [(⟨"a", 1, "b_id"⟩, .nil)] ∧
    genericRelationListField.keys [("name", .nil)] ⟨"ga", 2, "content_object_ids"⟩
        (.arr [.str "a/1", .str "c/1", .str "x", .str "c/2"]) [] =
      ([(⟨"a", 1, "name"⟩, .nil), (⟨"c", 1, "name"⟩, .nil)],
        some (.invalidCollectionID "x")) :=
  ⟨(keys_error_map ⟨"a", 1, "b_id"⟩ (.str "x") [(⟨"a", 1, "b_id"⟩, .nil)]).1 "b"
      [("name", .nil)] (.decoding ⟨"a", 1, "b_id"⟩) (by decide),
    ((keys_error_map ⟨"ga", 2, "content_object_ids"⟩ .null []).2.2.2.2.2 [("name", .nil)]
      ["a/1", "c/1"] "x" ["c/2"] (by decide) (by decide)).trans (by decide)⟩

/-! ## The entry of a key after two writes -/

/-- C15, amended. A write to a key that is in the map replaces its description, and nothing
is merged: after `fieldsMap.keys` with the sub-fields `F1` and then with the sub-fields `F2`
for the same collection and id, the entry of a key whose field is a name of `F2` is the
description of `F2`, also where `F1` has another description for the name; the entry of a key
whose field is a name of `F1` only is the description of `F1`, and every other entry is as
before. No method `keys` removes a key from the map. Every entry that the method `keys` of a
description adds to the map holds a direct child of this description: the expansion of the
entry that the map holds after the two writes adds sub-fields of the description that was
written last. -/
theorem map_entry_last_write (F1 F2 : fieldsMap) (c : String) (i : Int) (data : KeyMap) :
    (∀ k, GoMap.get? (fieldsMap.keys F2 c i (fieldsMap.keys F1 c i data)) k =
      if k.Collection = c ∧ k.ID = i ∧ (GoMap.get? F2 k.Field).isSome = true then
        GoMap.get? F2 k.Field
      else if k.Collection = c ∧ k.ID = i ∧ (GoMap.get? F1 k.Field).isSome = true then
        GoMap.get? F1 k.Field
      else GoMap.get? data k) ∧
    (∀ (d : fieldDescription) (key : Key) (v : JSON) (k : Key),
      (GoMap.get? data k).isSome = true →
      (GoMap.get? (d.keys key v data).1 k).isSome = true) ∧
    (∀ (d : fieldDescription) (key : Key) (v : JSON) (k : Key) (d' : fieldDescription),
      GoMap.get? (d.keys key v data).1 k = some d' →
      GoMap.get? data k = some d' ∨ d' ∈ d.children) := by
  refine ⟨?_, fun d key v k h => keys_isSome d key v data k h,
    fun d key v k d' h => keys_child d key v data k d' h⟩
  intro k
  rw [fieldsMap_keys_get?, fieldsMap_keys_get?]

/-- C15, the claim as stated fails. The relation-lists `a/1/x_ids` and `a/1/y_ids` both lead
to `b/1`, the first with the sub-field `c_ids -> c{c}` and the second with
`c_ids -> c{title}`. After both writes the entry of `b/1/c_ids` is the second description,
and its expansion with the value `[1]` adds `c/1/title` and not `c/1/c`. -/
theorem map_entry_last_write_counterexample :
    GoMap.get?
      (relationListField.keys "b" [("c_ids", .relationListField "c" [("title", .nil)])]
        ⟨"a", 1, "y_ids"⟩ (.arr [.num 1])
        (relationListField.keys "b" [("c_ids", .relationListField "c" [("c", .nil)])]
          ⟨"a", 1, "x_ids"⟩ (.arr [.num 1]) []).1).1 ⟨"b", 1, "c_ids"⟩ =
      some (.relationListField "c" [("title", .nil)]) ∧
    (fieldDescription.keys (.relationListField "c" [("title", .nil)]) ⟨"b", 1, "c_ids"⟩
      (.arr [.num 1])
      (relationListField.keys "b" [("c_ids", .relationListField "c" [("title", .nil)])]
        ⟨"a", 1, "y_ids"⟩ (.arr [.num 1])
        (relationListField.keys "b" [("c_ids", .relationListField "c" [("c", .nil)])]
          ⟨"a", 1, "x_ids"⟩ (.arr [.num 1]) []).1).1).1 =
      [(⟨"b", 1, "c_ids"⟩, .relationListField "c" [("title", .nil)]),
        (⟨"c", 1, "title"⟩, .nil)] := by
  decide

/-- C15, witness: the two writes of the counterexample, as writes of `fieldsMap.keys`; a key
`c/1/c` of the map that stays in the map when the second description is expanded; and the
entry `c/1/title` that this expansion adds, which holds a child of the second description. -/
theorem map_entry_last_write_witness :
    GoMap.get?
      (fieldsMap.keys [("c_ids", .relationListField "c" [("title", .nil)])] "b" 1
        (fieldsMap.keys [("c_ids", .relationListField "c" [("c", .nil)])] "b" 1 []))
      ⟨"b", 1, "c_ids"⟩ = some (.relationListField "c" [("title", .nil)]) ∧
    (GoMap.get?
      (fieldDescription.keys (.relationListField "c" [("title", .nil)]) ⟨"b", 1, "c_ids"⟩
        (.arr [.num 1]) [(⟨"c", 1, "c"⟩, .nil)]).1 ⟨"c", 1, "c"⟩).isSome = true ∧
    fieldDescription.nil ∈
      (fieldDescription.relationListField "c" [("title", .nil)]).children :=
  ⟨((map_entry_last_write [("c_ids", .relationListField "c" [("c", .nil)])]
      [("c_ids", .relationListField "c" [("title", .nil)])] "b" 1 []).1
      ⟨"b", 1, "c_ids"⟩).trans (by decide),
    (map_entry_last_write [] [] "b" 1 [(⟨"c", 1, "c"⟩, .nil)]).2.1
      (.relationListField "c" [("title", .nil)]) ⟨"b", 1, "c_ids"⟩ (.arr [.num 1])
      ⟨"c", 1, "c"⟩ (by decide),
    ((map_entry_last_write [] [] "b" 1 []).2.2
      (.relationListField "c" [("title", .nil)]) ⟨"b", 1, "c_ids"⟩ (.arr [.num 1])
      ⟨"c", 1, "title"⟩ .nil (by decide)).resolve_left (by decide)⟩

end Keysbuilder
